import Mathlib

/-!
# CryptoMiniSat: clause records and implication stamps

A shallow embedding of `src/cryptominisat4/stamp.cpp` and `src/cmsat/clause.h`.

* C++ vectors are lists; an in-place update of a vector is a function that
  returns the new vector.
* Unsigned machine integers are natural numbers; where the C++ arithmetic can
  wrap, the width is written out with `%`.
* An `assert` is a check whose failure makes the operation return `none`.
* `tstamp[i]` is `tstamp.getD i default`: a read inside the table is the
  entry, a read outside it gives the default entry.

The headers `solvertypes.h`, `stamp.h`, `clabstraction.h`, `alg.h`,
`varreplacer.h` and `varupdatehelper.h` are not part of the sources at hand.
What the embedded functions need from them is either a parameter (`Sorters`,
the replacer, the helpers of `updateVars`) or a definition marked as modelled.
-/

namespace CMSat

/-! ## Literals (solvertypes.h) -/

/-- Modelled from the spec: a literal of `solvertypes.h` (not under src/) is a
variable id plus a polarity, stored as the literal id `2 * var + sign` that
indexes the stamp table ("indexed by literal id (2× variable count)"). -/
structure Lit where
  x : Nat
deriving DecidableEq, Repr

namespace Lit

/-- Modelled from the spec: `Lit(var, sign)`. -/
def mkLit (var : Nat) (sign : Bool) : Lit := ⟨2 * var + (if sign then 1 else 0)⟩

/-- Modelled from the spec: `toInt()`, the literal id. -/
def toInt (l : Lit) : Nat := l.x

/-- Modelled from the spec: `var()`, the variable of the literal. -/
def var (l : Lit) : Nat := l.x / 2

/-- Modelled from the spec: `sign()`, the polarity of the literal. -/
def sign (l : Lit) : Bool := l.x % 2 == 1

/-- Modelled from the spec: `operator~`, the complement (the lowest bit of the
literal id is flipped). -/
def neg (l : Lit) : Lit := ⟨if l.x % 2 = 0 then l.x + 1 else l.x - 1⟩

end Lit

/-- Modelled from the spec: `var_Undef` of `solvertypes.h` (not under src/). -/
def var_Undef : Nat := 2147483647

/-- Modelled from the spec: `lit_Undef`, the sentinel literal that stands for
"no literal" / "no dominator" (`solvertypes.h` is not under src/). -/
def lit_Undef : Lit := Lit.mkLit var_Undef false

/-! ## Timestamps (stamp.h) -/

/-- The two stamp domains: `enum StampType { STAMP_IRRED = 0, STAMP_RED = 1 }`. -/
inductive StampType where
  | STAMP_IRRED
  | STAMP_RED
deriving DecidableEq, Repr

open StampType

/-- Modelled from the spec: `struct Timestamp` of `stamp.h` (not under src/):
per domain a discovery interval `[start, end]` and one dominator literal. The
arrays `start[2]`, `end[2]` and `dominator[2]` are pairs of fields. -/
structure Timestamp where
  startIrred : Nat
  startRed : Nat
  endIrred : Nat
  endRed : Nat
  domIrred : Lit
  domRed : Lit
deriving DecidableEq, Repr

namespace Timestamp

/-- Modelled from the spec: `Timestamp()`, the "unvisited" entry: every
interval at the sentinel and no dominator. -/
def init : Timestamp :=
  { startIrred := 0, startRed := 0, endIrred := 0, endRed := 0,
    domIrred := lit_Undef, domRed := lit_Undef }

/-- The field `start[stampType]`. -/
def start (t : Timestamp) : StampType → Nat
  | STAMP_IRRED => t.startIrred
  | STAMP_RED => t.startRed

/-- The field `end[stampType]`. -/
def end_ (t : Timestamp) : StampType → Nat
  | STAMP_IRRED => t.endIrred
  | STAMP_RED => t.endRed

/-- The field `dominator[stampType]`. -/
def dominator (t : Timestamp) : StampType → Lit
  | STAMP_IRRED => t.domIrred
  | STAMP_RED => t.domRed

end Timestamp

instance : Inhabited Timestamp := ⟨Timestamp.init⟩

/-- The read `tstamp[i]`. -/
def at_ (tstamp : List Timestamp) (i : Nat) : Timestamp := tstamp.getD i default

/-- The read `tstamp[lit.toInt()].start[stampType]`. -/
def startOf (tstamp : List Timestamp) (ty : StampType) (l : Lit) : Nat :=
  (at_ tstamp l.toInt).start ty

/-- The read `tstamp[lit.toInt()].end[stampType]`. -/
def endOf (tstamp : List Timestamp) (ty : StampType) (l : Lit) : Nat :=
  (at_ tstamp l.toInt).end_ ty

/-! ## Sorting -/

/-- Insertion of `x` in front of a list that is already in order: `x` goes
before the first element that is not smaller than it. -/
def insertStable {α : Type} (lt : α → α → Bool) (x : α) : List α → List α
  | [] => [x]
  | y :: ys => if lt y x then y :: insertStable lt x ys else x :: y :: ys

/-- The call `std::stable_sort(v.begin(), v.end(), lt)`: sorts by the strict
comparison `lt` and keeps the input order of elements that tie. -/
def stable_sort {α : Type} (lt : α → α → Bool) : List α → List α
  | [] => []
  | x :: xs => insertStable lt x (stable_sort lt xs)

/-- The two comparison functors `StampSorter` and `StampSorterInv` of `stamp.h`
(not under src/), each built from the table, a domain and the flag `rev`. -/
structure Sorters where
  StampSorter : List Timestamp → StampType → Bool → Lit → Lit → Bool
  StampSorterInv : List Timestamp → StampType → Bool → Lit → Lit → Bool

/-- Modelled from the spec: the orders that the spec gives for the comparison
functors of `stamp.h`. `StampSorter` without `rev` is "ascending by
`start[·]`" (the `norm` order of clause elimination) and with `rev` it is the
forward pass order, "ascending by `end[·,domain]`"; `StampSorterInv` is
"ascending by `end[complement(·)]`" (the spec describes it only without
`rev`). -/
def specSorters : Sorters where
  StampSorter := fun tstamp ty rev a b =>
    if rev then decide (endOf tstamp ty a < endOf tstamp ty b)
    else decide (startOf tstamp ty a < startOf tstamp ty b)
  StampSorterInv := fun tstamp ty _ a b =>
    decide (endOf tstamp ty a.neg < endOf tstamp ty b.neg)

/-! ## Clause elimination: `Stamp::stampBasedClRem` -/

/-- The `while(true)` loop of `stampBasedClRem`, one iteration per unit of
fuel. `norm` and `inv` are what is left of `stampNorm` from `lpos` on and of
`stampInv` from `lneg` on, so `*lpos` and `*lneg` are the heads and `lpos++`,
`lneg++` drop the head. `some v` is `return v`; `none` is a loop that has not
returned when the fuel is used up (or a cursor that is read at the end). -/
def clRemLoop (tstamp : List Timestamp) : Nat → List Lit → List Lit → Option Bool
  | 0, _, _ => none
  | _ + 1, [], _ => none
  | _ + 1, _ :: _, [] => none
  | fuel + 1, p :: norm, n :: inv =>
    if startOf tstamp STAMP_IRRED n.neg ≥ startOf tstamp STAMP_IRRED p then
      if norm.isEmpty then some false
      else clRemLoop tstamp fuel norm (n :: inv)
    else if endOf tstamp STAMP_IRRED n.neg ≤ endOf tstamp STAMP_IRRED p then
      if inv.isEmpty then some false
      else clRemLoop tstamp fuel (p :: norm) inv
    else
      some true

/-- The function `Stamp::stampBasedClRem`. `none` is the failure of
`assert(lits.size() > 0)`; the loop is given one unit of fuel per element of
the two sorted vectors. -/
def stampBasedClRem (S : Sorters) (tstamp : List Timestamp) (lits : List Lit) :
    Option Bool :=
  let sortNorm := S.StampSorter tstamp STAMP_IRRED false
  let sortInv := S.StampSorterInv tstamp STAMP_IRRED false
  let stampNorm := stable_sort sortNorm lits
  let stampInv := stable_sort sortInv lits
  if lits.length > 0 then
    clRemLoop tstamp (stampNorm.length + stampInv.length) stampNorm stampInv
  else none

/-! ## Literal elimination: `Stamp::stampBasedLitRem` -/

/-- The scan `for(size_t i = 1; i < lits.size(); i++)` of either pass, started
with `lastLit` on the vector elements from position 1 on. `drop lastLit lits[i]`
is the condition of the `if`: when it holds the element is overwritten with
`lit_Undef` and the counter goes up, otherwise the element becomes `lastLit`.
The result is the vector from position 1 on and the counter. -/
def scanLoop (drop : Lit → Lit → Bool) : Lit → List Lit → List Lit × Nat
  | _, [] => ([], 0)
  | lastLit, l :: rest =>
    if drop lastLit l then
      ((lit_Undef :: (scanLoop drop lastLit rest).1), (scanLoop drop lastLit rest).2 + 1)
    else
      ((l :: (scanLoop drop l rest).1), (scanLoop drop l rest).2)

/-- The block under "Remove lit_Undef-s": every element that is not
`lit_Undef` is copied down to position `at++` (the positions from the final
`at` on keep what they held), then the vector is resized to
`lits.size() - rem`. -/
def removeUndefs (lits : List Lit) (rem : Nat) : List Lit :=
  let kept := lits.filter (fun l => l != lit_Undef)
  (kept ++ lits.drop kept.length).take (lits.length - rem)

/-- One pass of `stampBasedLitRem` after its `stable_sort`: the scan, and when
something was dropped the two assertions and the removal of the `lit_Undef`-s.
The result is the new vector and the number of dropped literals; `none` is a
failed assertion (`!lits.empty()`, `lits.front() != lit_Undef`,
`rem < lits.size()`). -/
def litRemPass (drop : Lit → Lit → Bool) : List Lit → Option (List Lit × Nat)
  | [] => none
  | l0 :: rest =>
    let scanned := scanLoop drop l0 rest
    let lits := l0 :: scanned.1
    let rem := scanned.2
    if rem ≠ 0 then
      if l0 = lit_Undef then none
      else if ¬ (rem < lits.length) then none
      else some (removeUndefs lits rem, rem)
    else some (lits, rem)

/-- The `if` of the forward scan (stamp.cpp, line 134):
`tstamp[lastLit.toInt()].end[stampType] < tstamp[lits[i].toInt()].end[stampType]`. -/
def dropForward (tstamp : List Timestamp) (stampType : StampType) (lastLit l : Lit) : Bool :=
  decide (endOf tstamp stampType lastLit < endOf tstamp stampType l)

/-- The `if` of the backward scan (stamp.cpp, line 172):
`tstamp[(~lastLit).toInt()].end[stampType] > tstamp[(~lits[i]).toInt()].end[stampType]`. -/
def dropBackward (tstamp : List Timestamp) (stampType : StampType) (lastLit l : Lit) : Bool :=
  decide (endOf tstamp stampType lastLit.neg > endOf tstamp stampType l.neg)

/-- The vector that the forward scan of `stampBasedLitRem` runs over:
`lits` after `std::stable_sort(lits.begin(), lits.end(), sorter)`. -/
def forwardSorted (S : Sorters) (tstamp : List Timestamp) (stampType : StampType)
    (lits : List Lit) : List Lit :=
  stable_sort (S.StampSorter tstamp stampType true) lits

/-- The vector that the backward scan of `stampBasedLitRem` runs over:
`lits` after `std::stable_sort(lits.begin(), lits.end(), sorterInv)`. -/
def backwardSorted (S : Sorters) (tstamp : List Timestamp) (stampType : StampType)
    (lits : List Lit) : List Lit :=
  stable_sort (S.StampSorterInv tstamp stampType false) lits

/-- The first half of `stampBasedLitRem` (stamp.cpp, lines 111-163): the new
`lits` and `remLitTimeStamp`. -/
def litRemForward (S : Sorters) (tstamp : List Timestamp) (stampType : StampType)
    (lits : List Lit) : Option (List Lit × Nat) :=
  litRemPass (dropForward tstamp stampType) (forwardSorted S tstamp stampType lits)

/-- The second half of `stampBasedLitRem` (stamp.cpp, lines 165-201): the new
`lits` and `remLitTimeStampInv`. -/
def litRemBackward (S : Sorters) (tstamp : List Timestamp) (stampType : StampType)
    (lits : List Lit) : Option (List Lit × Nat) :=
  litRemPass (dropBackward tstamp stampType) (backwardSorted S tstamp stampType lits)

/-- The function `Stamp::stampBasedLitRem`: the vector `lits` as it is left
and the returned pair; `none` is a failed assertion. -/
def stampBasedLitRem (S : Sorters) (tstamp : List Timestamp) (lits : List Lit)
    (stampType : StampType) : Option (List Lit × (Nat × Nat)) :=
  match litRemForward S tstamp stampType lits with
  | none => none
  | some (lits1, remLitTimeStamp) =>
    match litRemBackward S tstamp stampType lits1 with
    | none => none
    | some (lits2, remLitTimeStampInv) => some (lits2, (remLitTimeStamp, remLitTimeStampInv))

/-! ## Maintenance of the stamp table (stamp.cpp) -/

/-- Modelled from the spec: `Lit::toLit(i)` of `solvertypes.h` (not under src/),
the literal with the literal id `i`. -/
def Lit.toLit (i : Nat) : Lit := ⟨i⟩

/-- The write `t.dominator[stampType] = l`. -/
def Timestamp.setDominator (t : Timestamp) (stampType : StampType) (l : Lit) : Timestamp :=
  match stampType with
  | STAMP_IRRED => { t with domIrred := l }
  | STAMP_RED => { t with domRed := l }

/-- The write `tstamp[i] = f(tstamp[i])`; outside the table nothing is written. -/
def modifyAt (tstamp : List Timestamp) (i : Nat) (f : Timestamp → Timestamp) :
    List Timestamp :=
  tstamp.set i (f (at_ tstamp i))

/-- The call `tstamp.resize(n)`: the first `n` entries are kept and a table
that is too short is filled up with `Timestamp()`. -/
def resizeTable (tstamp : List Timestamp) (n : Nat) : List Timestamp :=
  tstamp.take n ++ List.replicate (n - tstamp.length) Timestamp.init

/-- The body of the `for(Timestamp& t: tstamp)` loop of `save_on_var_memory`:
first the `STAMP_RED` dominator, then the `STAMP_IRRED` dominator is set to
`lit_Undef` when it is a literal over a variable `>= newNumVars`. -/
def saveEntry (newNumVars : Nat) (t : Timestamp) : Timestamp :=
  let t1 :=
    if t.dominator STAMP_RED ≠ lit_Undef ∧ (t.dominator STAMP_RED).var ≥ newNumVars then
      t.setDominator STAMP_RED lit_Undef
    else t
  if t1.dominator STAMP_IRRED ≠ lit_Undef ∧ (t1.dominator STAMP_IRRED).var ≥ newNumVars then
    t1.setDominator STAMP_IRRED lit_Undef
  else t1

/-- The function `Stamp::save_on_var_memory(newNumVars)`. The argument is a
`uint32_t` and so is the product `newNumVars*2` that is passed to `resize`. -/
def save_on_var_memory (tstamp : List Timestamp) (newNumVars : Nat) : List Timestamp :=
  (resizeTable tstamp ((newNumVars * 2) % 4294967296)).map (saveEntry newNumVars)

/-- The function `Stamp::updateVars`. The helpers `getUpdatedLit` and
`updateBySwap` of `varupdatehelper.h` are not under src/ and are parameters;
`updateBySwap` gets the table, the scratch vector `seen` and the map and gives
the relocated table. -/
def updateVars (getUpdatedLit : Lit → List Nat → Lit)
    (updateBySwap : List Timestamp → List Nat → List Nat → List Timestamp)
    (tstamp : List Timestamp) (outerToInter interToOuter2 : List Nat) (seen : List Nat) :
    List Timestamp :=
  let updateDom := fun (t : Timestamp) (stampType : StampType) =>
    if t.dominator stampType ≠ lit_Undef then
      t.setDominator stampType (getUpdatedLit (t.dominator stampType) outerToInter)
    else t
  let tstamp1 := tstamp.map (fun t => updateDom (updateDom t STAMP_IRRED) STAMP_RED)
  updateBySwap tstamp1 seen interToOuter2

/-- The first loop of `remove_from_stamps`, for one domain: the dominator slots
of the two literals of `var` are set to `lit_Undef`. -/
def clearOwnDominators (tstamp : List Timestamp) (var : Nat) (stampType : StampType) :
    List Timestamp :=
  let tstamp1 := modifyAt tstamp (Lit.mkLit var false).toInt
    (fun t => t.setDominator stampType lit_Undef)
  modifyAt tstamp1 (Lit.mkLit var true).toInt (fun t => t.setDominator stampType lit_Undef)

/-- The body of the second loop of `remove_from_stamps`, for one entry and one
domain: a dominator over `var` is set to `lit_Undef`. -/
def clearDominatorOver (var : Nat) (t : Timestamp) (stampType : StampType) : Timestamp :=
  if (t.dominator stampType).var = var then t.setDominator stampType lit_Undef else t

/-- The function `Stamp::remove_from_stamps(var)`, with
`types[] = {STAMP_IRRED, STAMP_RED}`. -/
def remove_from_stamps (tstamp : List Timestamp) (var : Nat) : List Timestamp :=
  let tstamp1 := clearOwnDominators (clearOwnDominators tstamp var STAMP_IRRED) var STAMP_RED
  tstamp1.map (fun t => clearDominatorOver var (clearDominatorOver var t STAMP_IRRED) STAMP_RED)

/-- The inner loop of `update_dominators` on one entry: each dominator that is
not `lit_Undef` is replaced by `replacer->get_lit_replaced_with(dom)`. -/
def replaceDominators (get_lit_replaced_with : Lit → Lit) (t : Timestamp) : Timestamp :=
  let replaceDom := fun (t : Timestamp) (stampType : StampType) =>
    if t.dominator stampType ≠ lit_Undef then
      t.setDominator stampType (get_lit_replaced_with (t.dominator stampType))
    else t
  replaceDom (replaceDom t STAMP_IRRED) STAMP_RED

/-- One round `l` of the loop of `update_dominators`. -/
def update_dominators_step (get_lit_replaced_with : Lit → Lit) (tstamp : List Timestamp)
    (l : Nat) : List Timestamp :=
  let lit := get_lit_replaced_with (Lit.toLit l)
  if lit.toInt ≥ tstamp.length then tstamp
  else
    let tstamp1 := tstamp.set l (at_ tstamp lit.toInt)
    modifyAt tstamp1 l (replaceDominators get_lit_replaced_with)

/-- The function `Stamp::update_dominators(replacer)`: the rounds
`l = 0, 1, ..., tstamp.size()-1`, each on the table the round before left. The
replacer (`varreplacer.h`, not under src/) is the function
`get_lit_replaced_with`. -/
def update_dominators (get_lit_replaced_with : Lit → Lit) (tstamp : List Timestamp) :
    List Timestamp :=
  (List.range tstamp.length).foldl (update_dominators_step get_lit_replaced_with) tstamp

/-- The function `Stamp::clearStamps()`: every entry becomes `Timestamp()`. -/
def clearStamps (tstamp : List Timestamp) : List Timestamp :=
  tstamp.map (fun _ => Timestamp.init)

/-! ## Clause statistics (clause.h) -/

/-- The record `struct ResolutionTypes`; the fields are `uint16_t`. -/
structure ResolutionTypes where
  binCl : Nat
  triCl : Nat
  longCl : Nat
deriving DecidableEq, Repr

/-- The constructor `ResolutionTypes()`. -/
def ResolutionTypes.init : ResolutionTypes := { binCl := 0, triCl := 0, longCl := 0 }

/-- The record `struct ClauseStats`: `glue` is `uint16_t`, `activity` is
`double`, the other fields are `uint32_t`. -/
structure ClauseStats where
  glue : Nat
  activity : Float
  conflictNumIntroduced : Nat
  numProp : Nat
  numConfl : Nat
  numLitVisited : Nat
  numLookedAt : Nat
  numUsedUIP : Nat
  resolutions : ResolutionTypes
deriving Repr

namespace ClauseStats

/-- The constructor `ClauseStats()`: `glue` and `conflictNumIntroduced` start at
the maximum of their type. -/
def init : ClauseStats :=
  { glue := 65535
    activity := 0
    conflictNumIntroduced := 4294967295
    numProp := 0
    numConfl := 0
    numLitVisited := 0
    numLookedAt := 0
    numUsedUIP := 0
    resolutions := ResolutionTypes.init }

/-- The static function `ClauseStats::combineStats(first, second)`; the sums
are sums of `uint32_t`. -/
def combineStats (first second : ClauseStats) : ClauseStats :=
  let ret := ClauseStats.init
  { ret with
    glue := min first.glue second.glue
    conflictNumIntroduced := min first.conflictNumIntroduced second.conflictNumIntroduced
    numProp := (first.numProp + second.numProp) % 4294967296
    numConfl := (first.numConfl + second.numConfl) % 4294967296
    numLitVisited := (first.numLitVisited + second.numLitVisited) % 4294967296
    numLookedAt := (first.numLookedAt + second.numLookedAt) % 4294967296
    numUsedUIP := (first.numUsedUIP + second.numUsedUIP) % 4294967296 }

end ClauseStats

/-! ## Clauses (clause.h) -/

/-- Modelled from the spec: the bit of the abstraction signature that a
variable is hashed to (`clabstraction.h` is not under src/): one bit of a
32-bit word, chosen by the variable id. -/
def abst_var (v : Nat) : Nat := 2 ^ (v % 32)

/-- Modelled from the spec: `calcAbstraction` of `clabstraction.h` (not under
src/), "a small hash over contained variables" that "never omits a bit for a
contained variable": the bitwise or of the bits of the variables of the
literals. -/
def calcAbstraction (ps : List Lit) : Nat :=
  ps.foldl (fun a l => a ||| abst_var l.var) 0

/-- The record `struct Clause`. The one-bit fields are booleans, `mySize` is
`uint16_t`, and `data` is the block of literals that follows the header in
memory (`getData()`), as long as the allocation has room for. -/
structure Clause where
  isLearnt : Bool
  strenghtened : Bool
  changed : Bool
  isRemoved : Bool
  isFreed : Bool
  mySize : Nat
  defOfOrGate : Bool
  abst : Nat
  stats : ClauseStats
  data : List Lit
deriving Repr

namespace Clause

/-- The method `size()`. -/
def size (c : Clause) : Nat := c.mySize

/-- The literals `begin() .. end()` of the clause: positions `0 .. size()-1`. -/
def lits (c : Clause) : List Lit := c.data.take c.size

/-- The read `c[i]` (`operator []`, no bounds check). -/
def get (c : Clause) (i : Nat) : Option Lit := c.data.get? i

/-- The method `getChanged()`. -/
def getChanged (c : Clause) : Bool := c.changed

/-- The method `getStrenghtened()`. -/
def getStrenghtened (c : Clause) : Bool := c.strenghtened

/-- The method `learnt()`. -/
def learnt (c : Clause) : Bool := c.isLearnt

/-- The method `freed()` / `getFreed()`. -/
def getFreed (c : Clause) : Bool := c.isFreed

/-- The method `getRemoved()`. -/
def getRemoved (c : Clause) : Bool := c.isRemoved

/-- The method `reCalcAbstraction()`. -/
def reCalcAbstraction (c : Clause) : Clause :=
  { c with abst := calcAbstraction c.lits }

/-- The method `setStrenghtened()`. -/
def setStrenghtened (c : Clause) : Clause :=
  { c with abst := calcAbstraction c.lits, strenghtened := true }

/-- The method `unsetStrenghtened()`. -/
def unsetStrenghtened (c : Clause) : Clause := { c with strenghtened := false }

/-- The method `setChanged()`. -/
def setChanged (c : Clause) : Clause :=
  { c.setStrenghtened with changed := true }

/-- The method `unsetChanged()`. -/
def unsetChanged (c : Clause) : Clause := { c with changed := false }

/-- The method `setRemoved()`. -/
def setRemoved (c : Clause) : Clause := { c with isRemoved := true }

/-- The method `setFreed()`. -/
def setFreed (c : Clause) : Clause := { c with isFreed := true }

/-- The constructor `Clause(ps, _conflictNumIntroduced)`; `none` is the failure
of `assert(ps.size() > 2)`. `mySize` and the glue take `ps.size()` as a
`uint16_t`; the flags `strenghtened`, `changed` and `abst` are first written by
`setChanged()`. -/
def construct (ps : List Lit) (conflictNumIntroduced : Nat) : Option Clause :=
  if ps.length > 2 then
    let stats := ClauseStats.init
    let stats := { stats with conflictNumIntroduced := conflictNumIntroduced % 4294967296 }
    let stats := { stats with glue := min stats.glue (ps.length % 65536) }
    some (setChanged
      { isLearnt := false
        strenghtened := false
        changed := false
        isRemoved := false
        isFreed := false
        mySize := ps.length % 65536
        defOfOrGate := false
        abst := 0
        stats := stats
        data := ps })
  else none

/-- The method `shrink(i)`; `none` is the failure of `assert(i <= size())`. -/
def shrink (c : Clause) (i : Nat) : Option Clause :=
  if i ≤ c.size then
    let c1 := { c with mySize := c.mySize - i }
    if i > 0 then some c1.setStrenghtened else some c1
  else none

/-- The method `resize(i)`; `none` is the failure of `assert(i <= size())`. -/
def resize (c : Clause) (i : Nat) : Option Clause :=
  if i ≤ c.size then
    if i = c.size then some c
    else some ({ c with mySize := i }).setStrenghtened
  else none

/-- The method `makeNonLearnt()`; `none` is the failure of `assert(isLearnt)`. -/
def makeNonLearnt (c : Clause) : Option Clause :=
  if c.isLearnt then some { c with isLearnt := false } else none

/-- The method `makeLearnt(newGlue)`; the `uint32_t` argument is stored in the
`uint16_t` field `glue`. -/
def makeLearnt (c : Clause) (newGlue : Nat) : Clause :=
  { c with stats := { c.stats with glue := newGlue % 65536 }, isLearnt := true }

/-- Modelled from the spec: `remove(*this, p)` of `alg.h` (not under src/),
which "removes one occurrence of `lit`": the first occurrence is taken out,
the literals behind it move down by one position and the clause loses its
last position. A clause without `p` is left as it is. -/
def remove (c : Clause) (p : Lit) : Clause :=
  if p ∈ c.lits then
    { c with data := c.lits.erase p ++ c.data.drop (c.mySize - 1), mySize := c.mySize - 1 }
  else c

/-- The method `strengthen(p)`. -/
def strengthen (c : Clause) (p : Lit) : Clause :=
  (c.remove p).setStrenghtened

/-- The method `add(p)`: `mySize++` on a `uint16_t`, then the write
`getData()[mySize-1] = p`, then `setChanged()`. When the size has wrapped to 0
the write goes to the position in front of the block of literals, so the block
keeps what it held. -/
def add (c : Clause) (p : Lit) : Clause :=
  let c1 := { c with mySize := (c.mySize + 1) % 65536 }
  let c2 := { c1 with data := if c1.mySize = 0 then c1.data else c1.data.set (c1.mySize - 1) p }
  c2.setChanged

/-- The method `combineStats(other)`. -/
def combineStats (c : Clause) (other : ClauseStats) : Clause :=
  { c with stats := ClauseStats.combineStats c.stats other }

/-- The abstraction is up to date:
`abst == calcAbstraction` of the literals at positions `0 .. size()-1`. -/
def abstUpToDate (c : Clause) : Prop := c.abst = calcAbstraction c.lits

end Clause

/-! ## Aggregated statistics (clause.h) -/

/-- The record `struct ClauseUsageStats`; the fields are `uint64_t`. -/
structure ClauseUsageStats where
  num : Nat
  sumProp : Nat
  sumConfl : Nat
  sumLitVisited : Nat
  sumLookedAt : Nat
  sumUsedUIP : Nat
deriving DecidableEq, Repr

namespace ClauseUsageStats

/-- The constructor `ClauseUsageStats()`. -/
def init : ClauseUsageStats :=
  { num := 0, sumProp := 0, sumConfl := 0, sumLitVisited := 0, sumLookedAt := 0,
    sumUsedUIP := 0 }

/-- The operator `ClauseUsageStats::operator+=`: `a += other` leaves `a` as
the result; the sums are sums of `uint64_t`. -/
def addAssign (a other : ClauseUsageStats) : ClauseUsageStats :=
  { num := (a.num + other.num) % 18446744073709551616
    sumProp := (a.sumProp + other.sumProp) % 18446744073709551616
    sumConfl := (a.sumConfl + other.sumConfl) % 18446744073709551616
    sumLitVisited := (a.sumLitVisited + other.sumLitVisited) % 18446744073709551616
    sumLookedAt := (a.sumLookedAt + other.sumLookedAt) % 18446744073709551616
    sumUsedUIP := (a.sumUsedUIP + other.sumUsedUIP) % 18446744073709551616 }

/-- The method `addStat(cl)`. -/
def addStat (a : ClauseUsageStats) (cl : Clause) : ClauseUsageStats :=
  { num := (a.num + 1) % 18446744073709551616
    sumProp := (a.sumProp + cl.stats.numProp) % 18446744073709551616
    sumConfl := (a.sumConfl + cl.stats.numConfl) % 18446744073709551616
    sumLitVisited := (a.sumLitVisited + cl.stats.numLitVisited) % 18446744073709551616
    sumLookedAt := (a.sumLookedAt + cl.stats.numLookedAt) % 18446744073709551616
    sumUsedUIP := (a.sumUsedUIP + cl.stats.numUsedUIP) % 18446744073709551616 }

/-- The integer fields of the record, in the order of their declaration. -/
def intFields (a : ClauseUsageStats) : List Nat :=
  [a.num, a.sumProp, a.sumConfl, a.sumLitVisited, a.sumLookedAt, a.sumUsedUIP]

end ClauseUsageStats

/-- The type `enum clauseCleaningTypes`. -/
inductive clauseCleaningTypes where
  | CLEAN_CLAUSES_GLUE_BASED
  | CLEAN_CLAUSES_SIZE_BASED
  | CLEAN_CLAUSES_PROPCONFL_BASED
  | CLEAN_CLAUSES_ACTIVITY_BASED
deriving DecidableEq, Repr

/-- The record `struct CleaningStats::Data`; `act` is `double`, the other
fields are `uint64_t`. -/
structure CleaningStats.Data where
  num : Nat
  lits : Nat
  age : Nat
  glue : Nat
  numProp : Nat
  numConfl : Nat
  numLitVisited : Nat
  numLookedAt : Nat
  numUsedUIP : Nat
  resolutionsBin : Nat
  resolutionsTri : Nat
  resolutionsLong : Nat
  act : Float
deriving Repr

namespace CleaningStats.Data

/-- The constructor `Data()`. -/
def init : CleaningStats.Data :=
  { num := 0, lits := 0, age := 0, glue := 0, numProp := 0, numConfl := 0,
    numLitVisited := 0, numLookedAt := 0, numUsedUIP := 0, resolutionsBin := 0,
    resolutionsTri := 0, resolutionsLong := 0, act := 0 }

/-- The operator `Data::operator+=`; the integer sums are sums of `uint64_t`. -/
def addAssign (a other : CleaningStats.Data) : CleaningStats.Data :=
  { num := (a.num + other.num) % 18446744073709551616
    lits := (a.lits + other.lits) % 18446744073709551616
    age := (a.age + other.age) % 18446744073709551616
    glue := (a.glue + other.glue) % 18446744073709551616
    numProp := (a.numProp + other.numProp) % 18446744073709551616
    numConfl := (a.numConfl + other.numConfl) % 18446744073709551616
    numLitVisited := (a.numLitVisited + other.numLitVisited) % 18446744073709551616
    numLookedAt := (a.numLookedAt + other.numLookedAt) % 18446744073709551616
    numUsedUIP := (a.numUsedUIP + other.numUsedUIP) % 18446744073709551616
    resolutionsBin := (a.resolutionsBin + other.resolutionsBin) % 18446744073709551616
    resolutionsTri := (a.resolutionsTri + other.resolutionsTri) % 18446744073709551616
    resolutionsLong := (a.resolutionsLong + other.resolutionsLong) % 18446744073709551616
    act := a.act + other.act }

/-- The integer fields of the record, in the order of their declaration. -/
def intFields (a : CleaningStats.Data) : List Nat :=
  [a.num, a.lits, a.age, a.glue, a.numProp, a.numConfl, a.numLitVisited, a.numLookedAt,
   a.numUsedUIP, a.resolutionsBin, a.resolutionsTri, a.resolutionsLong]

end CleaningStats.Data

/-- The record `struct CleaningStats`: `cpu_time` is `double`, `origNumClauses`
and `origNumLits` are `uint64_t`, the four counters of the kind of clean are
`size_t` (64 bits). -/
structure CleaningStats where
  cpu_time : Float
  origNumClauses : Nat
  origNumLits : Nat
  preRemove : CleaningStats.Data
  clauseCleaningType : clauseCleaningTypes
  glueBasedClean : Nat
  sizeBasedClean : Nat
  propConflBasedClean : Nat
  actBasedClean : Nat
  removed : CleaningStats.Data
  remain : CleaningStats.Data
deriving Repr

namespace CleaningStats

/-- The constructor `CleaningStats()`. It does not write `clauseCleaningType`;
what the field holds is the argument. -/
def init (clauseCleaningType : clauseCleaningTypes) : CleaningStats :=
  { cpu_time := 0
    origNumClauses := 0
    origNumLits := 0
    preRemove := CleaningStats.Data.init
    clauseCleaningType := clauseCleaningType
    glueBasedClean := 0
    sizeBasedClean := 0
    propConflBasedClean := 0
    actBasedClean := 0
    removed := CleaningStats.Data.init
    remain := CleaningStats.Data.init }

/-- The operator `CleaningStats::operator+=`; `clauseCleaningType` is not
written. -/
def addAssign (a other : CleaningStats) : CleaningStats :=
  { a with
    cpu_time := a.cpu_time + other.cpu_time
    origNumClauses := (a.origNumClauses + other.origNumClauses) % 18446744073709551616
    origNumLits := (a.origNumLits + other.origNumLits) % 18446744073709551616
    glueBasedClean := (a.glueBasedClean + other.glueBasedClean) % 18446744073709551616
    sizeBasedClean := (a.sizeBasedClean + other.sizeBasedClean) % 18446744073709551616
    propConflBasedClean :=
      (a.propConflBasedClean + other.propConflBasedClean) % 18446744073709551616
    actBasedClean := (a.actBasedClean + other.actBasedClean) % 18446744073709551616
    preRemove := a.preRemove.addAssign other.preRemove
    removed := a.removed.addAssign other.removed
    remain := a.remain.addAssign other.remain }

/-- The integer fields of the record and of its three nested `Data` records. -/
def intFields (a : CleaningStats) : List Nat :=
  [a.origNumClauses, a.origNumLits, a.glueBasedClean, a.sizeBasedClean,
   a.propConflBasedClean, a.actBasedClean] ++
  a.preRemove.intFields ++ a.removed.intFields ++ a.remain.intFields

end CleaningStats

/-- The sum of two lists of `uint64_t` fields, field by field. -/
def sums64 (xs ys : List Nat) : List Nat :=
  List.zipWith (fun x y => (x + y) % 18446744073709551616) xs ys

/-- Every field of the list is in the range of `uint64_t`. -/
def inRange64 (xs : List Nat) : Prop := ∀ x ∈ xs, x < 18446744073709551616

instance (xs : List Nat) : Decidable (inRange64 xs) := by
  unfold inRange64
  infer_instance

/-! ## Predicates and concrete tables used in the statements -/

/-- The comparison `lt` is a strict total order on the elements of `l`: it is
asymmetric and transitive there and no two different elements tie. -/
def StrictTotalOn {α : Type} (lt : α → α → Bool) (l : List α) : Prop :=
  (∀ a ∈ l, ∀ b ∈ l, lt a b = true → lt b a = false) ∧
  (∀ a ∈ l, ∀ b ∈ l, ∀ c ∈ l, lt a b = true → lt b c = true → lt a c = true) ∧
  (∀ a ∈ l, ∀ b ∈ l, a ≠ b → lt a b = true ∨ lt b a = true)

instance {α : Type} [DecidableEq α] (lt : α → α → Bool) (l : List α) :
    Decidable (StrictTotalOn lt l) := by
  unfold StrictTotalOn
  infer_instance

/-- An entry with the given `IRRED` interval; everything else is as in the
unvisited entry. -/
def irredStamp (s e : Nat) : Timestamp :=
  { Timestamp.init with startIrred := s, endIrred := e }

/-- A table on the variables 0 and 1 in which the literals `0` and `2` have the
same `IRRED` start stamp and different end stamps. -/
def tieTable : List Timestamp :=
  [irredStamp 4 6, irredStamp 0 6, irredStamp 4 7, irredStamp 3 7]

/-- The stamps that a depth-first stamping of the binary clauses
`(¬1 ∨ 2), (¬2 ∨ 3)` leaves in domain `IRRED`: `1 → 2 → 3` gives
`interval(1) ⊃ interval(2) ⊃ interval(3)` and `¬3 → ¬2 → ¬1` gives
`interval(¬3) ⊃ interval(¬2) ⊃ interval(¬1)`. The literal `v` has id `2 * v`
and `¬v` has id `2 * v + 1`; the variable 0 is isolated. -/
def exampleTable : List Timestamp :=
  [irredStamp 13 14, irredStamp 15 16,
   irredStamp 1 6, irredStamp 9 10,
   irredStamp 2 5, irredStamp 8 11,
   irredStamp 3 4, irredStamp 7 12]

/-- A table as stamping leaves it in domain `IRRED`: every interval has
`start < end`, and the intervals of two different entries are nested (one
strictly inside the other) or disjoint. -/
def IrredStamped (tstamp : List Timestamp) : Prop :=
  ∀ i < tstamp.length,
    (at_ tstamp i).start STAMP_IRRED < (at_ tstamp i).end_ STAMP_IRRED ∧
    ∀ j < tstamp.length, i ≠ j →
      ((at_ tstamp i).start STAMP_IRRED < (at_ tstamp j).start STAMP_IRRED ∧
        (at_ tstamp j).end_ STAMP_IRRED < (at_ tstamp i).end_ STAMP_IRRED) ∨
      ((at_ tstamp j).start STAMP_IRRED < (at_ tstamp i).start STAMP_IRRED ∧
        (at_ tstamp i).end_ STAMP_IRRED < (at_ tstamp j).end_ STAMP_IRRED) ∨
      (at_ tstamp i).end_ STAMP_IRRED < (at_ tstamp j).start STAMP_IRRED ∨
      (at_ tstamp j).end_ STAMP_IRRED < (at_ tstamp i).start STAMP_IRRED

instance (tstamp : List Timestamp) : Decidable (IrredStamped tstamp) := by
  unfold IrredStamped
  infer_instance

/-- The `IRRED` interval of `b` lies strictly inside the `IRRED` interval of the
complement of `a`: `start[~a] < start[b]` and `end[b] < end[~a]`. -/
def insideNeg (tstamp : List Timestamp) (a b : Lit) : Prop :=
  startOf tstamp STAMP_IRRED a.neg < startOf tstamp STAMP_IRRED b ∧
  endOf tstamp STAMP_IRRED b < endOf tstamp STAMP_IRRED a.neg

instance (tstamp : List Timestamp) (a b : Lit) : Decidable (insideNeg tstamp a b) := by
  unfold insideNeg
  infer_instance

/-- The vector `lits` of a pass right after its scan loop and before the
`lit_Undef`-s are removed: position 0 is untouched and the positions from 1 on
are as `scanLoop` leaves them. -/
def afterScan (drop : Lit → Lit → Bool) : List Lit → List Lit
  | [] => []
  | l0 :: rest => l0 :: (scanLoop drop l0 rest).1

/-- A table on the variables 0 and 1 in which no literal has been visited (as
`clearStamps()` leaves it). -/
def unvisitedTable : List Timestamp :=
  [Timestamp.init, Timestamp.init, Timestamp.init, Timestamp.init]

instance (c : Clause) : Decidable c.abstUpToDate := by
  unfold Clause.abstUpToDate
  infer_instance

/-- The clause `{¬1, 2, 3}` as the constructor builds it at conflict 7. -/
def exampleClause : Clause :=
  { isLearnt := false
    strenghtened := true
    changed := true
    isRemoved := false
    isFreed := false
    mySize := 3
    defOfOrGate := false
    abst := 14
    stats := { ClauseStats.init with glue := 3, conflictNumIntroduced := 7 }
    data := [Lit.mk 3, Lit.mk 4, Lit.mk 6] }

/-- A clause at the largest 16-bit size, 65535 literals, in a block that has
room for one more literal. -/
def fullClause : Clause :=
  { exampleClause with mySize := 65535, data := List.replicate 65536 (Lit.mk 2) }

/-- No entry of the table has, in either domain, a dominator that is a
literal over the variable `v`: each dominator is `lit_Undef` or a literal over
another variable. -/
def noDominatorOver (tstamp : List Timestamp) (v : Nat) : Prop :=
  ∀ i < tstamp.length,
    ((at_ tstamp i).dominator STAMP_IRRED = lit_Undef ∨
      ((at_ tstamp i).dominator STAMP_IRRED).var ≠ v) ∧
    ((at_ tstamp i).dominator STAMP_RED = lit_Undef ∨
      ((at_ tstamp i).dominator STAMP_RED).var ≠ v)

instance (tstamp : List Timestamp) (v : Nat) : Decidable (noDominatorOver tstamp v) := by
  unfold noDominatorOver
  infer_instance

/-- Both dominator slots of each of the two literals of `v` are `lit_Undef`. -/
def ownDominatorsNone (tstamp : List Timestamp) (v : Nat) : Prop :=
  (at_ tstamp (Lit.mkLit v false).toInt).dominator STAMP_IRRED = lit_Undef ∧
  (at_ tstamp (Lit.mkLit v false).toInt).dominator STAMP_RED = lit_Undef ∧
  (at_ tstamp (Lit.mkLit v true).toInt).dominator STAMP_IRRED = lit_Undef ∧
  (at_ tstamp (Lit.mkLit v true).toInt).dominator STAMP_RED = lit_Undef

instance (tstamp : List Timestamp) (v : Nat) : Decidable (ownDominatorsNone tstamp v) := by
  unfold ownDominatorsNone
  infer_instance

/-- A table on the variables 0, 1 and 2 with dominators: the variable 1 owns
dominators, and its two literals are named as dominators by other entries. -/
def dominatedTable : List Timestamp :=
  [{ irredStamp 1 8 with domIrred := Lit.mk 2, domRed := Lit.mk 3 },
   { irredStamp 9 10 with domRed := Lit.mk 4 },
   { irredStamp 2 5 with domIrred := Lit.mk 0, domRed := Lit.mk 0 },
   { irredStamp 11 12 with domIrred := Lit.mk 5 },
   { irredStamp 3 4 with domIrred := Lit.mk 2, domRed := Lit.mk 2 },
   { irredStamp 13 14 with domRed := Lit.mk 3 }]

/-- A replacer that puts the variable 1 in the place of the variable 2 (the
literal `2` for the literal `4`, the literal `3` for the literal `5`) and
leaves every other literal. -/
def exampleReplacer (l : Lit) : Lit :=
  if l = Lit.mk 4 then Lit.mk 2 else if l = Lit.mk 5 then Lit.mk 3 else l

/-- A `Data` record with the given clause and literal totals. -/
def exampleData (num lits : Nat) : CleaningStats.Data :=
  { CleaningStats.Data.init with num := num, lits := lits }

/-- A `CleaningStats` record of one glue based clean. -/
def exampleCleaning : CleaningStats :=
  { CleaningStats.init clauseCleaningTypes.CLEAN_CLAUSES_GLUE_BASED with
    origNumClauses := 10
    origNumLits := 40
    glueBasedClean := 1
    preRemove := exampleData 2 6
    removed := exampleData 3 15
    remain := exampleData 5 19 }

/-- A `ClauseUsageStats` record of two clauses. -/
def exampleUsage : ClauseUsageStats :=
  { num := 2, sumProp := 5, sumConfl := 1, sumLitVisited := 30, sumLookedAt := 12,
    sumUsedUIP := 0 }

/-! ## The sweep of clause elimination in the words of the spec -/

/-- The spec's "sorted ascending by `key`": an insertion sort that keeps the
order of the literals with equal keys. -/
def sortAscBy (key : Lit → Nat) (lits : List Lit) : List Lit :=
  lits.insertionSort (fun a b => key a ≤ key b)

/-- The two-pointer sweep as the spec words it, on cursor positions: `lpos`
into `norm` and `lneg` into `inv`. A round compares `first(*lneg)` with
`start[*lpos]` and advances `lpos` when it is not smaller; else it compares
`end[complement(*lneg)]` with `end[*lpos]` and advances `lneg` when it is not
larger; else the verdict is `true`. A cursor that is exhausted gives the
verdict `false`. `none` is a sweep that has no verdict after `rounds` rounds. -/
def specSweepAt (first : Lit → Nat) (tstamp : List Timestamp) (norm inv : List Lit) :
    Nat → Nat → Nat → Option Bool
  | 0, _, _ => none
  | rounds + 1, lpos, lneg =>
    match norm[lpos]?, inv[lneg]? with
    | some p, some n =>
      if first n ≥ startOf tstamp STAMP_IRRED p then
        if lpos + 1 < norm.length then specSweepAt first tstamp norm inv rounds (lpos + 1) lneg
        else some false
      else if endOf tstamp STAMP_IRRED n.neg ≤ endOf tstamp STAMP_IRRED p then
        if lneg + 1 < inv.length then specSweepAt first tstamp norm inv rounds lpos (lneg + 1)
        else some false
      else some true
    | _, _ => none

/-- Clause elimination in the words of the spec: `norm` sorted ascending by
`start[·,IRRED]`, `inv` sorted ascending by `end[complement(·),IRRED]`, both
cursors at the front, and the sweep whose first test is
`end[complement(*lneg),IRRED] >= start[*lpos,IRRED]`. Every round moves a
cursor, so one round per element of the two orderings is enough. -/
def specClRem (tstamp : List Timestamp) (lits : List Lit) : Option Bool :=
  let norm := sortAscBy (fun l => startOf tstamp STAMP_IRRED l) lits
  let inv := sortAscBy (fun l => endOf tstamp STAMP_IRRED l.neg) lits
  specSweepAt (fun n => endOf tstamp STAMP_IRRED n.neg) tstamp norm inv
    (norm.length + inv.length) 0 0

/-- The comparison of two literals by a stamp `key`: ascending, or descending
with `rev`. -/
def keyOrder (key : Lit → Nat) (rev : Bool) : Lit → Lit → Bool :=
  fun a b => if rev then decide (key a > key b) else decide (key a < key b)

/-- The `IRRED` start stamps of the literals of the list are pairwise distinct,
and so are their end stamps, the start stamps of their complements and the
end stamps of their complements. -/
def distinctStamps (tstamp : List Timestamp) (lits : List Lit) : Prop :=
  ∀ a ∈ lits, ∀ b ∈ lits, a ≠ b →
    startOf tstamp STAMP_IRRED a ≠ startOf tstamp STAMP_IRRED b ∧
    endOf tstamp STAMP_IRRED a ≠ endOf tstamp STAMP_IRRED b ∧
    startOf tstamp STAMP_IRRED a.neg ≠ startOf tstamp STAMP_IRRED b.neg ∧
    endOf tstamp STAMP_IRRED a.neg ≠ endOf tstamp STAMP_IRRED b.neg

instance (tstamp : List Timestamp) (lits : List Lit) :
    Decidable (distinctStamps tstamp lits) := by
  unfold distinctStamps
  infer_instance

/-- Statistics of a clause that was bumped and that was learnt from six
resolutions. -/
def bumpedStats : ClauseStats :=
  { ClauseStats.init with
    glue := 4
    activity := 3
    numProp := 5
    resolutions := { binCl := 1, triCl := 2, longCl := 3 } }

/-- The `IRRED` interval of a literal, the two stamps the sweep reads for a
literal of `stampNorm`. -/
def intervalOf (tstamp : List Timestamp) (l : Lit) : Nat × Nat :=
  (startOf tstamp STAMP_IRRED l, endOf tstamp STAMP_IRRED l)

/-- The `IRRED` interval of the complement of a literal, the two stamps the
sweep reads for a literal of `stampInv`. -/
def intervalOfNeg (tstamp : List Timestamp) (l : Lit) : Nat × Nat :=
  (startOf tstamp STAMP_IRRED l.neg, endOf tstamp STAMP_IRRED l.neg)

/-- Among the literals of the list a stamp names one interval: two literals
that share the `IRRED` start stamp or the `IRRED` end stamp have the same
`IRRED` interval, and so do two complements. -/
def tiesShareInterval (tstamp : List Timestamp) (lits : List Lit) : Prop :=
  ∀ a ∈ lits, ∀ b ∈ lits,
    ((startOf tstamp STAMP_IRRED a = startOf tstamp STAMP_IRRED b ∨
        endOf tstamp STAMP_IRRED a = endOf tstamp STAMP_IRRED b) →
      intervalOf tstamp a = intervalOf tstamp b) ∧
    ((startOf tstamp STAMP_IRRED a.neg = startOf tstamp STAMP_IRRED b.neg ∨
        endOf tstamp STAMP_IRRED a.neg = endOf tstamp STAMP_IRRED b.neg) →
      intervalOfNeg tstamp a = intervalOfNeg tstamp b)

instance (tstamp : List Timestamp) (lits : List Lit) :
    Decidable (tiesShareInterval tstamp lits) := by
  unfold tiesShareInterval
  infer_instance

/-- In the table a stamp names one interval: two entries that share the `IRRED`
start stamp or the `IRRED` end stamp have the same `IRRED` interval. Stamping
hands out every stamp once, an unvisited entry has the interval `[0, 0]`, and
`update_dominators` copies whole entries. -/
def IntervalsByStamp (tstamp : List Timestamp) : Prop :=
  ∀ i < tstamp.length, ∀ j < tstamp.length,
    ((at_ tstamp i).start STAMP_IRRED = (at_ tstamp j).start STAMP_IRRED ∨
        (at_ tstamp i).end_ STAMP_IRRED = (at_ tstamp j).end_ STAMP_IRRED) →
      (at_ tstamp i).start STAMP_IRRED = (at_ tstamp j).start STAMP_IRRED ∧
      (at_ tstamp i).end_ STAMP_IRRED = (at_ tstamp j).end_ STAMP_IRRED

instance (tstamp : List Timestamp) : Decidable (IntervalsByStamp tstamp) := by
  unfold IntervalsByStamp
  infer_instance

/-- The stamps that a depth-first stamping of the binary clauses
`(0 ∨ 2), (0 ∨ ¬1)` leaves in domain `IRRED` when it starts from the literal
`0`, then from `¬0` (which reaches `2` and `¬1`), then from `¬2` and from `1`
(whose only successor `0` has been visited): `interval(¬0) = [3, 8]` contains
`interval(2) = [4, 5]` and `interval(¬1) = [6, 7]`. The literal `v` has id
`2 * v` and `¬v` has id `2 * v + 1`. -/
def nestedTable : List Timestamp :=
  [irredStamp 1 2, irredStamp 3 8,
   irredStamp 11 12, irredStamp 6 7,
   irredStamp 4 5, irredStamp 9 10]

/-- No complement of a literal of the list has its `IRRED` interval strictly
inside the `IRRED` interval of the complement of another literal of the list. -/
def noNestedComplements (tstamp : List Timestamp) (lits : List Lit) : Prop :=
  ∀ a ∈ lits, ∀ b ∈ lits,
    ¬ (startOf tstamp STAMP_IRRED a.neg < startOf tstamp STAMP_IRRED b.neg ∧
      endOf tstamp STAMP_IRRED b.neg < endOf tstamp STAMP_IRRED a.neg)

instance (tstamp : List Timestamp) (lits : List Lit) :
    Decidable (noNestedComplements tstamp lits) := by
  unfold noNestedComplements
  infer_instance

end CMSat

/-! # Theorems -/

namespace CMSat

open StampType

/-! ## Stable sorting -/

theorem insertStable_perm {α : Type} (lt : α → α → Bool) (x : α) (l : List α) :
    (insertStable lt x l).Perm (x :: l) := by
  induction l with
  | nil => simp [insertStable]
  | cons y ys ih =>
    simp only [insertStable]
    split
    · exact (List.Perm.cons y ih).trans (List.Perm.swap x y ys)
    · exact List.Perm.refl _

theorem stable_sort_perm {α : Type} (lt : α → α → Bool) (l : List α) :
    (stable_sort lt l).Perm l := by
  induction l with
  | nil => simp [stable_sort]
  | cons x xs ih =>
    simp only [stable_sort]
    exact (insertStable_perm lt x _).trans (List.Perm.cons x ih)

theorem stable_sort_length {α : Type} (lt : α → α → Bool) (l : List α) :
    (stable_sort lt l).length = l.length :=
  (stable_sort_perm lt l).length_eq

theorem mem_stable_sort {α : Type} (lt : α → α → Bool) (l : List α) (a : α) :
    a ∈ stable_sort lt l ↔ a ∈ l :=
  (stable_sort_perm lt l).mem_iff

theorem stable_sort_ne_nil {α : Type} (lt : α → α → Bool) (l : List α) (h : l ≠ []) :
    stable_sort lt l ≠ [] := by
  intro h0
  have := stable_sort_length lt l
  rw [h0] at this
  exact h (List.length_eq_zero.mp this.symm)

theorem StrictTotalOn.mono {α : Type} {lt : α → α → Bool} {l l' : List α}
    (h : StrictTotalOn lt l) (hsub : ∀ a ∈ l', a ∈ l) : StrictTotalOn lt l' :=
  ⟨fun a ha b hb => h.1 a (hsub a ha) b (hsub b hb),
   fun a ha b hb c hc => h.2.1 a (hsub a ha) b (hsub b hb) c (hsub c hc),
   fun a ha b hb => h.2.2 a (hsub a ha) b (hsub b hb)⟩

/-- Two insertions commute when the comparison is a strict total order on the
elements involved. -/
theorem insertStable_comm {α : Type} (lt : α → α → Bool) (x y : α) (l : List α)
    (h : StrictTotalOn lt (x :: y :: l)) :
    insertStable lt y (insertStable lt x l) = insertStable lt x (insertStable lt y l) := by
  have hxy : x ≠ y → (lt x y = true ∧ lt y x = false) ∨ (lt y x = true ∧ lt x y = false) := by
    intro hne
    rcases h.2.2 x (by simp) y (by simp) hne with h1 | h1
    · exact Or.inl ⟨h1, h.1 x (by simp) y (by simp) h1⟩
    · exact Or.inr ⟨h1, h.1 y (by simp) x (by simp) h1⟩
  induction l with
  | nil =>
    by_cases hne : x = y
    · subst hne; rfl
    · rcases hxy hne with ⟨h1, h2⟩ | ⟨h1, h2⟩ <;> simp [insertStable, h1, h2]
  | cons z zs ih =>
    have hsub : StrictTotalOn lt (x :: y :: zs) :=
      h.mono (by
        intro a ha
        simp only [List.mem_cons] at ha ⊢
        tauto)
    have ih := ih hsub
    -- an element that is not below `z` is below everything above `z`
    have key : ∀ u v, u ∈ x :: y :: z :: zs → v ∈ x :: y :: z :: zs →
        lt z u = true → lt z v = false → lt v u = true := by
      intro u v hu hv hzu hzv
      have hz : z ∈ x :: y :: z :: zs := by simp
      by_cases hvz : v = z
      · rw [hvz]; exact hzu
      · rcases h.2.2 v hv z hz hvz with h1 | h1
        · exact h.2.1 v hv z hz u hu h1 hzu
        · rw [h1] at hzv; cases hzv
    have hx : x ∈ x :: y :: z :: zs := by simp
    have hy : y ∈ x :: y :: z :: zs := by simp
    cases hzx : lt z x <;> cases hzy : lt z y
    · by_cases hne : x = y
      · subst hne; simp [insertStable, hzx]
      · rcases hxy hne with ⟨h1, h2⟩ | ⟨h1, h2⟩ <;>
          simp [insertStable, hzx, hzy, h1, h2]
    · have h1 := key y x hy hx hzy hzx
      simp [insertStable, hzx, hzy, h1]
    · have h1 := key x y hx hy hzx hzy
      simp [insertStable, hzx, hzy, h1]
    · simp [insertStable, hzx, hzy, ih]

/-- On a list without ties the sorted vector does not depend on the order of
the input. -/
theorem stable_sort_eq_of_perm {α : Type} (lt : α → α → Bool) {l l' : List α}
    (hp : l.Perm l') (h : StrictTotalOn lt l) : stable_sort lt l = stable_sort lt l' := by
  induction hp with
  | nil => rfl
  | cons x _ ih =>
    simp only [stable_sort]
    rw [ih (h.mono (fun a ha => List.mem_cons_of_mem _ ha))]
  | swap x y l =>
    simp only [stable_sort]
    apply insertStable_comm
    apply h.mono
    intro a ha
    simp only [List.mem_cons, mem_stable_sort] at ha ⊢
    tauto
  | trans hp1 _ ih1 ih2 =>
    rw [ih1 h, ih2 (h.mono (fun a ha => hp1.mem_iff.mpr ha))]

/-! ## The sweep of `stampBasedClRem` -/

/-- The sweep returns when its fuel covers both sorted vectors. -/
theorem clRemLoop_returns (tstamp : List Timestamp) :
    ∀ (fuel : Nat) (norm inv : List Lit), norm ≠ [] → inv ≠ [] →
      norm.length + inv.length ≤ fuel + 1 →
      ∃ v, clRemLoop tstamp fuel norm inv = some v := by
  intro fuel
  induction fuel with
  | zero =>
    intro norm inv hn hi hlen
    cases norm with
    | nil => exact absurd rfl hn
    | cons p norm =>
      cases inv with
      | nil => exact absurd rfl hi
      | cons n inv => simp at hlen; omega
  | succ fuel ih =>
    intro norm inv hn hi hlen
    cases norm with
    | nil => exact absurd rfl hn
    | cons p norm =>
      cases inv with
      | nil => exact absurd rfl hi
      | cons n inv =>
        simp only [clRemLoop]
        split
        · cases norm with
          | nil => exact ⟨false, by simp⟩
          | cons p2 norm =>
            simp only [List.isEmpty_cons, Bool.false_eq_true, if_false]
            apply ih
            · simp
            · simp
            · simp at hlen ⊢; omega
        · split
          · cases inv with
            | nil => exact ⟨false, by simp⟩
            | cons n2 inv =>
              simp only [List.isEmpty_cons, Bool.false_eq_true, if_false]
              apply ih
              · simp
              · simp
              · simp at hlen ⊢; omega
          · exact ⟨true, rfl⟩

/-- A verdict `true` of the sweep names two literals: one of `norm` whose
interval lies strictly inside the interval of the complement of one of `inv`. -/
theorem clRemLoop_sound (tstamp : List Timestamp) :
    ∀ (fuel : Nat) (norm inv : List Lit), clRemLoop tstamp fuel norm inv = some true →
      ∃ a ∈ inv, ∃ b ∈ norm, insideNeg tstamp a b := by
  intro fuel
  induction fuel with
  | zero => intro norm inv h; simp [clRemLoop] at h
  | succ fuel ih =>
    intro norm inv h
    cases norm with
    | nil => simp [clRemLoop] at h
    | cons p norm =>
      cases inv with
      | nil => simp [clRemLoop] at h
      | cons n inv =>
        simp only [clRemLoop] at h
        split at h
        · split at h
          · cases h
          · obtain ⟨a, ha, b, hb, hab⟩ := ih _ _ h
            exact ⟨a, ha, b, List.mem_cons_of_mem _ hb, hab⟩
        · split at h
          · split at h
            · cases h
            · obtain ⟨a, ha, b, hb, hab⟩ := ih _ _ h
              exact ⟨a, List.mem_cons_of_mem _ ha, b, hb, hab⟩
          · refine ⟨n, by simp, p, by simp, ?_, ?_⟩ <;> omega

/-- On vectors in ascending order of start stamps whose intervals are nested or
disjoint, the sweep finds every pair of literals that `clRemLoop_sound` can
name. -/
theorem clRemLoop_complete (tstamp : List Timestamp) :
    ∀ (fuel : Nat) (norm inv : List Lit),
      norm.Pairwise (fun x y => startOf tstamp STAMP_IRRED x ≤ startOf tstamp STAMP_IRRED y) →
      inv.Pairwise (fun x y =>
        startOf tstamp STAMP_IRRED x.neg ≤ startOf tstamp STAMP_IRRED y.neg) →
      (∀ b ∈ norm, startOf tstamp STAMP_IRRED b ≤ endOf tstamp STAMP_IRRED b) →
      (∀ a ∈ inv, ∀ b ∈ norm,
        (startOf tstamp STAMP_IRRED a.neg = startOf tstamp STAMP_IRRED b ∧
          endOf tstamp STAMP_IRRED a.neg = endOf tstamp STAMP_IRRED b) ∨
        insideNeg tstamp a b ∨
        (startOf tstamp STAMP_IRRED b < startOf tstamp STAMP_IRRED a.neg ∧
          endOf tstamp STAMP_IRRED a.neg < endOf tstamp STAMP_IRRED b) ∨
        endOf tstamp STAMP_IRRED a.neg < startOf tstamp STAMP_IRRED b ∨
        endOf tstamp STAMP_IRRED b < startOf tstamp STAMP_IRRED a.neg) →
      norm.length + inv.length ≤ fuel + 1 →
      (∃ a ∈ inv, ∃ b ∈ norm, insideNeg tstamp a b) →
      clRemLoop tstamp fuel norm inv = some true := by
  intro fuel
  induction fuel with
  | zero =>
    intro norm inv _ _ _ _ hlen hex
    obtain ⟨a, ha, b, hb, _⟩ := hex
    cases norm with
    | nil => cases hb
    | cons p norm =>
      cases inv with
      | nil => cases ha
      | cons n inv => simp at hlen; omega
  | succ fuel ih =>
    intro norm inv hN hI hle hlam hlen hex
    obtain ⟨a, ha, b, hb, hab⟩ := hex
    cases norm with
    | nil => cases hb
    | cons p norm =>
      cases inv with
      | nil => cases ha
      | cons n inv =>
        rw [List.pairwise_cons] at hN hI
        simp only [clRemLoop]
        have hna : startOf tstamp STAMP_IRRED n.neg ≤ startOf tstamp STAMP_IRRED a.neg := by
          rcases List.mem_cons.mp ha with h | h
          · rw [h]
          · exact hI.1 a h
        have hpb : startOf tstamp STAMP_IRRED p ≤ startOf tstamp STAMP_IRRED b := by
          rcases List.mem_cons.mp hb with h | h
          · rw [h]
          · exact hN.1 b h
        split
        · -- `lpos` advances: the pair cannot use `p`
          rename_i h1
          have hb2 : b ∈ norm := by
            rcases List.mem_cons.mp hb with h | h
            · exfalso; rw [h] at hab; have := hab.1; omega
            · exact h
          cases norm with
          | nil => cases hb2
          | cons p2 norm =>
            simp only [List.isEmpty_cons, Bool.false_eq_true, if_false]
            apply ih _ _ hN.2 (List.pairwise_cons.mpr hI)
            · exact fun x hx => hle x (List.mem_cons_of_mem _ hx)
            · exact fun x hx y hy => hlam x hx y (List.mem_cons_of_mem _ hy)
            · simp at hlen ⊢; omega
            · exact ⟨a, ha, b, hb2, hab⟩
        · rename_i h1
          split
          · -- `lneg` advances: the pair cannot use `n`
            rename_i h2
            have ha2 : a ∈ inv := by
              rcases List.mem_cons.mp ha with h | h
              · exfalso
                rw [h] at hab
                have hbb := hle b hb
                have hpp := hle p (by simp)
                have h3 := hab.1
                have h4 := hab.2
                rcases hlam n (by simp) p (by simp) with h5 | h5 | h5 | h5 | h5
                · omega
                · have := h5.2; omega
                · omega
                · omega
                · omega
              · exact h
            cases inv with
            | nil => cases ha2
            | cons n2 inv =>
              simp only [List.isEmpty_cons, Bool.false_eq_true, if_false]
              apply ih _ _ (List.pairwise_cons.mpr hN) hI.2 hle
              · exact fun x hx y hy => hlam x (List.mem_cons_of_mem _ hx) y hy
              · simp at hlen ⊢; omega
              · exact ⟨a, ha2, b, hb, hab⟩
          · rfl

/-- The function `stampBasedClRem` returns a verdict on every non-empty list:
the sweep over its two sorted vectors. -/
theorem stampBasedClRem_returns (S : Sorters) (tstamp : List Timestamp) (lits : List Lit)
    (hne : lits ≠ []) :
    ∃ v, stampBasedClRem S tstamp lits = some v ∧
      clRemLoop tstamp
        ((stable_sort (S.StampSorter tstamp STAMP_IRRED false) lits).length +
          (stable_sort (S.StampSorterInv tstamp STAMP_IRRED false) lits).length)
        (stable_sort (S.StampSorter tstamp STAMP_IRRED false) lits)
        (stable_sort (S.StampSorterInv tstamp STAMP_IRRED false) lits) = some v := by
  have hpos : lits.length > 0 := List.length_pos.mpr hne
  obtain ⟨v, hv⟩ := clRemLoop_returns tstamp
    ((stable_sort (S.StampSorter tstamp STAMP_IRRED false) lits).length +
      (stable_sort (S.StampSorterInv tstamp STAMP_IRRED false) lits).length)
    (stable_sort (S.StampSorter tstamp STAMP_IRRED false) lits)
    (stable_sort (S.StampSorterInv tstamp STAMP_IRRED false) lits)
    (stable_sort_ne_nil _ _ hne) (stable_sort_ne_nil _ _ hne) (by omega)
  refine ⟨v, ?_, hv⟩
  unfold stampBasedClRem
  simp only [hpos, if_true]
  exact hv

/-! ## Sorting literals that tie -/

/-- The condition on the table cannot be dropped: `tieTable` is a vector in
which the literals `0` and `2` share the start stamp and not the end stamp, the
stable sort keeps their input order, and the sweep tells `[0, 2]` from
`[2, 0]`. Stamping hands out every stamp once, so no stamped table looks like
this. -/
theorem clRemLoop_reads_end_of_tied_literals :
    ¬ tiesShareInterval tieTable [Lit.mk 0, Lit.mk 2] ∧
    ¬ IrredStamped tieTable ∧
    stampBasedClRem specSorters tieTable [Lit.mk 0, Lit.mk 2] = some true ∧
    stampBasedClRem specSorters tieTable [Lit.mk 2, Lit.mk 0] = some false :=
  ⟨by decide, by decide, by decide, by decide⟩

/-! ## Sorting by a stamp -/

/-- Inserting into a list that ascends in the key keeps it ascending. -/
theorem keyOrder_pairwise_insert (key : Lit → Nat) (x : Lit) : ∀ l : List Lit,
    l.Pairwise (fun a b => key a ≤ key b) →
    (insertStable (keyOrder key false) x l).Pairwise (fun a b => key a ≤ key b) := by
  intro l
  induction l with
  | nil => intro _; simp [insertStable]
  | cons y ys ih =>
    intro h
    rw [List.pairwise_cons] at h
    simp only [insertStable]
    by_cases hyx : keyOrder key false y x = true
    · rw [if_pos hyx]
      have hlt : key y < key x := by simpa [keyOrder] using hyx
      rw [List.pairwise_cons]
      refine ⟨?_, ih h.2⟩
      intro z hz
      rcases List.mem_cons.mp ((insertStable_perm _ x ys).mem_iff.mp hz) with hzx | hzy
      · rw [hzx]; exact Nat.le_of_lt hlt
      · exact h.1 z hzy
    · rw [if_neg hyx]
      have hge : key x ≤ key y := by
        have : ¬ key y < key x := by simpa [keyOrder] using hyx
        omega
      rw [List.pairwise_cons]
      refine ⟨?_, List.pairwise_cons.mpr h⟩
      intro z hz
      rcases List.mem_cons.mp hz with hzy | hzy
      · rw [hzy]; exact hge
      · exact Nat.le_trans hge (h.1 z hzy)

/-- The stable sort by an ascending key is ascending in that key. -/
theorem stable_sort_keyOrder_pairwise (key : Lit → Nat) (l : List Lit) :
    (stable_sort (keyOrder key false) l).Pairwise (fun a b => key a ≤ key b) := by
  induction l with
  | nil => simp [stable_sort]
  | cons x xs ih =>
    simp only [stable_sort]
    exact keyOrder_pairwise_insert key x _ ih

/-! ## C2: what `stampBasedClRem` detects -/

/-- C2, as stated, fails. `exampleTable` is a stamped table with
`interval(1) ⊃ interval(2) ⊃ interval(3)`, and the clause `{1, ¬3}` contains
`a = ¬3` and `b = 1` with the interval of `complement(a) = 3` nested inside the
interval of `b`, yet `stampBasedClRem({1, ¬3})` is false; the clause that is
reported removable is `{¬1, 3}`, and `{1, 3}` is not. With the nesting turned
round, "exactly when" still fails for the orders the spec gives: `nestedTable`
is a stamped table, in the clause `{0, 1, 2}` the interval of `2` lies strictly
inside the interval of `¬0`, and `stampBasedClRem({0, 1, 2})` is false, because
`stampInv`, ascending by `end[complement(·)]`, puts the literal `1` (whose
complement's interval is nested in that of `¬0`) in front of the literal `0`. -/
theorem stampBasedClRem_not_iff_nested :
    IrredStamped exampleTable ∧
    (∃ a ∈ [Lit.mk 2, Lit.mk 7], ∃ b ∈ [Lit.mk 2, Lit.mk 7],
      startOf exampleTable STAMP_IRRED b ≤ startOf exampleTable STAMP_IRRED a.neg ∧
      endOf exampleTable STAMP_IRRED a.neg ≤ endOf exampleTable STAMP_IRRED b) ∧
    stampBasedClRem specSorters exampleTable [Lit.mk 2, Lit.mk 7] = some false ∧
    stampBasedClRem specSorters exampleTable [Lit.mk 3, Lit.mk 6] = some true ∧
    stampBasedClRem specSorters exampleTable [Lit.mk 2, Lit.mk 6] = some false ∧
    IrredStamped nestedTable ∧
    (∃ a ∈ [Lit.mk 0, Lit.mk 2, Lit.mk 4], ∃ b ∈ [Lit.mk 0, Lit.mk 2, Lit.mk 4],
      insideNeg nestedTable a b) ∧
    stampBasedClRem specSorters nestedTable [Lit.mk 0, Lit.mk 2, Lit.mk 4] = some false :=
  ⟨by decide, ⟨Lit.mk 7, by decide, Lit.mk 2, by decide, by decide⟩,
    by decide, by decide, by decide, by decide,
    ⟨Lit.mk 0, by decide, Lit.mk 4, by decide, by decide⟩, by decide⟩

/-- C2, amended: the nesting is the other way round and strict, and it is
necessary, and sufficient under a condition on the two sort orders. For every
stamped table (`IRRED` intervals with `start < end`, pairwise strictly nested
or disjoint), every pair of comparison functors and every non-empty literal
list inside the table, `stampBasedClRem` returns a verdict, and the verdict is
true only when the list contains literals `a` and `b` such that the interval of
`b` lies strictly inside the interval of `complement(a)`
(`start[~a] < start[b]` and `end[b] < end[~a]`). Such a pair makes the verdict
true when `stampNorm` is sorted ascending by `start[·]` and `stampInv` is
sorted ascending by `start[complement(·)]`, or ascending by
`end[complement(·)]` while no complement's interval lies strictly inside
another complement's interval. -/
theorem stampBasedClRem_inside (S : Sorters) (tstamp : List Timestamp) (lits : List Lit)
    (hne : lits ≠ []) (hst : IrredStamped tstamp)
    (hin : ∀ l ∈ lits, l.toInt < tstamp.length ∧ l.neg.toInt < tstamp.length) :
    ∃ v, stampBasedClRem S tstamp lits = some v ∧
      (v = true → ∃ a ∈ lits, ∃ b ∈ lits, insideNeg tstamp a b) ∧
      (S.StampSorter tstamp STAMP_IRRED false =
          keyOrder (fun l => startOf tstamp STAMP_IRRED l) false →
        (S.StampSorterInv tstamp STAMP_IRRED false =
            keyOrder (fun l => startOf tstamp STAMP_IRRED l.neg) false ∨
          (S.StampSorterInv tstamp STAMP_IRRED false =
              keyOrder (fun l => endOf tstamp STAMP_IRRED l.neg) false ∧
            noNestedComplements tstamp lits)) →
        (∃ a ∈ lits, ∃ b ∈ lits, insideNeg tstamp a b) → v = true) := by
  obtain ⟨v, hv, hloop⟩ := stampBasedClRem_returns S tstamp lits hne
  refine ⟨v, hv, ?_, ?_⟩
  · intro hvt
    rw [hvt] at hloop
    obtain ⟨a, ha, b, hb, hab⟩ := clRemLoop_sound tstamp _ _ _ hloop
    exact ⟨a, (mem_stable_sort _ _ _).mp ha, b, (mem_stable_sort _ _ _).mp hb, hab⟩
  · rintro hN hI ⟨a, ha, b, hb, hab⟩
    have hNorm : (stable_sort (S.StampSorter tstamp STAMP_IRRED false) lits).Pairwise
        (fun x y => startOf tstamp STAMP_IRRED x ≤ startOf tstamp STAMP_IRRED y) := by
      rw [hN]
      exact stable_sort_keyOrder_pairwise (fun l => startOf tstamp STAMP_IRRED l) lits
    have hInv : (stable_sort (S.StampSorterInv tstamp STAMP_IRRED false) lits).Pairwise
        (fun x y => startOf tstamp STAMP_IRRED x.neg ≤ startOf tstamp STAMP_IRRED y.neg) := by
      rcases hI with hI | ⟨hI, hnn⟩
      · rw [hI]
        exact stable_sort_keyOrder_pairwise (fun l => startOf tstamp STAMP_IRRED l.neg) lits
      · rw [hI]
        refine List.Pairwise.imp_of_mem ?_
          (stable_sort_keyOrder_pairwise (fun l => endOf tstamp STAMP_IRRED l.neg) lits)
        intro x y hx hy hxy
        have hxl := (mem_stable_sort _ _ _).mp hx
        have hyl := (mem_stable_sort _ _ _).mp hy
        have hx2 := (hin x hxl).2
        have hy2 := (hin y hyl).2
        have hno := hnn y hyl x hxl
        by_cases hij : x.neg.toInt = y.neg.toInt
        · simp only [startOf, hij, Nat.le_refl]
        · have hpos := (hst x.neg.toInt hx2).1
          simp only [startOf, endOf] at hxy hno ⊢
          rcases (hst x.neg.toInt hx2).2 y.neg.toInt hy2 hij with h | h | h | h
          · omega
          · exact absurd h hno
          · omega
          · omega
    have hc := clRemLoop_complete tstamp
      ((stable_sort (S.StampSorter tstamp STAMP_IRRED false) lits).length +
        (stable_sort (S.StampSorterInv tstamp STAMP_IRRED false) lits).length)
      (stable_sort (S.StampSorter tstamp STAMP_IRRED false) lits)
      (stable_sort (S.StampSorterInv tstamp STAMP_IRRED false) lits) hNorm hInv
      (by
        intro x hx
        have hx := (hin x ((mem_stable_sort _ _ _).mp hx)).1
        exact Nat.le_of_lt (hst x.toInt hx).1)
      (by
        intro x hx y hy
        have hx := (hin x ((mem_stable_sort _ _ _).mp hx)).2
        have hy := (hin y ((mem_stable_sort _ _ _).mp hy)).1
        by_cases hxy : x.neg.toInt = y.toInt
        · left
          simp only [startOf, endOf, hxy, and_self]
        · right
          rcases (hst x.neg.toInt hx).2 y.toInt hy hxy with h | h | h | h
          · exact Or.inl h
          · exact Or.inr (Or.inl h)
          · exact Or.inr (Or.inr (Or.inl h))
          · exact Or.inr (Or.inr (Or.inr h)))
      (by omega)
      ⟨a, (mem_stable_sort _ _ _).mpr ha, b, (mem_stable_sort _ _ _).mpr hb, hab⟩
    rw [hc] at hloop
    exact (Option.some.inj hloop).symm

/-- C2, amended, at a concrete input: the clause `{3, ¬1, ¬2}` on
`exampleTable`, where the interval of the complement `2` lies inside the
interval of the complement `1`, is reported removable. The functors of the
spec sort `stampNorm` ascending by `start[·]` and `stampInv` ascending by
`end[complement(·)]`, and on the clause `{¬1, 3}` no complement is nested in
another; that clause is reported removable, and `{1, ¬3}` and `{1, 3}` are
not. -/
theorem stampBasedClRem_inside_witness :
    ([Lit.mk 6, Lit.mk 3, Lit.mk 5] ≠ [] ∧ IrredStamped exampleTable ∧
      (∀ l ∈ [Lit.mk 6, Lit.mk 3, Lit.mk 5],
        l.toInt < exampleTable.length ∧ l.neg.toInt < exampleTable.length) ∧
      ¬ noNestedComplements exampleTable [Lit.mk 6, Lit.mk 3, Lit.mk 5] ∧
      stampBasedClRem specSorters exampleTable [Lit.mk 6, Lit.mk 3, Lit.mk 5] = some true) ∧
    (specSorters.StampSorter exampleTable STAMP_IRRED false =
        keyOrder (fun l => startOf exampleTable STAMP_IRRED l) false ∧
      specSorters.StampSorterInv exampleTable STAMP_IRRED false =
        keyOrder (fun l => endOf exampleTable STAMP_IRRED l.neg) false ∧
      noNestedComplements exampleTable [Lit.mk 3, Lit.mk 6]) ∧
    (stampBasedClRem specSorters exampleTable [Lit.mk 3, Lit.mk 6] = some true ∧
      stampBasedClRem specSorters exampleTable [Lit.mk 2, Lit.mk 7] = some false ∧
      stampBasedClRem specSorters exampleTable [Lit.mk 2, Lit.mk 6] = some false) ∧
    ∃ v, stampBasedClRem specSorters exampleTable [Lit.mk 6, Lit.mk 3, Lit.mk 5] = some v ∧
      (v = true → ∃ a ∈ [Lit.mk 6, Lit.mk 3, Lit.mk 5], ∃ b ∈ [Lit.mk 6, Lit.mk 3, Lit.mk 5],
        insideNeg exampleTable a b) ∧
      (specSorters.StampSorter exampleTable STAMP_IRRED false =
          keyOrder (fun l => startOf exampleTable STAMP_IRRED l) false →
        (specSorters.StampSorterInv exampleTable STAMP_IRRED false =
            keyOrder (fun l => startOf exampleTable STAMP_IRRED l.neg) false ∨
          (specSorters.StampSorterInv exampleTable STAMP_IRRED false =
              keyOrder (fun l => endOf exampleTable STAMP_IRRED l.neg) false ∧
            noNestedComplements exampleTable [Lit.mk 6, Lit.mk 3, Lit.mk 5])) →
        (∃ a ∈ [Lit.mk 6, Lit.mk 3, Lit.mk 5], ∃ b ∈ [Lit.mk 6, Lit.mk 3, Lit.mk 5],
          insideNeg exampleTable a b) → v = true) :=
  ⟨⟨by decide, by decide, by decide, by decide, by decide⟩, ⟨rfl, rfl, by decide⟩,
    ⟨by decide, by decide, by decide⟩,
    stampBasedClRem_inside specSorters exampleTable [Lit.mk 6, Lit.mk 3, Lit.mk 5]
      (by decide) (by decide) (by decide)⟩

/-! ## The scan of `stampBasedLitRem` -/

theorem scanLoop_length (drop : Lit → Lit → Bool) :
    ∀ (l : List Lit) (last : Lit), (scanLoop drop last l).1.length = l.length := by
  intro l
  induction l with
  | nil => intro last; rfl
  | cons x xs ih =>
    intro last
    simp only [scanLoop]
    split <;> simp [ih]

theorem scanLoop_count_le (drop : Lit → Lit → Bool) :
    ∀ (l : List Lit) (last : Lit), (scanLoop drop last l).2 ≤ l.length := by
  intro l
  induction l with
  | nil => intro last; simp [scanLoop]
  | cons x xs ih =>
    intro last
    simp only [scanLoop]
    split
    · have := ih last; simp; omega
    · have := ih x; simp; omega

/-- The counter of the scan is the number of `lit_Undef`-s it wrote. -/
theorem scanLoop_count (drop : Lit → Lit → Bool) :
    ∀ (l : List Lit) (last : Lit), lit_Undef ∉ l →
      (scanLoop drop last l).2 = (scanLoop drop last l).1.count lit_Undef := by
  intro l
  induction l with
  | nil => intro last _; simp [scanLoop]
  | cons x xs ih =>
    intro last hU
    have hx : x ≠ lit_Undef := fun h => hU (by simp [h])
    have hxs : lit_Undef ∉ xs := fun h => hU (List.mem_cons_of_mem _ h)
    simp only [scanLoop]
    split
    · simp [ih last hxs]
    · simp [ih x hxs, List.count_cons, hx]

/-- What the removal of the `lit_Undef`-s keeps is a sublist of the scanned
vector. -/
theorem scanLoop_filter_sublist (drop : Lit → Lit → Bool) :
    ∀ (l : List Lit) (last : Lit),
      ((scanLoop drop last l).1.filter (fun a => a != lit_Undef)).Sublist l := by
  intro l
  induction l with
  | nil => intro last; simp [scanLoop]
  | cons x xs ih =>
    intro last
    simp only [scanLoop]
    split
    · simp only [List.filter_cons, bne_self_eq_false, Bool.false_eq_true, if_false]
      exact (ih last).trans (List.sublist_cons_self x xs)
    · by_cases hx : x = lit_Undef
      · simp only [List.filter_cons, hx, bne_self_eq_false, Bool.false_eq_true, if_false]
        exact (ih _).trans (List.sublist_cons_self _ xs)
      · have hb : (x != lit_Undef) = true := by simpa using hx
        simp only [List.filter_cons, hb, if_true]
        exact (ih x).cons₂ x

/-- Lengths: the kept literals and the counter add up to the scanned vector. -/
theorem scanLoop_filter_length (drop : Lit → Lit → Bool) :
    ∀ (l : List Lit) (last : Lit), lit_Undef ∉ l →
      ((scanLoop drop last l).1.filter (fun a => a != lit_Undef)).length +
        (scanLoop drop last l).2 = l.length := by
  intro l
  induction l with
  | nil => intro last _; simp [scanLoop]
  | cons x xs ih =>
    intro last hU
    have hx : x ≠ lit_Undef := fun h => hU (by simp [h])
    have hxs : lit_Undef ∉ xs := fun h => hU (List.mem_cons_of_mem _ h)
    have hb : (x != lit_Undef) = true := by simpa using hx
    simp only [scanLoop]
    split
    · simp only [List.filter_cons, bne_self_eq_false, Bool.false_eq_true, if_false,
        List.length_cons]
      have := ih last hxs
      omega
    · simp only [List.filter_cons, hb, if_true, List.length_cons]
      have := ih x hxs
      omega

/-- A scan that counts nothing leaves the vector as it was. -/
theorem scanLoop_zero (drop : Lit → Lit → Bool) :
    ∀ (l : List Lit) (last : Lit), (scanLoop drop last l).2 = 0 →
      (scanLoop drop last l).1 = l := by
  intro l
  induction l with
  | nil => intro last _; rfl
  | cons x xs ih =>
    intro last h
    simp only [scanLoop] at h ⊢
    split at h
    · simp at h
    · rename_i hd
      simp only [hd, Bool.false_eq_true, if_false]
      rw [ih x h]

/-- A literal that no literal of the vector makes the scan drop stays in the
vector. -/
theorem scanLoop_keeps (drop : Lit → Lit → Bool) (x : Lit) :
    ∀ (l : List Lit) (last : Lit), (∀ y ∈ last :: l, drop y x = false) → x ∈ l →
      x ∈ (scanLoop drop last l).1 := by
  intro l
  induction l with
  | nil => intro last _ hx; cases hx
  | cons z zs ih =>
    intro last hall hx
    simp only [scanLoop]
    rcases List.mem_cons.mp hx with h | h
    · have hd : drop last z = false := by rw [← h]; exact hall last (by simp)
      simp [hd, h]
    · split
      · apply List.mem_cons_of_mem
        apply ih last _ h
        intro y hy
        apply hall
        simp only [List.mem_cons] at hy ⊢
        tauto
      · apply List.mem_cons_of_mem
        apply ih z _ h
        intro y hy
        apply hall
        simp only [List.mem_cons] at hy ⊢
        tauto

/-- The rule of the scan while nothing has been kept yet: the element at
position `i` is compared with the literal the scan started with. -/
theorem scanLoop_rule_first (drop : Lit → Lit → Bool) :
    ∀ (l : List Lit) (last : Lit) (i : Nat) (y : Lit), lit_Undef ∉ l →
      l[i]? = some y →
      (∀ k, k < i → (scanLoop drop last l).1[k]? = some lit_Undef) →
      ((scanLoop drop last l).1[i]? = some lit_Undef ↔ drop last y = true) ∧
      (drop last y = false → (scanLoop drop last l).1[i]? = some y) := by
  intro l
  induction l with
  | nil => intro last i y _ hy; simp at hy
  | cons z zs ih =>
    intro last i y hU hy hk
    have hz : z ≠ lit_Undef := fun h => hU (by simp [h])
    have hzs : lit_Undef ∉ zs := fun h => hU (List.mem_cons_of_mem _ h)
    cases i with
    | zero =>
      simp only [List.getElem?_cons_zero, Option.some.injEq] at hy
      subst hy
      simp only [scanLoop]
      cases hd : drop last z <;> simp [hz]
    | succ i =>
      simp only [List.getElem?_cons_succ] at hy
      have h0 := hk 0 (Nat.succ_pos i)
      simp only [scanLoop] at h0 hk ⊢
      cases hd : drop last z
      · simp [hd, hz] at h0
      · simp only [hd, if_true, List.getElem?_cons_succ] at hk ⊢
        apply ih last i y hzs hy
        intro k hki
        have := hk (k + 1) (by omega)
        simpa using this

/-- The rule of the scan: the element at position `i` is compared with the
last element before it that was kept. -/
theorem scanLoop_rule (drop : Lit → Lit → Bool) :
    ∀ (l : List Lit) (last : Lit) (i j : Nat) (x y : Lit), lit_Undef ∉ l → j < i →
      l[j]? = some x → l[i]? = some y →
      (scanLoop drop last l).1[j]? = some x →
      (∀ k, j < k → k < i → (scanLoop drop last l).1[k]? = some lit_Undef) →
      ((scanLoop drop last l).1[i]? = some lit_Undef ↔ drop x y = true) ∧
      (drop x y = false → (scanLoop drop last l).1[i]? = some y) := by
  intro l
  induction l with
  | nil => intro last i j x y _ _ hx; simp at hx
  | cons z zs ih =>
    intro last i j x y hU hji hx hy hmj hk
    have hz : z ≠ lit_Undef := fun h => hU (by simp [h])
    have hzs : lit_Undef ∉ zs := fun h => hU (List.mem_cons_of_mem _ h)
    obtain ⟨i, rfl⟩ : ∃ i', i = i' + 1 := ⟨i - 1, by omega⟩
    simp only [List.getElem?_cons_succ] at hy
    cases j with
    | zero =>
      simp only [List.getElem?_cons_zero, Option.some.injEq] at hx
      subst hx
      simp only [scanLoop] at hmj hk ⊢
      cases hd : drop last z
      · simp only [hd, Bool.false_eq_true, if_false, List.getElem?_cons_succ] at hk ⊢
        apply scanLoop_rule_first drop zs z i y hzs hy
        intro k hki
        have := hk (k + 1) (by omega) (by omega)
        simpa using this
      · simp only [hd, if_true, List.getElem?_cons_zero, Option.some.injEq] at hmj
        exact absurd hmj.symm hz
    | succ j =>
      simp only [List.getElem?_cons_succ] at hx
      simp only [scanLoop] at hmj hk ⊢
      cases hd : drop last z
      · simp only [hd, Bool.false_eq_true, if_false, List.getElem?_cons_succ] at hmj hk ⊢
        apply ih z i j x y hzs (by omega) hx hy hmj
        intro k hjk hki
        have := hk (k + 1) (by omega) (by omega)
        simpa using this
      · simp only [hd, if_true, List.getElem?_cons_succ] at hmj hk ⊢
        apply ih last i j x y hzs (by omega) hx hy hmj
        intro k hjk hki
        have := hk (k + 1) (by omega) (by omega)
        simpa using this

/-- The rule of the scan on the whole vector of a pass: position 0 is kept,
and the element at a position `i ≥ 1` is overwritten exactly when `drop` holds
between the last kept element before it and the element. -/
theorem afterScan_rule (drop : Lit → Lit → Bool) (s : List Lit) (hU : lit_Undef ∉ s)
    (i j : Nat) (x y : Lit) (hji : j < i) (hx : s[j]? = some x) (hy : s[i]? = some y)
    (hmj : (afterScan drop s)[j]? = some x)
    (hk : ∀ k, j < k → k < i → (afterScan drop s)[k]? = some lit_Undef) :
    ((afterScan drop s)[i]? = some lit_Undef ↔ drop x y = true) ∧
    (drop x y = false → (afterScan drop s)[i]? = some y) := by
  cases s with
  | nil => simp at hx
  | cons l0 rest =>
    have hrest : lit_Undef ∉ rest := fun h => hU (List.mem_cons_of_mem _ h)
    obtain ⟨i, rfl⟩ : ∃ i', i = i' + 1 := ⟨i - 1, by omega⟩
    simp only [afterScan, List.getElem?_cons_succ] at hy hk ⊢
    cases j with
    | zero =>
      simp only [List.getElem?_cons_zero, Option.some.injEq] at hx
      subst hx
      apply scanLoop_rule_first drop rest l0 i y hrest hy
      intro k hki
      have := hk (k + 1) (by omega) (by omega)
      simpa using this
    | succ j =>
      simp only [afterScan, List.getElem?_cons_succ] at hx hmj
      apply scanLoop_rule drop rest l0 i j x y hrest (by omega) hx hy hmj
      intro k hjk hki
      have := hk (k + 1) (by omega) (by omega)
      simpa using this

theorem afterScan_length (drop : Lit → Lit → Bool) (s : List Lit) :
    (afterScan drop s).length = s.length := by
  cases s with
  | nil => rfl
  | cons l0 rest => simp [afterScan, scanLoop_length]

theorem afterScan_head (drop : Lit → Lit → Bool) (s : List Lit) :
    (afterScan drop s)[0]? = s[0]? := by
  cases s with
  | nil => rfl
  | cons l0 rest => simp [afterScan]

/-- One pass on a non-empty vector without `lit_Undef`: no assertion fails, the
new vector is what the scan kept, in order, and the returned counter is the
number of elements the scan overwrote. -/
theorem litRemPass_spec (drop : Lit → Lit → Bool) (s : List Lit) (hne : s ≠ [])
    (hU : lit_Undef ∉ s) :
    litRemPass drop s = some ((afterScan drop s).filter (fun a => a != lit_Undef),
      (afterScan drop s).count lit_Undef) ∧
    ((afterScan drop s).filter (fun a => a != lit_Undef)).length +
      (afterScan drop s).count lit_Undef = s.length ∧
    (afterScan drop s).count lit_Undef < s.length ∧
    ((afterScan drop s).filter (fun a => a != lit_Undef)).Sublist s ∧
    ((afterScan drop s).filter (fun a => a != lit_Undef)).head? = s.head? := by
  cases s with
  | nil => exact absurd rfl hne
  | cons l0 rest =>
    have hl0 : l0 ≠ lit_Undef := fun h => hU (by simp [h])
    have hrest : lit_Undef ∉ rest := fun h => hU (List.mem_cons_of_mem _ h)
    have hb : (l0 != lit_Undef) = true := by simpa using hl0
    have hcount := scanLoop_count drop rest l0 hrest
    have hle := scanLoop_count_le drop rest l0
    have hlen := scanLoop_filter_length drop rest l0 hrest
    have hsub := scanLoop_filter_sublist drop rest l0
    have hc : (afterScan drop (l0 :: rest)).count lit_Undef = (scanLoop drop l0 rest).2 := by
      simp [afterScan, List.count_cons, hl0, hcount]
    have hf : (afterScan drop (l0 :: rest)).filter (fun a => a != lit_Undef) =
        l0 :: (scanLoop drop l0 rest).1.filter (fun a => a != lit_Undef) := by
      simp [afterScan, List.filter_cons, hb]
    rw [hc, hf]
    refine ⟨?_, ?_, ?_, ?_, ?_⟩
    · simp only [litRemPass]
      by_cases hz : (scanLoop drop l0 rest).2 = 0
      · have h1 := scanLoop_zero drop rest l0 hz
        have h2 : rest.filter (fun a => a != lit_Undef) = rest := by
          rw [List.filter_eq_self]
          intro a ha
          have : a ≠ lit_Undef := fun h => hrest (h ▸ ha)
          simpa using this
        simp [hz, h1, h2]
      · have h3 : (scanLoop drop l0 rest).2 < (l0 :: (scanLoop drop l0 rest).1).length := by
          simp [scanLoop_length]; omega
        simp only [ne_eq, hz, not_false_eq_true, if_true, hl0, if_false, h3, not_true_eq_false]
        congr 2
        unfold removeUndefs
        simp only [List.filter_cons, hb, if_true]
        apply List.take_left'
        simp only [List.length_cons, scanLoop_length]
        omega
    · simp only [List.length_cons]; omega
    · simp only [List.length_cons]; omega
    · exact hsub.cons₂ l0
    · rfl

/-- The two halves of `stampBasedLitRem` on a non-empty list without
`lit_Undef`: both succeed, and each returns what its scan kept of its sorted
vector together with the number of literals it dropped. -/
theorem stampBasedLitRem_spec (S : Sorters) (tstamp : List Timestamp)
    (stampType : StampType) (lits : List Lit) (hne : lits ≠ []) (hU : lit_Undef ∉ lits) :
    ∃ lits1 r1 lits2 r2,
      litRemForward S tstamp stampType lits = some (lits1, r1) ∧
      litRemBackward S tstamp stampType lits1 = some (lits2, r2) ∧
      stampBasedLitRem S tstamp lits stampType = some (lits2, (r1, r2)) ∧
      lits1 ≠ [] ∧ lit_Undef ∉ lits1 ∧
      lits1.length + r1 = lits.length ∧ r1 < lits.length ∧
      lits1.Sublist (forwardSorted S tstamp stampType lits) ∧
      lits1.head? = (forwardSorted S tstamp stampType lits).head? ∧
      lits2.length + r2 = lits1.length ∧ r2 < lits1.length ∧
      lits2.Sublist (backwardSorted S tstamp stampType lits1) ∧
      lits2.head? = (backwardSorted S tstamp stampType lits1).head? := by
  have hs1 : forwardSorted S tstamp stampType lits ≠ [] := stable_sort_ne_nil _ _ hne
  have hU1 : lit_Undef ∉ forwardSorted S tstamp stampType lits :=
    fun h => hU ((mem_stable_sort _ _ _).mp h)
  obtain ⟨e1, len1, lt1, sub1, hd1⟩ :=
    litRemPass_spec (dropForward tstamp stampType) _ hs1 hU1
  have hlen0 : (forwardSorted S tstamp stampType lits).length = lits.length :=
    stable_sort_length _ _
  rw [hlen0] at len1 lt1
  have hne1 : (afterScan (dropForward tstamp stampType)
      (forwardSorted S tstamp stampType lits)).filter (fun a => a != lit_Undef) ≠ [] := by
    intro h
    rw [h] at len1
    simp at len1
    omega
  have hUl1 : lit_Undef ∉ (afterScan (dropForward tstamp stampType)
      (forwardSorted S tstamp stampType lits)).filter (fun a => a != lit_Undef) := by
    intro h
    have := (List.mem_filter.mp h).2
    simp at this
  have hs2 : backwardSorted S tstamp stampType ((afterScan (dropForward tstamp stampType)
      (forwardSorted S tstamp stampType lits)).filter (fun a => a != lit_Undef)) ≠ [] :=
    stable_sort_ne_nil _ _ hne1
  have hU2 : lit_Undef ∉ backwardSorted S tstamp stampType
      ((afterScan (dropForward tstamp stampType)
        (forwardSorted S tstamp stampType lits)).filter (fun a => a != lit_Undef)) :=
    fun h => hUl1 ((mem_stable_sort _ _ _).mp h)
  obtain ⟨e2, len2, lt2, sub2, hd2⟩ :=
    litRemPass_spec (dropBackward tstamp stampType) _ hs2 hU2
  have hlen1 : (backwardSorted S tstamp stampType ((afterScan (dropForward tstamp stampType)
      (forwardSorted S tstamp stampType lits)).filter (fun a => a != lit_Undef))).length =
      ((afterScan (dropForward tstamp stampType)
        (forwardSorted S tstamp stampType lits)).filter (fun a => a != lit_Undef)).length :=
    stable_sort_length _ _
  rw [hlen1] at len2 lt2
  refine ⟨_, _, _, _, e1, e2, ?_, hne1, hUl1, len1, lt1, sub1, hd1, len2, lt2, sub2, hd2⟩
  unfold stampBasedLitRem litRemForward
  rw [e1]
  simp only [litRemBackward]
  rw [e2]

/-! ## C3: `stampBasedLitRem` leaves a literal -/

/-- C3: for every table, every pair of comparison functors, every domain and
every non-empty literal list without `lit_Undef`, no assertion of
`stampBasedLitRem` fails (both passes return), the list it leaves is not empty,
each pass keeps the first literal of its sorted vector, and each pass drops
fewer literals than its vector holds. -/
theorem stampBasedLitRem_nonempty (S : Sorters) (tstamp : List Timestamp)
    (stampType : StampType) (lits : List Lit) (hne : lits ≠ []) (hU : lit_Undef ∉ lits) :
    ∃ lits1 r1 lits2 r2,
      litRemForward S tstamp stampType lits = some (lits1, r1) ∧
      litRemBackward S tstamp stampType lits1 = some (lits2, r2) ∧
      stampBasedLitRem S tstamp lits stampType = some (lits2, (r1, r2)) ∧
      lits1 ≠ [] ∧ lits2 ≠ [] ∧
      lits1.head? = (forwardSorted S tstamp stampType lits).head? ∧
      lits2.head? = (backwardSorted S tstamp stampType lits1).head? ∧
      r1 < lits.length ∧ r2 < lits1.length := by
  obtain ⟨lits1, r1, lits2, r2, e1, e2, e, hne1, _, _, lt1, _, hd1, len2, lt2, _, hd2⟩ :=
    stampBasedLitRem_spec S tstamp stampType lits hne hU
  refine ⟨lits1, r1, lits2, r2, e1, e2, e, hne1, ?_, hd1, hd2, lt1, lt2⟩
  intro h
  rw [h] at len2
  simp at len2
  omega

/-- C3 at a concrete input: the clause `{1, 2, 3}` on `exampleTable`. -/
theorem stampBasedLitRem_nonempty_witness :
    ([Lit.mk 2, Lit.mk 4, Lit.mk 6] ≠ [] ∧ lit_Undef ∉ [Lit.mk 2, Lit.mk 4, Lit.mk 6]) ∧
    ∃ lits1 r1 lits2 r2,
      litRemForward specSorters exampleTable STAMP_IRRED [Lit.mk 2, Lit.mk 4, Lit.mk 6] =
        some (lits1, r1) ∧
      litRemBackward specSorters exampleTable STAMP_IRRED lits1 = some (lits2, r2) ∧
      stampBasedLitRem specSorters exampleTable [Lit.mk 2, Lit.mk 4, Lit.mk 6] STAMP_IRRED =
        some (lits2, (r1, r2)) ∧
      lits1 ≠ [] ∧ lits2 ≠ [] ∧
      lits1.head? = (forwardSorted specSorters exampleTable STAMP_IRRED
        [Lit.mk 2, Lit.mk 4, Lit.mk 6]).head? ∧
      lits2.head? = (backwardSorted specSorters exampleTable STAMP_IRRED lits1).head? ∧
      r1 < [Lit.mk 2, Lit.mk 4, Lit.mk 6].length ∧ r2 < lits1.length :=
  ⟨⟨by decide, by decide⟩,
    stampBasedLitRem_nonempty specSorters exampleTable STAMP_IRRED
      [Lit.mk 2, Lit.mk 4, Lit.mk 6] (by decide) (by decide)⟩

/-! ## C4: the rule of the forward pass -/

/-- C4, as stated, fails: in `exampleTable` the interval of the literal `2`
lies strictly inside the interval of the literal `1`. The forward pass on the
clause `{1, 2}` scans the vector `[2, 1]`; the end stamp of the literal at
position 1 exceeds the end stamp of the kept literal before it, and that
literal, which holds the outer interval, is the one dropped. -/
theorem litRemForward_drops_outer :
    forwardSorted specSorters exampleTable STAMP_IRRED [Lit.mk 2, Lit.mk 4] =
      [Lit.mk 4, Lit.mk 2] ∧
    (startOf exampleTable STAMP_IRRED (Lit.mk 2) < startOf exampleTable STAMP_IRRED (Lit.mk 4) ∧
      endOf exampleTable STAMP_IRRED (Lit.mk 4) < endOf exampleTable STAMP_IRRED (Lit.mk 2)) ∧
    afterScan (dropForward exampleTable STAMP_IRRED) [Lit.mk 4, Lit.mk 2] =
      [Lit.mk 4, lit_Undef] ∧
    litRemForward specSorters exampleTable STAMP_IRRED [Lit.mk 2, Lit.mk 4] =
      some ([Lit.mk 4], 1) :=
  ⟨by decide, by decide, by decide, by decide⟩

/-- C4, amended: for every table, pair of comparison functors, domain and
non-empty literal list without `lit_Undef`, the forward pass returns what its
scan kept of the sorted vector and the number of positions the scan overwrote;
position 0 is kept, and a literal at a position `i ≥ 1` of the sorted vector is
dropped exactly when its end stamp exceeds the end stamp of the last kept
literal before it (otherwise it stays in place). Hence a literal whose end
stamp is the smallest of the clause, such as the inner one of two literals with
nested intervals, is never dropped. -/
theorem litRemForward_drop_rule (S : Sorters) (tstamp : List Timestamp)
    (stampType : StampType) (lits : List Lit) (hne : lits ≠ []) (hU : lit_Undef ∉ lits) :
    litRemForward S tstamp stampType lits =
      some ((afterScan (dropForward tstamp stampType)
          (forwardSorted S tstamp stampType lits)).filter (fun a => a != lit_Undef),
        (afterScan (dropForward tstamp stampType)
          (forwardSorted S tstamp stampType lits)).count lit_Undef) ∧
    (afterScan (dropForward tstamp stampType) (forwardSorted S tstamp stampType lits))[0]? =
      (forwardSorted S tstamp stampType lits)[0]? ∧
    (∀ (i j : Nat) (x y : Lit), j < i →
      (forwardSorted S tstamp stampType lits)[j]? = some x →
      (forwardSorted S tstamp stampType lits)[i]? = some y →
      (afterScan (dropForward tstamp stampType)
        (forwardSorted S tstamp stampType lits))[j]? = some x →
      (∀ k, j < k → k < i → (afterScan (dropForward tstamp stampType)
        (forwardSorted S tstamp stampType lits))[k]? = some lit_Undef) →
      ((afterScan (dropForward tstamp stampType)
          (forwardSorted S tstamp stampType lits))[i]? = some lit_Undef ↔
        endOf tstamp stampType x < endOf tstamp stampType y) ∧
      (¬ endOf tstamp stampType x < endOf tstamp stampType y →
        (afterScan (dropForward tstamp stampType)
          (forwardSorted S tstamp stampType lits))[i]? = some y)) ∧
    (∀ x ∈ lits, (∀ y ∈ lits, endOf tstamp stampType x ≤ endOf tstamp stampType y) →
      x ∈ (afterScan (dropForward tstamp stampType)
        (forwardSorted S tstamp stampType lits)).filter (fun a => a != lit_Undef)) := by
  have hs : forwardSorted S tstamp stampType lits ≠ [] := stable_sort_ne_nil _ _ hne
  have hUs : lit_Undef ∉ forwardSorted S tstamp stampType lits :=
    fun h => hU ((mem_stable_sort _ _ _).mp h)
  refine ⟨(litRemPass_spec _ _ hs hUs).1, afterScan_head _ _, ?_, ?_⟩
  · intro i j x y hji hx hy hmj hk
    have h := afterScan_rule (dropForward tstamp stampType) _ hUs i j x y hji hx hy hmj hk
    simp only [dropForward, decide_eq_true_eq, decide_eq_false_iff_not] at h
    exact h
  · intro x hx hmin
    have hxU : x ≠ lit_Undef := fun h => hU (h ▸ hx)
    have hxs : x ∈ forwardSorted S tstamp stampType lits := (mem_stable_sort _ _ _).mpr hx
    rw [List.mem_filter]
    refine ⟨?_, by simpa using hxU⟩
    generalize hg : forwardSorted S tstamp stampType lits = s at hxs
    have hall : ∀ y ∈ s, dropForward tstamp stampType y x = false := by
      intro y hy
      have hy' : y ∈ lits := by
        rw [← hg] at hy
        exact (mem_stable_sort _ _ _).mp hy
      have := hmin y hy'
      simp only [dropForward, decide_eq_false_iff_not]
      omega
    cases s with
    | nil => cases hxs
    | cons l0 rest =>
      simp only [afterScan]
      rcases List.mem_cons.mp hxs with h | h
      · simp [h]
      · exact List.mem_cons_of_mem _ (scanLoop_keeps _ x rest l0 hall h)

/-- C4, amended, at a concrete input: the forward pass on the clause
`{1, 2, 3}` of `exampleTable` keeps the innermost literal `3`. -/
theorem litRemForward_drop_rule_witness :
    ([Lit.mk 2, Lit.mk 4, Lit.mk 6] ≠ [] ∧ lit_Undef ∉ [Lit.mk 2, Lit.mk 4, Lit.mk 6]) ∧
    litRemForward specSorters exampleTable STAMP_IRRED [Lit.mk 2, Lit.mk 4, Lit.mk 6] =
      some ([Lit.mk 6], 2) :=
  ⟨⟨by decide, by decide⟩,
    (litRemForward_drop_rule specSorters exampleTable STAMP_IRRED
      [Lit.mk 2, Lit.mk 4, Lit.mk 6] (by decide) (by decide)).1.trans (by decide)⟩

/-! ## C5: the rule of the backward pass -/

/-- C5, as stated, fails: in `unvisitedTable` all end stamps are equal. On the
clause `{0, 2}` the backward pass scans `[0, 2]`; the end stamp of the
complement of the literal at position 1 does not exceed that of the kept
literal before it, and the literal is kept. -/
theorem litRemBackward_keeps_tie :
    backwardSorted specSorters unvisitedTable STAMP_IRRED [Lit.mk 0, Lit.mk 2] =
      [Lit.mk 0, Lit.mk 2] ∧
    endOf unvisitedTable STAMP_IRRED (Lit.mk 2).neg ≤
      endOf unvisitedTable STAMP_IRRED (Lit.mk 0).neg ∧
    litRemForward specSorters unvisitedTable STAMP_IRRED [Lit.mk 0, Lit.mk 2] =
      some ([Lit.mk 0, Lit.mk 2], 0) ∧
    litRemBackward specSorters unvisitedTable STAMP_IRRED [Lit.mk 0, Lit.mk 2] =
      some ([Lit.mk 0, Lit.mk 2], 0) :=
  ⟨by decide, by decide, by decide, by decide⟩

/-- C5, amended: for every table, pair of comparison functors, domain and
non-empty literal list without `lit_Undef` (such as the forward pass leaves),
the backward pass returns what its scan kept of its sorted vector and the
number of positions the scan overwrote; position 0 is kept, and a literal at a
position `i ≥ 1` is dropped exactly when the end stamp of its complement is
strictly smaller than the end stamp of the complement of the last kept literal
before it (otherwise it stays in place). -/
theorem litRemBackward_drop_rule (S : Sorters) (tstamp : List Timestamp)
    (stampType : StampType) (lits : List Lit) (hne : lits ≠ []) (hU : lit_Undef ∉ lits) :
    litRemBackward S tstamp stampType lits =
      some ((afterScan (dropBackward tstamp stampType)
          (backwardSorted S tstamp stampType lits)).filter (fun a => a != lit_Undef),
        (afterScan (dropBackward tstamp stampType)
          (backwardSorted S tstamp stampType lits)).count lit_Undef) ∧
    (afterScan (dropBackward tstamp stampType) (backwardSorted S tstamp stampType lits))[0]? =
      (backwardSorted S tstamp stampType lits)[0]? ∧
    (∀ (i j : Nat) (x y : Lit), j < i →
      (backwardSorted S tstamp stampType lits)[j]? = some x →
      (backwardSorted S tstamp stampType lits)[i]? = some y →
      (afterScan (dropBackward tstamp stampType)
        (backwardSorted S tstamp stampType lits))[j]? = some x →
      (∀ k, j < k → k < i → (afterScan (dropBackward tstamp stampType)
        (backwardSorted S tstamp stampType lits))[k]? = some lit_Undef) →
      ((afterScan (dropBackward tstamp stampType)
          (backwardSorted S tstamp stampType lits))[i]? = some lit_Undef ↔
        endOf tstamp stampType y.neg < endOf tstamp stampType x.neg) ∧
      (¬ endOf tstamp stampType y.neg < endOf tstamp stampType x.neg →
        (afterScan (dropBackward tstamp stampType)
          (backwardSorted S tstamp stampType lits))[i]? = some y)) := by
  have hs : backwardSorted S tstamp stampType lits ≠ [] := stable_sort_ne_nil _ _ hne
  have hUs : lit_Undef ∉ backwardSorted S tstamp stampType lits :=
    fun h => hU ((mem_stable_sort _ _ _).mp h)
  refine ⟨(litRemPass_spec _ _ hs hUs).1, afterScan_head _ _, ?_⟩
  intro i j x y hji hx hy hmj hk
  have h := afterScan_rule (dropBackward tstamp stampType) _ hUs i j x y hji hx hy hmj hk
  simp only [dropBackward, gt_iff_lt, decide_eq_true_eq, decide_eq_false_iff_not] at h
  exact h

/-- C5, amended, at a concrete input: the backward pass on the clause
`{¬1, 3}` of `exampleTable` scans `[¬1, 3]`; the complement of `3` ends after
the complement of `¬1`, so nothing is dropped. -/
theorem litRemBackward_drop_rule_witness :
    ([Lit.mk 3, Lit.mk 6] ≠ [] ∧ lit_Undef ∉ [Lit.mk 3, Lit.mk 6]) ∧
    litRemBackward specSorters exampleTable STAMP_IRRED [Lit.mk 3, Lit.mk 6] =
      some ([Lit.mk 3, Lit.mk 6], 0) :=
  ⟨⟨by decide, by decide⟩,
    (litRemBackward_drop_rule specSorters exampleTable STAMP_IRRED
      [Lit.mk 3, Lit.mk 6] (by decide) (by decide)).1.trans (by decide)⟩

/-! ## C6: the counts that `stampBasedLitRem` returns -/

/-- C6: for every table, pair of comparison functors, domain and non-empty
literal list without `lit_Undef`, `stampBasedLitRem` returns the pair
`(r1, r2)` of the numbers of literals that the forward and the backward pass
dropped: the forward pass turns the list into one with `r1` literals fewer, the
backward pass turns that into one with `r2` literals fewer, so the final list
has `|input| - r1 - r2` literals, and the final list is a sub-multiset of the
input. -/
theorem stampBasedLitRem_counts (S : Sorters) (tstamp : List Timestamp)
    (stampType : StampType) (lits : List Lit) (hne : lits ≠ []) (hU : lit_Undef ∉ lits) :
    ∃ lits1 r1 lits2 r2,
      litRemForward S tstamp stampType lits = some (lits1, r1) ∧
      litRemBackward S tstamp stampType lits1 = some (lits2, r2) ∧
      stampBasedLitRem S tstamp lits stampType = some (lits2, (r1, r2)) ∧
      lits1.length + r1 = lits.length ∧
      lits2.length + r2 = lits1.length ∧
      lits2.length = lits.length - r1 - r2 ∧
      r1 + r2 < lits.length ∧
      lits1.Subperm lits ∧ lits2.Subperm lits1 ∧ lits2.Subperm lits := by
  obtain ⟨lits1, r1, lits2, r2, e1, e2, e, _, _, len1, _, sub1, _, len2, lt2, sub2, _⟩ :=
    stampBasedLitRem_spec S tstamp stampType lits hne hU
  have p1 : lits1.Subperm lits := sub1.subperm.trans (stable_sort_perm _ _).subperm
  have p2 : lits2.Subperm lits1 := sub2.subperm.trans (stable_sort_perm _ _).subperm
  refine ⟨lits1, r1, lits2, r2, e1, e2, e, len1, len2, ?_, ?_, p1, p2, p2.trans p1⟩
  · omega
  · omega

/-- C6 at a concrete input: the clause `{1, 2, 3}` on `exampleTable`. -/
theorem stampBasedLitRem_counts_witness :
    ([Lit.mk 2, Lit.mk 4, Lit.mk 6] ≠ [] ∧ lit_Undef ∉ [Lit.mk 2, Lit.mk 4, Lit.mk 6]) ∧
    ∃ lits1 r1 lits2 r2,
      litRemForward specSorters exampleTable STAMP_IRRED [Lit.mk 2, Lit.mk 4, Lit.mk 6] =
        some (lits1, r1) ∧
      litRemBackward specSorters exampleTable STAMP_IRRED lits1 = some (lits2, r2) ∧
      stampBasedLitRem specSorters exampleTable [Lit.mk 2, Lit.mk 4, Lit.mk 6] STAMP_IRRED =
        some (lits2, (r1, r2)) ∧
      lits1.length + r1 = [Lit.mk 2, Lit.mk 4, Lit.mk 6].length ∧
      lits2.length + r2 = lits1.length ∧
      lits2.length = [Lit.mk 2, Lit.mk 4, Lit.mk 6].length - r1 - r2 ∧
      r1 + r2 < [Lit.mk 2, Lit.mk 4, Lit.mk 6].length ∧
      lits1.Subperm [Lit.mk 2, Lit.mk 4, Lit.mk 6] ∧ lits2.Subperm lits1 ∧
      lits2.Subperm [Lit.mk 2, Lit.mk 4, Lit.mk 6] :=
  ⟨⟨by decide, by decide⟩,
    stampBasedLitRem_counts specSorters exampleTable STAMP_IRRED
      [Lit.mk 2, Lit.mk 4, Lit.mk 6] (by decide) (by decide)⟩

/-! ## The operations of `Clause` that can fail -/

theorem construct_returns (ps : List Lit) (conflictNumIntroduced : Nat) (hps : ps.length > 2) :
    ∃ c, Clause.construct ps conflictNumIntroduced = some c ∧
      c.abst = calcAbstraction c.lits ∧ c.strenghtened = true ∧
      c.data = ps ∧ c.mySize = ps.length % 65536 := by
  unfold Clause.construct
  rw [if_pos hps]
  exact ⟨_, rfl, rfl, rfl, rfl, rfl⟩

theorem shrink_returns (c : Clause) (k : Nat) (hk : k ≤ c.size) :
    ∃ c', c.shrink k = some c' ∧ c'.mySize = c.mySize - k ∧ c'.data = c.data ∧
      (0 < k → c'.abst = calcAbstraction c'.lits ∧ c'.strenghtened = true) ∧
      (k = 0 → c' = c) := by
  unfold Clause.shrink
  rw [if_pos hk]
  by_cases hk0 : k > 0
  · simp only [hk0, if_true]
    exact ⟨_, rfl, rfl, rfl, fun _ => ⟨rfl, rfl⟩, fun h => by omega⟩
  · simp only [hk0, if_false]
    have h0 : k = 0 := by omega
    subst h0
    exact ⟨_, rfl, rfl, rfl, fun h => absurd h (by simp), fun _ => rfl⟩

theorem resize_returns (c : Clause) (n : Nat) (hn : n ≤ c.size) :
    ∃ c', c.resize n = some c' ∧ c'.mySize = n ∧ c'.data = c.data ∧
      (n < c.size → c'.abst = calcAbstraction c'.lits ∧ c'.strenghtened = true) ∧
      (n = c.size → c' = c) := by
  unfold Clause.resize
  rw [if_pos hn]
  by_cases hns : n = c.size
  · rw [if_pos hns]
    exact ⟨c, rfl, hns.symm, rfl, fun h => by omega, fun _ => rfl⟩
  · rw [if_neg hns]
    exact ⟨_, rfl, rfl, rfl, fun _ => ⟨rfl, rfl⟩, fun h => absurd h hns⟩

/-! ## The abstraction signature -/

/-- A bit that is in the accumulator, or that a literal of the list brings,
is in the folded signature. -/
theorem foldl_or_absorb (b : Nat) :
    ∀ (ps : List Lit) (acc : Nat), (acc ||| b = acc ∨ ∃ l ∈ ps, abst_var l.var = b) →
      (ps.foldl (fun a l => a ||| abst_var l.var) acc) ||| b =
        ps.foldl (fun a l => a ||| abst_var l.var) acc := by
  intro ps
  induction ps with
  | nil =>
    intro acc h
    rcases h with h | ⟨l, hl, _⟩
    · simpa using h
    · cases hl
  | cons x xs ih =>
    intro acc h
    simp only [List.foldl_cons]
    apply ih
    rcases h with h | ⟨l, hl, hb⟩
    · left
      rw [Nat.or_assoc, Nat.or_comm (abst_var x.var) b, ← Nat.or_assoc, h]
    · rcases List.mem_cons.mp hl with h1 | h1
      · left
        rw [← hb, h1, Nat.or_assoc, Nat.or_self]
      · right
        exact ⟨l, h1, hb⟩

/-- The signature of a list contains what `abst_var` gives for every variable
of the list. -/
theorem calcAbstraction_absorb (ps : List Lit) (l : Lit) (hl : l ∈ ps) :
    calcAbstraction ps ||| abst_var l.var = calcAbstraction ps :=
  foldl_or_absorb (abst_var l.var) ps 0 (Or.inr ⟨l, hl, rfl⟩)

/-- The signature of a list has the bit of every variable of the list. -/
theorem calcAbstraction_testBit (ps : List Lit) (l : Lit) (hl : l ∈ ps) :
    (calcAbstraction ps).testBit (l.var % 32) = true := by
  have h2 : (calcAbstraction ps ||| abst_var l.var).testBit (l.var % 32) = true := by
    rw [Nat.testBit_or]
    simp [abst_var, Nat.testBit_two_pow_self]
  rw [calcAbstraction_absorb ps l hl] at h2
  exact h2

/-! ## C7: the abstraction covers the literals -/

/-- C7: for every literal list `ps` with more than 2 literals the constructor
returns a clause (of the literals `ps` when they fit the 16-bit size) in which
the bit of the variable of every literal of the clause is set in `abst`; and
for every clause, after `reCalcAbstraction()` the bit of the variable of every
literal of the clause is set in `abst`. -/
theorem abst_covers_literals (ps : List Lit) (conflictNumIntroduced : Nat) (c0 : Clause)
    (hps : ps.length > 2) :
    (∃ c, Clause.construct ps conflictNumIntroduced = some c ∧
      (ps.length < 65536 → c.lits = ps) ∧
      ∀ l ∈ c.lits, c.abst ||| abst_var l.var = c.abst ∧
        c.abst.testBit (l.var % 32) = true) ∧
    (c0.reCalcAbstraction.lits = c0.lits ∧
      ∀ l ∈ c0.reCalcAbstraction.lits,
        c0.reCalcAbstraction.abst ||| abst_var l.var = c0.reCalcAbstraction.abst ∧
        c0.reCalcAbstraction.abst.testBit (l.var % 32) = true) := by
  obtain ⟨c, hc, habst, _, hdata, hsize⟩ := construct_returns ps conflictNumIntroduced hps
  refine ⟨⟨c, hc, ?_, ?_⟩, rfl, ?_⟩
  · intro hlt
    simp [Clause.lits, Clause.size, hdata, hsize, Nat.mod_eq_of_lt hlt]
  · intro l hl
    rw [habst]
    exact ⟨calcAbstraction_absorb _ l hl, calcAbstraction_testBit _ l hl⟩
  · intro l hl
    exact ⟨calcAbstraction_absorb _ l hl, calcAbstraction_testBit _ l hl⟩

/-- C7 at a concrete input: the clause `{¬1, 2, 3}`. -/
theorem abst_covers_literals_witness :
    [Lit.mk 3, Lit.mk 4, Lit.mk 6].length > 2 ∧
    (∃ c, Clause.construct [Lit.mk 3, Lit.mk 4, Lit.mk 6] 7 = some c ∧
      ([Lit.mk 3, Lit.mk 4, Lit.mk 6].length < 65536 →
        c.lits = [Lit.mk 3, Lit.mk 4, Lit.mk 6]) ∧
      ∀ l ∈ c.lits, c.abst ||| abst_var l.var = c.abst ∧
        c.abst.testBit (l.var % 32) = true) ∧
    (exampleClause.reCalcAbstraction.lits = exampleClause.lits ∧
      ∀ l ∈ exampleClause.reCalcAbstraction.lits,
        exampleClause.reCalcAbstraction.abst ||| abst_var l.var =
          exampleClause.reCalcAbstraction.abst ∧
        exampleClause.reCalcAbstraction.abst.testBit (l.var % 32) = true) :=
  ⟨by decide, abst_covers_literals [Lit.mk 3, Lit.mk 4, Lit.mk 6] 7 exampleClause (by decide)⟩

/-! ## C8: the abstraction stays up to date -/

/-- C8: the constructor establishes `abst == calcAbstraction(literals)` and
every operation of `Clause` keeps it: `shrink`, `resize`, `add`, `strengthen`,
`makeLearnt`, `makeNonLearnt`, `combineStats` and the flag setters. The
operations that change which literals are present (construction, `add`,
`strengthen`, `shrink(k)` with `k > 0`, `resize(n)` with `n < size`) leave the
flag `strenghtened` true. -/
theorem abstUpToDate_preserved (c : Clause) (ps : List Lit)
    (conflictNumIntroduced k n newGlue : Nat) (p : Lit) (other : ClauseStats)
    (hinv : c.abstUpToDate) (hps : ps.length > 2) (hk : k ≤ c.size) (hn : n ≤ c.size) :
    (∃ c', Clause.construct ps conflictNumIntroduced = some c' ∧
      c'.abstUpToDate ∧ c'.strenghtened = true) ∧
    (∃ c', c.shrink k = some c' ∧ c'.abstUpToDate ∧ (0 < k → c'.strenghtened = true)) ∧
    (∃ c', c.resize n = some c' ∧ c'.abstUpToDate ∧ (n < c.size → c'.strenghtened = true)) ∧
    ((c.add p).abstUpToDate ∧ (c.add p).strenghtened = true) ∧
    ((c.strengthen p).abstUpToDate ∧ (c.strengthen p).strenghtened = true) ∧
    (c.makeLearnt newGlue).abstUpToDate ∧
    (c.isLearnt = true → ∃ c', c.makeNonLearnt = some c' ∧ c'.abstUpToDate) ∧
    (c.combineStats other).abstUpToDate ∧
    c.setChanged.abstUpToDate ∧ c.unsetChanged.abstUpToDate ∧
    c.setStrenghtened.abstUpToDate ∧ c.unsetStrenghtened.abstUpToDate ∧
    c.setRemoved.abstUpToDate ∧ c.setFreed.abstUpToDate ∧
    c.reCalcAbstraction.abstUpToDate := by
  refine ⟨?_, ?_, ?_, ⟨rfl, rfl⟩, ⟨rfl, rfl⟩, hinv, ?_, hinv, rfl, hinv, rfl, hinv, hinv,
    hinv, rfl⟩
  · obtain ⟨c', hc, habst, hstr, _, _⟩ := construct_returns ps conflictNumIntroduced hps
    exact ⟨c', hc, habst, hstr⟩
  · obtain ⟨c', hc, _, _, hpos, hzero⟩ := shrink_returns c k hk
    refine ⟨c', hc, ?_, fun h => (hpos h).2⟩
    by_cases hk0 : 0 < k
    · exact (hpos hk0).1
    · rw [hzero (by omega)]
      exact hinv
  · obtain ⟨c', hc, _, _, hlt, heq⟩ := resize_returns c n hn
    refine ⟨c', hc, ?_, fun h => (hlt h).2⟩
    by_cases hns : n < c.size
    · exact (hlt hns).1
    · rw [heq (by omega)]
      exact hinv
  · intro hl
    unfold Clause.makeNonLearnt
    rw [if_pos hl]
    exact ⟨_, rfl, hinv⟩

/-- C8 at a concrete input: the clause `{¬1, 2, 3}` keeps an up-to-date
abstraction when its last literal is cut off. -/
theorem abstUpToDate_preserved_witness :
    (exampleClause.abstUpToDate ∧ [Lit.mk 2, Lit.mk 5, Lit.mk 7].length > 2 ∧
      1 ≤ exampleClause.size ∧ 2 ≤ exampleClause.size) ∧
    (∃ c', exampleClause.shrink 1 = some c' ∧ c'.abstUpToDate ∧
      (0 < 1 → c'.strenghtened = true)) ∧
    (∃ c', exampleClause.resize 2 = some c' ∧ c'.abstUpToDate ∧
      (2 < exampleClause.size → c'.strenghtened = true)) :=
  ⟨⟨by decide, by decide, by decide, by decide⟩,
    (abstUpToDate_preserved exampleClause [Lit.mk 2, Lit.mk 5, Lit.mk 7] 0 1 2 4
      (Lit.mk 8) ClauseStats.init (by decide) (by decide) (by decide) (by decide)).2.1,
    (abstUpToDate_preserved exampleClause [Lit.mk 2, Lit.mk 5, Lit.mk 7] 0 1 2 4
      (Lit.mk 8) ClauseStats.init (by decide) (by decide) (by decide) (by decide)).2.2.1⟩

/-! ## C9: merging clause statistics -/

/-- C9: for every two `ClauseStats`, `combineStats` takes the minimum of the
glues and of `conflictNumIntroduced` and the 32-bit sum of each of `numProp`,
`numConfl`, `numLitVisited`, `numLookedAt` and `numUsedUIP`; the merged glue
exceeds neither operand's glue; `Clause::combineStats` stores that record; and
`{glue 3, numProp 5}` merged with `{glue 7, numProp 2}` has glue 3 and
numProp 7. -/
theorem combineStats_min_and_sums (first second : ClauseStats) (c : Clause) :
    (ClauseStats.combineStats first second).glue = min first.glue second.glue ∧
    (ClauseStats.combineStats first second).conflictNumIntroduced =
      min first.conflictNumIntroduced second.conflictNumIntroduced ∧
    (ClauseStats.combineStats first second).numProp =
      (first.numProp + second.numProp) % 2 ^ 32 ∧
    (ClauseStats.combineStats first second).numConfl =
      (first.numConfl + second.numConfl) % 2 ^ 32 ∧
    (ClauseStats.combineStats first second).numLitVisited =
      (first.numLitVisited + second.numLitVisited) % 2 ^ 32 ∧
    (ClauseStats.combineStats first second).numLookedAt =
      (first.numLookedAt + second.numLookedAt) % 2 ^ 32 ∧
    (ClauseStats.combineStats first second).numUsedUIP =
      (first.numUsedUIP + second.numUsedUIP) % 2 ^ 32 ∧
    (ClauseStats.combineStats first second).glue ≤ first.glue ∧
    (ClauseStats.combineStats first second).glue ≤ second.glue ∧
    (c.combineStats second).stats = ClauseStats.combineStats c.stats second ∧
    (ClauseStats.combineStats { ClauseStats.init with glue := 3, numProp := 5 }
      { ClauseStats.init with glue := 7, numProp := 2 }).glue = 3 ∧
    (ClauseStats.combineStats { ClauseStats.init with glue := 3, numProp := 5 }
      { ClauseStats.init with glue := 7, numProp := 2 }).numProp = 7 := by
  refine ⟨rfl, rfl, rfl, rfl, rfl, rfl, rfl, ?_, ?_, rfl, by decide, by decide⟩
  · exact Nat.min_le_left _ _
  · exact Nat.min_le_right _ _

/-! ## C10: `resize` and `shrink` -/

/-- C10: for every clause of size `s`, every `n ≤ s` and every `k ≤ s`:
`resize(n)` returns with `size() == n` and `shrink(k)` returns with
`size() == s - k`, and in both cases the literals at the positions below the
new size are unchanged. -/
theorem resize_shrink_size (c : Clause) (n k : Nat) (hn : n ≤ c.size) (hk : k ≤ c.size) :
    (∃ c', c.resize n = some c' ∧ c'.size = n ∧
      (∀ i, i < n → c'.get i = c.get i) ∧ c'.lits = c.lits.take n) ∧
    (∃ c', c.shrink k = some c' ∧ c'.size = c.size - k ∧
      (∀ i, i < c.size - k → c'.get i = c.get i) ∧ c'.lits = c.lits.take (c.size - k)) := by
  constructor
  · obtain ⟨c', hc, hsize, hdata, _, _⟩ := resize_returns c n hn
    refine ⟨c', hc, hsize, fun i _ => by simp only [Clause.get, hdata], ?_⟩
    simp only [Clause.lits, Clause.size, hsize, hdata, List.take_take]
    congr 1
    exact (Nat.min_eq_left hn).symm
  · obtain ⟨c', hc, hsize, hdata, _, _⟩ := shrink_returns c k hk
    refine ⟨c', hc, hsize, fun i _ => by simp only [Clause.get, hdata], ?_⟩
    simp only [Clause.lits, Clause.size, hsize, hdata, List.take_take]
    congr 1
    exact (Nat.min_eq_left (Nat.sub_le _ _)).symm

/-- C10 at a concrete input: the clause `{¬1, 2, 3}` resized to 2 literals and
shrunk by 1 literal. -/
theorem resize_shrink_size_witness :
    (2 ≤ exampleClause.size ∧ 1 ≤ exampleClause.size) ∧
    (∃ c', exampleClause.resize 2 = some c' ∧ c'.size = 2 ∧
      (∀ i, i < 2 → c'.get i = exampleClause.get i) ∧ c'.lits = exampleClause.lits.take 2) ∧
    (∃ c', exampleClause.shrink 1 = some c' ∧ c'.size = exampleClause.size - 1 ∧
      (∀ i, i < exampleClause.size - 1 → c'.get i = exampleClause.get i) ∧
      c'.lits = exampleClause.lits.take (exampleClause.size - 1)) :=
  ⟨⟨by decide, by decide⟩, resize_shrink_size exampleClause 2 1 (by decide) (by decide)⟩

/-! ## C11: `resize`, `shrink` and the flag `strenghtened` -/

/-- C11, as stated, fails for `n == size()`: `resize` returns at once when the
size does not change, so a clause whose flag was cleared keeps a cleared
flag. -/
theorem resize_same_size_keeps_flag :
    3 ≤ exampleClause.unsetStrenghtened.size ∧
    exampleClause.unsetStrenghtened.strenghtened = false ∧
    ∃ c', exampleClause.unsetStrenghtened.resize 3 = some c' ∧ c'.strenghtened = false :=
  ⟨by decide, rfl, _, rfl, rfl⟩

/-- C11, amended: for every clause and every `n < size()`, after `resize(n)`
the flag `strenghtened` is true, and `resize(size())` leaves the clause as it
was; for every `k` with `0 < k <= size()`, after `shrink(k)` the flag is true,
and `shrink(0)` leaves the flag as it was. -/
theorem resize_shrink_flag (c : Clause) (n k : Nat) (hn : n < c.size) (hk0 : 0 < k)
    (hk : k ≤ c.size) :
    (∃ c', c.resize n = some c' ∧ c'.getStrenghtened = true) ∧
    c.resize c.size = some c ∧
    (∃ c', c.shrink k = some c' ∧ c'.getStrenghtened = true) ∧
    (∃ c', c.shrink 0 = some c' ∧ c'.getStrenghtened = c.getStrenghtened) := by
  refine ⟨?_, ?_, ?_, ?_⟩
  · obtain ⟨c', hc, _, _, hlt, _⟩ := resize_returns c n (Nat.le_of_lt hn)
    exact ⟨c', hc, (hlt hn).2⟩
  · obtain ⟨c', hc, _, _, _, heq⟩ := resize_returns c c.size (Nat.le_refl _)
    rw [hc, heq rfl]
  · obtain ⟨c', hc, _, _, hpos, _⟩ := shrink_returns c k hk
    exact ⟨c', hc, (hpos hk0).2⟩
  · obtain ⟨c', hc, _, _, _, hzero⟩ := shrink_returns c 0 (Nat.zero_le _)
    exact ⟨c', hc, by rw [hzero rfl]⟩

/-- C11, amended, at a concrete input: the clause `{¬1, 2, 3}` with a cleared
flag, resized to 2 literals and shrunk by 1 literal. -/
theorem resize_shrink_flag_witness :
    (2 < exampleClause.unsetStrenghtened.size ∧ 0 < 1 ∧
      1 ≤ exampleClause.unsetStrenghtened.size) ∧
    (∃ c', exampleClause.unsetStrenghtened.resize 2 = some c' ∧ c'.getStrenghtened = true) ∧
    exampleClause.unsetStrenghtened.resize exampleClause.unsetStrenghtened.size =
      some exampleClause.unsetStrenghtened ∧
    (∃ c', exampleClause.unsetStrenghtened.shrink 1 = some c' ∧ c'.getStrenghtened = true) ∧
    (∃ c', exampleClause.unsetStrenghtened.shrink 0 = some c' ∧
      c'.getStrenghtened = exampleClause.unsetStrenghtened.getStrenghtened) :=
  ⟨⟨by decide, by decide, by decide⟩,
    resize_shrink_flag exampleClause.unsetStrenghtened 2 1 (by decide) (by decide) (by decide)⟩

/-! ## C12: the constructor -/

/-- What the constructor writes, field by field. -/
theorem construct_fields (ps : List Lit) (conflictNumIntroduced : Nat) (hps : ps.length > 2) :
    ∃ c, Clause.construct ps conflictNumIntroduced = some c ∧
      c.mySize = ps.length % 65536 ∧ c.data = ps ∧
      c.stats.glue = min 65535 (ps.length % 65536) ∧
      c.stats.conflictNumIntroduced = conflictNumIntroduced % 4294967296 ∧
      c.isLearnt = false ∧ c.isRemoved = false ∧ c.isFreed = false := by
  unfold Clause.construct
  rw [if_pos hps]
  exact ⟨_, rfl, rfl, rfl, rfl, rfl, rfl, rfl, rfl⟩

/-- C12, as stated, fails for a list that does not fit the 16-bit size field:
from 65536 literals the constructor makes a clause with `size() == 0` and
glue 0, not `min(65535, 65536)`. -/
theorem construct_truncates_size :
    (List.replicate 65536 (Lit.mk 2)).length > 2 ∧
    ∃ c, Clause.construct (List.replicate 65536 (Lit.mk 2)) 0 = some c ∧
      c.size = 0 ∧ c.stats.glue = 0 := by
  have hlen : (List.replicate 65536 (Lit.mk 2)).length = 65536 := List.length_replicate _ _
  have hps : (List.replicate 65536 (Lit.mk 2)).length > 2 := by rw [hlen]; decide
  obtain ⟨c, hc, hsize, _, hglue, _⟩ :=
    construct_fields (List.replicate 65536 (Lit.mk 2)) 0 hps
  rw [hlen] at hsize hglue
  exact ⟨hps, c, hc, hsize, hglue⟩

/-- C12, amended: for every literal list `ps` with more than 2 and fewer than
65536 literals and every 32-bit introduction index `c`, the constructor
returns a clause with `size() == |ps|`, literal `i` equal to `ps[i]` for every
`i`, `stats.glue == min(default glue, |ps|)` where the default glue is 65535,
`stats.conflictNumIntroduced == c`, that is not learnt, not removed and not
freed. -/
theorem construct_spec (ps : List Lit) (conflictNumIntroduced : Nat) (hps : ps.length > 2)
    (hlen : ps.length < 65536) (hc : conflictNumIntroduced < 4294967296) :
    ∃ c, Clause.construct ps conflictNumIntroduced = some c ∧
      c.size = ps.length ∧ (∀ i, i < ps.length → c.get i = ps[i]?) ∧ c.lits = ps ∧
      c.stats.glue = min ClauseStats.init.glue ps.length ∧ ClauseStats.init.glue = 65535 ∧
      c.stats.conflictNumIntroduced = conflictNumIntroduced ∧
      c.learnt = false ∧ c.getRemoved = false ∧ c.getFreed = false := by
  obtain ⟨c, hcons, hsize, hdata, hglue, hconfl, hl, hr, hf⟩ :=
    construct_fields ps conflictNumIntroduced hps
  rw [Nat.mod_eq_of_lt hlen] at hsize hglue
  rw [Nat.mod_eq_of_lt hc] at hconfl
  refine ⟨c, hcons, hsize, ?_, ?_, hglue, rfl, hconfl, hl, hr, hf⟩
  · intro i _
    simp [Clause.get, hdata]
  · simp [Clause.lits, Clause.size, hsize, hdata]

/-- C12, amended, at a concrete input: the clause `{¬1, 2, 3}` made at
conflict 7. -/
theorem construct_spec_witness :
    ([Lit.mk 3, Lit.mk 4, Lit.mk 6].length > 2 ∧ [Lit.mk 3, Lit.mk 4, Lit.mk 6].length < 65536 ∧
      7 < 4294967296) ∧
    ∃ c, Clause.construct [Lit.mk 3, Lit.mk 4, Lit.mk 6] 7 = some c ∧
      c.size = [Lit.mk 3, Lit.mk 4, Lit.mk 6].length ∧
      (∀ i, i < [Lit.mk 3, Lit.mk 4, Lit.mk 6].length →
        c.get i = [Lit.mk 3, Lit.mk 4, Lit.mk 6][i]?) ∧
      c.lits = [Lit.mk 3, Lit.mk 4, Lit.mk 6] ∧
      c.stats.glue = min ClauseStats.init.glue [Lit.mk 3, Lit.mk 4, Lit.mk 6].length ∧
      ClauseStats.init.glue = 65535 ∧
      c.stats.conflictNumIntroduced = 7 ∧
      c.learnt = false ∧ c.getRemoved = false ∧ c.getFreed = false :=
  ⟨⟨by decide, by decide, by decide⟩,
    construct_spec [Lit.mk 3, Lit.mk 4, Lit.mk 6] 7 (by decide) (by decide) (by decide)⟩

/-! ## C13: `add` -/

/-- C13, as stated, fails at the largest 16-bit size: `fullClause` has 65535
literals and room for one more, and after `add` its `size()` is 0. -/
theorem add_wraps_size :
    fullClause.size = 65535 ∧ fullClause.size < fullClause.data.length ∧
    (fullClause.add (Lit.mk 4)).size = 0 := by
  have hlen : fullClause.data.length = 65536 := List.length_replicate _ _
  refine ⟨rfl, ?_, rfl⟩
  rw [hlen]
  decide

/-- C13, amended: for every clause of size `s < 65535` whose backing storage
has room for one more literal and every literal `p`, after `add(p)`
`size() == s + 1`, the literal at position `s` is `p`, the literals at
positions `0..s-1` are unchanged, the flags `changed` and `strenghtened` are
true, and learnt/removed/freed and `stats` are unchanged. -/
theorem add_spec (c : Clause) (p : Lit) (hroom : c.size < c.data.length)
    (hs : c.size < 65535) :
    (c.add p).size = c.size + 1 ∧
    (c.add p).get c.size = some p ∧
    (∀ i, i < c.size → (c.add p).get i = c.get i) ∧
    (c.add p).lits = c.lits ++ [p] ∧
    (c.add p).getChanged = true ∧ (c.add p).getStrenghtened = true ∧
    (c.add p).learnt = c.learnt ∧ (c.add p).getRemoved = c.getRemoved ∧
    (c.add p).getFreed = c.getFreed ∧ (c.add p).stats = c.stats := by
  have hsz : (c.mySize + 1) % 65536 = c.mySize + 1 := by
    apply Nat.mod_eq_of_lt
    simp only [Clause.size] at hs
    omega
  have hsize : (c.add p).size = c.size + 1 := by
    simp only [Clause.add, Clause.setChanged, Clause.setStrenghtened, Clause.size, hsz]
  have hdata : (c.add p).data = c.data.set c.mySize p := by
    simp only [Clause.add, Clause.setChanged, Clause.setStrenghtened, hsz, Nat.add_sub_cancel,
      Nat.succ_ne_zero, if_false]
  simp only [Clause.size] at hroom hsize
  refine ⟨hsize, ?_, ?_, ?_, rfl, rfl, rfl, rfl, rfl, rfl⟩
  · simp [Clause.get, Clause.size, hdata, hroom]
  · intro i hi
    simp only [Clause.size] at hi
    simp only [Clause.get, hdata, List.get?_eq_getElem?]
    rw [List.getElem?_set_ne (by omega)]
  · simp only [Clause.lits, Clause.size, hsize, hdata]
    rw [List.take_succ, List.set_take, List.set_eq_of_length_le (by simp)]
    simp [hroom]

/-- C13, amended, at a concrete input: a literal added to the clause
`{¬1, 2, 3}` after its last literal was cut off. -/
theorem add_spec_witness :
    (({ exampleClause with mySize := 2 } : Clause).size <
        ({ exampleClause with mySize := 2 } : Clause).data.length ∧
      ({ exampleClause with mySize := 2 } : Clause).size < 65535) ∧
    (({ exampleClause with mySize := 2 } : Clause).add (Lit.mk 9)).size = 3 ∧
    (({ exampleClause with mySize := 2 } : Clause).add (Lit.mk 9)).lits =
      [Lit.mk 3, Lit.mk 4, Lit.mk 9] :=
  ⟨⟨by decide, by decide⟩,
    (add_spec { exampleClause with mySize := 2 } (Lit.mk 9) (by decide) (by decide)).1,
    (add_spec { exampleClause with mySize := 2 } (Lit.mk 9) (by decide) (by decide)).2.2.2.1.trans
      (by decide)⟩

/-! ## Reads and writes of the stamp table -/

theorem at_of_lt (tstamp : List Timestamp) (i : Nat) (h : i < tstamp.length) :
    tstamp[i]? = some (at_ tstamp i) := by
  simp [at_, List.getElem?_eq_getElem h]

theorem at_map (f : Timestamp → Timestamp) (tstamp : List Timestamp) (i : Nat)
    (h : i < tstamp.length) : at_ (tstamp.map f) i = f (at_ tstamp i) := by
  simp [at_, List.getElem?_eq_getElem h]

theorem at_set (tstamp : List Timestamp) (i j : Nat) (t : Timestamp) :
    at_ (tstamp.set i t) j = if i = j ∧ i < tstamp.length then t else at_ tstamp j := by
  simp only [at_, List.getD_eq_getElem?_getD, List.getElem?_set]
  by_cases hij : i = j
  · subst hij
    by_cases hi : i < tstamp.length
    · simp only [hi, if_true, and_self, Option.getD_some]
    · have hnone : tstamp[i]? = none := List.getElem?_eq_none (by omega)
      simp only [hi, if_true, if_false, and_false, hnone]
  · simp only [hij, if_false, false_and]

theorem at_modifyAt (tstamp : List Timestamp) (i j : Nat) (f : Timestamp → Timestamp) :
    at_ (modifyAt tstamp i f) j =
      if i = j ∧ i < tstamp.length then f (at_ tstamp i) else at_ tstamp j := by
  unfold modifyAt
  exact at_set _ _ _ _

theorem length_modifyAt (tstamp : List Timestamp) (i : Nat) (f : Timestamp → Timestamp) :
    (modifyAt tstamp i f).length = tstamp.length := by
  simp [modifyAt]

theorem dominator_setDominator (t : Timestamp) (ty ty' : StampType) (l : Lit) :
    (t.setDominator ty l).dominator ty' = if ty = ty' then l else t.dominator ty' := by
  cases ty <;> cases ty' <;> rfl

theorem start_setDominator (t : Timestamp) (ty ty' : StampType) (l : Lit) :
    (t.setDominator ty l).start ty' = t.start ty' := by
  cases ty <;> cases ty' <;> rfl

theorem end_setDominator (t : Timestamp) (ty ty' : StampType) (l : Lit) :
    (t.setDominator ty l).end_ ty' = t.end_ ty' := by
  cases ty <;> cases ty' <;> rfl

/-! ## `remove_from_stamps` -/

theorem length_clearOwnDominators (tstamp : List Timestamp) (v : Nat) (ty : StampType) :
    (clearOwnDominators tstamp v ty).length = tstamp.length := by
  simp [clearOwnDominators, length_modifyAt]

theorem at_clearOwnDominators (tstamp : List Timestamp) (v : Nat) (ty : StampType) (i : Nat)
    (hb : 2 * v + 1 < tstamp.length) :
    at_ (clearOwnDominators tstamp v ty) i =
      if i = 2 * v ∨ i = 2 * v + 1 then (at_ tstamp i).setDominator ty lit_Undef
      else at_ tstamp i := by
  have ha : 2 * v < tstamp.length := by omega
  simp only [clearOwnDominators, at_modifyAt, length_modifyAt, Lit.mkLit, Lit.toInt,
    Bool.false_eq_true, if_false, if_true, Nat.add_zero]
  by_cases h1 : i = 2 * v
  · have h2 : ¬ (2 * v + 1 = i) := by omega
    simp [h1, ha]
  · by_cases h2 : i = 2 * v + 1
    · simp [h2, hb]
    · have h3 : ¬ (2 * v = i) := fun h => h1 h.symm
      have h4 : ¬ (2 * v + 1 = i) := fun h => h2 h.symm
      simp [h1, h2, h3, h4]

theorem dominator_clearDominatorOver (v : Nat) (t : Timestamp) (ty : StampType) :
    (clearDominatorOver v (clearDominatorOver v t STAMP_IRRED) STAMP_RED).dominator ty =
      if (t.dominator ty).var = v then lit_Undef else t.dominator ty := by
  cases ty <;> simp only [clearDominatorOver] <;> split_ifs <;>
    simp_all [dominator_setDominator]

theorem interval_clearDominatorOver (v : Nat) (t : Timestamp) (ty : StampType) :
    (clearDominatorOver v (clearDominatorOver v t STAMP_IRRED) STAMP_RED).start ty =
        t.start ty ∧
    (clearDominatorOver v (clearDominatorOver v t STAMP_IRRED) STAMP_RED).end_ ty =
        t.end_ ty := by
  simp only [clearDominatorOver]
  split_ifs <;> simp [start_setDominator, end_setDominator]

/-- What `remove_from_stamps(v)` leaves, for a variable whose two literals
index inside the table. -/
theorem remove_from_stamps_clears (tstamp : List Timestamp) (v : Nat)
    (hb : (Lit.mkLit v true).toInt < tstamp.length) :
    (remove_from_stamps tstamp v).length = tstamp.length ∧
    (∀ i, i < tstamp.length → ∀ ty,
      (at_ (remove_from_stamps tstamp v) i).dominator ty = lit_Undef ∨
      ((at_ (remove_from_stamps tstamp v) i).dominator ty).var ≠ v) ∧
    (∀ ty,
      (at_ (remove_from_stamps tstamp v) (Lit.mkLit v false).toInt).dominator ty = lit_Undef ∧
      (at_ (remove_from_stamps tstamp v) (Lit.mkLit v true).toInt).dominator ty = lit_Undef) ∧
    (∀ i, i < tstamp.length → ∀ ty,
      (at_ (remove_from_stamps tstamp v) i).start ty = (at_ tstamp i).start ty ∧
      (at_ (remove_from_stamps tstamp v) i).end_ ty = (at_ tstamp i).end_ ty) := by
  have hb' : 2 * v + 1 < tstamp.length := by
    simpa [Lit.mkLit, Lit.toInt] using hb
  have hlen1 : (clearOwnDominators (clearOwnDominators tstamp v STAMP_IRRED) v
      STAMP_RED).length = tstamp.length := by
    rw [length_clearOwnDominators, length_clearOwnDominators]
  have hat : ∀ i, i < tstamp.length → at_ (remove_from_stamps tstamp v) i =
      clearDominatorOver v (clearDominatorOver v
        (at_ (clearOwnDominators (clearOwnDominators tstamp v STAMP_IRRED) v STAMP_RED) i)
        STAMP_IRRED) STAMP_RED := by
    intro i hi
    unfold remove_from_stamps
    exact at_map _ _ i (by rw [hlen1]; exact hi)
  have hown : ∀ i, (i = 2 * v ∨ i = 2 * v + 1) → ∀ ty,
      (at_ (clearOwnDominators (clearOwnDominators tstamp v STAMP_IRRED) v STAMP_RED)
        i).dominator ty = lit_Undef := by
    intro i hi ty
    rw [at_clearOwnDominators _ _ _ _ (by rw [length_clearOwnDominators]; exact hb'),
      at_clearOwnDominators _ _ _ _ hb']
    simp only [hi, if_true]
    cases ty <;> simp [dominator_setDominator]
  have hint : ∀ i ty,
      (at_ (clearOwnDominators (clearOwnDominators tstamp v STAMP_IRRED) v STAMP_RED)
        i).start ty = (at_ tstamp i).start ty ∧
      (at_ (clearOwnDominators (clearOwnDominators tstamp v STAMP_IRRED) v STAMP_RED)
        i).end_ ty = (at_ tstamp i).end_ ty := by
    intro i ty
    rw [at_clearOwnDominators _ _ _ _ (by rw [length_clearOwnDominators]; exact hb'),
      at_clearOwnDominators _ _ _ _ hb']
    split_ifs <;> simp [start_setDominator, end_setDominator]
  refine ⟨?_, ?_, ?_, ?_⟩
  · simp [remove_from_stamps, hlen1]
  · intro i hi ty
    rw [hat i hi, dominator_clearDominatorOver]
    split_ifs with h
    · exact Or.inl rfl
    · exact Or.inr h
  · intro ty
    have h1 : (Lit.mkLit v false).toInt = 2 * v := by simp [Lit.mkLit, Lit.toInt]
    have h2 : (Lit.mkLit v true).toInt = 2 * v + 1 := by simp [Lit.mkLit, Lit.toInt]
    rw [h1, h2, hat _ (by omega), hat _ hb', dominator_clearDominatorOver,
      dominator_clearDominatorOver, hown _ (Or.inl rfl) ty, hown _ (Or.inr rfl) ty]
    simp
  · intro i hi ty
    rw [hat i hi]
    have h1 := interval_clearDominatorOver v
      (at_ (clearOwnDominators (clearOwnDominators tstamp v STAMP_IRRED) v STAMP_RED) i) ty
    have h2 := hint i ty
    exact ⟨h1.1.trans h2.1, h1.2.trans h2.2⟩

/-! ## C14: `remove_from_stamps` leaves no dominator over the variable -/

/-- C14: for every table and every variable `v` whose two literals index
inside the table, after `remove_from_stamps(v)` no entry's dominator in either
domain is a literal over `v` and both dominator slots of each of the two
literals of `v` are `lit_Undef`; the table keeps its length and its intervals.
The same holds on the table that an `updateVars` call leaves, whatever its
helpers compute. -/
theorem remove_from_stamps_no_dominator (getUpdatedLit : Lit → List Nat → Lit)
    (updateBySwap : List Timestamp → List Nat → List Nat → List Timestamp)
    (tstamp : List Timestamp) (outerToInter interToOuter2 seen : List Nat) (v : Nat)
    (hin : (Lit.mkLit v false).toInt < tstamp.length ∧
      (Lit.mkLit v true).toInt < tstamp.length)
    (hin' : (Lit.mkLit v false).toInt <
        (updateVars getUpdatedLit updateBySwap tstamp outerToInter interToOuter2 seen).length ∧
      (Lit.mkLit v true).toInt <
        (updateVars getUpdatedLit updateBySwap tstamp outerToInter interToOuter2 seen).length) :
    (noDominatorOver (remove_from_stamps tstamp v) v ∧
      ownDominatorsNone (remove_from_stamps tstamp v) v ∧
      (remove_from_stamps tstamp v).length = tstamp.length ∧
      ∀ i, i < tstamp.length → ∀ ty,
        (at_ (remove_from_stamps tstamp v) i).start ty = (at_ tstamp i).start ty ∧
        (at_ (remove_from_stamps tstamp v) i).end_ ty = (at_ tstamp i).end_ ty) ∧
    (noDominatorOver (remove_from_stamps
        (updateVars getUpdatedLit updateBySwap tstamp outerToInter interToOuter2 seen) v) v ∧
      ownDominatorsNone (remove_from_stamps
        (updateVars getUpdatedLit updateBySwap tstamp outerToInter interToOuter2 seen) v) v) := by
  obtain ⟨hlen, hdom, hown, hint⟩ := remove_from_stamps_clears tstamp v hin.2
  obtain ⟨hlen', hdom', hown', _⟩ := remove_from_stamps_clears
    (updateVars getUpdatedLit updateBySwap tstamp outerToInter interToOuter2 seen) v hin'.2
  refine ⟨⟨?_, ?_, hlen, hint⟩, ?_, ?_⟩
  · intro i hi
    rw [hlen] at hi
    exact ⟨hdom i hi STAMP_IRRED, hdom i hi STAMP_RED⟩
  · exact ⟨(hown STAMP_IRRED).1, (hown STAMP_RED).1, (hown STAMP_IRRED).2,
      (hown STAMP_RED).2⟩
  · intro i hi
    rw [hlen'] at hi
    exact ⟨hdom' i hi STAMP_IRRED, hdom' i hi STAMP_RED⟩
  · exact ⟨(hown' STAMP_IRRED).1, (hown' STAMP_RED).1, (hown' STAMP_IRRED).2,
      (hown' STAMP_RED).2⟩

/-- C14 at a concrete input: the variable 1 removed from `dominatedTable`,
directly and after an `updateVars` call whose helpers change nothing. -/
theorem remove_from_stamps_no_dominator_witness :
    (((Lit.mkLit 1 false).toInt < dominatedTable.length ∧
        (Lit.mkLit 1 true).toInt < dominatedTable.length) ∧
      ((Lit.mkLit 1 false).toInt <
          (updateVars (fun l _ => l) (fun t _ _ => t) dominatedTable [] [] []).length ∧
        (Lit.mkLit 1 true).toInt <
          (updateVars (fun l _ => l) (fun t _ _ => t) dominatedTable [] [] []).length)) ∧
    ¬ noDominatorOver dominatedTable 1 ∧
    noDominatorOver (remove_from_stamps dominatedTable 1) 1 ∧
    ownDominatorsNone (remove_from_stamps dominatedTable 1) 1 :=
  ⟨⟨by decide, by decide⟩, by decide,
    (remove_from_stamps_no_dominator (fun l _ => l) (fun t _ _ => t) dominatedTable [] [] [] 1
      (by decide) (by decide)).1.1,
    (remove_from_stamps_no_dominator (fun l _ => l) (fun t _ _ => t) dominatedTable [] [] [] 1
      (by decide) (by decide)).1.2.1⟩

/-! ## `save_on_var_memory` -/

theorem length_resizeTable (tstamp : List Timestamp) (n : Nat) :
    (resizeTable tstamp n).length = n := by
  simp only [resizeTable, List.length_append, List.length_take, List.length_replicate]
  omega

theorem at_resizeTable (tstamp : List Timestamp) (n i : Nat) (hi : i < n) :
    at_ (resizeTable tstamp n) i =
      if i < tstamp.length then at_ tstamp i else Timestamp.init := by
  simp only [at_, resizeTable, List.getD_eq_getElem?_getD]
  by_cases h : i < tstamp.length
  · have h1 : i < (tstamp.take n).length := by simp only [List.length_take]; omega
    rw [List.getElem?_append_left h1, List.getElem?_take_of_lt hi]
    simp only [h, if_true]
  · have h1 : (tstamp.take n).length ≤ i := by simp only [List.length_take]; omega
    rw [List.getElem?_append_right h1, List.getElem?_replicate]
    have h2 : i - (tstamp.take n).length < n - tstamp.length := by
      simp only [List.length_take]; omega
    simp only [h2, h, if_true, if_false, Option.getD_some]

theorem dominator_saveEntry (n : Nat) (t : Timestamp) (ty : StampType) :
    (saveEntry n t).dominator ty =
      if t.dominator ty ≠ lit_Undef ∧ (t.dominator ty).var ≥ n then lit_Undef
      else t.dominator ty := by
  cases ty <;> simp only [saveEntry] <;> split_ifs <;> simp_all [dominator_setDominator]

theorem interval_saveEntry (n : Nat) (t : Timestamp) (ty : StampType) :
    (saveEntry n t).start ty = t.start ty ∧ (saveEntry n t).end_ ty = t.end_ ty := by
  simp only [saveEntry]
  split_ifs <;> simp [start_setDominator, end_setDominator]

theorem saveEntry_init (n : Nat) : saveEntry n Timestamp.init = Timestamp.init := by
  simp [saveEntry, Timestamp.init, Timestamp.dominator]

/-! ## C15: `save_on_var_memory` -/

/-- C15, as stated, fails where the 32-bit product `newNumVars*2` wraps: with
`newNumVars = 2^31` the table is resized to 0 entries, not to `2^32`. -/
theorem save_on_var_memory_wraps :
    (save_on_var_memory exampleTable 2147483648).length = 0 ∧
    (save_on_var_memory exampleTable 2147483648).length ≠ 2 * 2147483648 :=
  ⟨by decide, by decide⟩

/-- C15, amended: for every table and every `newNumVars < 2^31` (so that
`newNumVars*2` fits 32 bits), after `save_on_var_memory(newNumVars)` the table
has exactly `2*newNumVars` entries and, in both domains alike, every entry's
dominator is `lit_Undef` or a literal over a variable `< newNumVars`; in the
surviving entries the intervals and the dominators over a variable
`< newNumVars` are unchanged, and the entries that the resize adds are
`Timestamp()`. -/
theorem save_on_var_memory_spec (tstamp : List Timestamp) (newNumVars : Nat)
    (hn : newNumVars < 2147483648) :
    (save_on_var_memory tstamp newNumVars).length = 2 * newNumVars ∧
    (∀ i, i < 2 * newNumVars → ∀ ty,
      (at_ (save_on_var_memory tstamp newNumVars) i).dominator ty = lit_Undef ∨
      ((at_ (save_on_var_memory tstamp newNumVars) i).dominator ty).var < newNumVars) ∧
    (∀ i, i < 2 * newNumVars → i < tstamp.length → ∀ ty,
      (at_ (save_on_var_memory tstamp newNumVars) i).start ty = (at_ tstamp i).start ty ∧
      (at_ (save_on_var_memory tstamp newNumVars) i).end_ ty = (at_ tstamp i).end_ ty ∧
      (((at_ tstamp i).dominator ty).var < newNumVars →
        (at_ (save_on_var_memory tstamp newNumVars) i).dominator ty =
          (at_ tstamp i).dominator ty)) ∧
    (∀ i, i < 2 * newNumVars → tstamp.length ≤ i →
      at_ (save_on_var_memory tstamp newNumVars) i = Timestamp.init) := by
  have hmod : (newNumVars * 2) % 4294967296 = 2 * newNumVars := by omega
  have hat : ∀ i, i < 2 * newNumVars → at_ (save_on_var_memory tstamp newNumVars) i =
      saveEntry newNumVars (if i < tstamp.length then at_ tstamp i else Timestamp.init) := by
    intro i hi
    unfold save_on_var_memory
    rw [hmod, at_map _ _ i (by rw [length_resizeTable]; exact hi), at_resizeTable _ _ _ hi]
  refine ⟨?_, ?_, ?_, ?_⟩
  · simp only [save_on_var_memory, List.length_map, length_resizeTable, hmod]
  · intro i hi ty
    rw [hat i hi, dominator_saveEntry]
    generalize (if i < tstamp.length then at_ tstamp i else Timestamp.init) = t
    by_cases h : t.dominator ty ≠ lit_Undef ∧ (t.dominator ty).var ≥ newNumVars
    · rw [if_pos h]
      exact Or.inl rfl
    · rw [if_neg h]
      by_cases h3 : t.dominator ty = lit_Undef
      · exact Or.inl h3
      · right
        have h5 : ¬ (t.dominator ty).var ≥ newNumVars := fun h4 => h ⟨h3, h4⟩
        omega
  · intro i hi hlt ty
    rw [hat i hi]
    simp only [hlt, if_true]
    refine ⟨(interval_saveEntry _ _ ty).1, (interval_saveEntry _ _ ty).2, ?_⟩
    intro hvar
    rw [dominator_saveEntry]
    have : ¬ ((at_ tstamp i).dominator ty ≠ lit_Undef ∧
        ((at_ tstamp i).dominator ty).var ≥ newNumVars) := by
      intro h
      have := h.2
      omega
    simp only [this, if_false]
  · intro i hi hge
    rw [hat i hi]
    have : ¬ i < tstamp.length := by omega
    simp only [this, if_false, saveEntry_init]

/-- C15, amended, at a concrete input: `dominatedTable` cut down to the
variables 0 and 1. -/
theorem save_on_var_memory_spec_witness :
    (2 : Nat) < 2147483648 ∧
    (save_on_var_memory dominatedTable 2).length = 2 * 2 ∧
    (at_ (save_on_var_memory dominatedTable 2) 0).dominator STAMP_IRRED = Lit.mk 2 ∧
    (at_ (save_on_var_memory dominatedTable 2) 1).dominator STAMP_RED = lit_Undef ∧
    (at_ (save_on_var_memory dominatedTable 2) 3).dominator STAMP_IRRED = lit_Undef :=
  ⟨by decide, (save_on_var_memory_spec dominatedTable 2 (by decide)).1,
    by decide, by decide, by decide⟩

/-! ## `update_dominators` -/

theorem dominator_replaceDominators (repl : Lit → Lit) (t : Timestamp) (ty : StampType) :
    (replaceDominators repl t).dominator ty =
      if t.dominator ty = lit_Undef then lit_Undef else repl (t.dominator ty) := by
  cases ty <;> simp only [replaceDominators] <;> split_ifs <;>
    simp_all [dominator_setDominator]

theorem interval_replaceDominators (repl : Lit → Lit) (t : Timestamp) (ty : StampType) :
    (replaceDominators repl t).start ty = t.start ty ∧
    (replaceDominators repl t).end_ ty = t.end_ ty := by
  simp only [replaceDominators]
  split_ifs <;> simp [start_setDominator, end_setDominator]

/-- Two entries with the same intervals and dominators are the same entry. -/
theorem Timestamp.eq_of_fields (t u : Timestamp)
    (h : ∀ ty, t.start ty = u.start ty ∧ t.end_ ty = u.end_ ty ∧
      t.dominator ty = u.dominator ty) : t = u := by
  cases t
  cases u
  have h1 := h STAMP_IRRED
  have h2 := h STAMP_RED
  simp only [Timestamp.start, Timestamp.end_, Timestamp.dominator] at h1 h2
  simp only [Timestamp.mk.injEq]
  exact ⟨h1.1, h2.1, h1.2.1, h2.2.1, h1.2.2, h2.2.2⟩

/-- With an idempotent replacer, replacing the dominators twice is replacing
them once. -/
theorem replaceDominators_idem (repl : Lit → Lit) (hidem : ∀ x, repl (repl x) = repl x)
    (t : Timestamp) :
    replaceDominators repl (replaceDominators repl t) = replaceDominators repl t := by
  apply Timestamp.eq_of_fields
  intro ty
  refine ⟨?_, ?_, ?_⟩
  · rw [(interval_replaceDominators repl _ ty).1]
  · rw [(interval_replaceDominators repl _ ty).2]
  · rw [dominator_replaceDominators, dominator_replaceDominators]
    by_cases h1 : t.dominator ty = lit_Undef
    · simp only [h1, if_true]
    · simp only [h1, if_false]
      by_cases h2 : repl (t.dominator ty) = lit_Undef
      · simp only [h2, if_true]
      · simp only [h2, if_false, hidem]

theorem length_update_dominators_step (repl : Lit → Lit) (tstamp : List Timestamp) (l : Nat) :
    (update_dominators_step repl tstamp l).length = tstamp.length := by
  simp only [update_dominators_step]
  split_ifs <;> simp [length_modifyAt]

/-- One round of `update_dominators` writes the entry `l` and no other. -/
theorem at_update_dominators_step (repl : Lit → Lit) (tstamp : List Timestamp) (l j : Nat)
    (hl : l < tstamp.length) :
    at_ (update_dominators_step repl tstamp l) j =
      if j = l ∧ (repl (Lit.toLit l)).toInt < tstamp.length then
        replaceDominators repl (at_ tstamp (repl (Lit.toLit l)).toInt)
      else at_ tstamp j := by
  simp only [update_dominators_step]
  by_cases hr : (repl (Lit.toLit l)).toInt ≥ tstamp.length
  · have hr' : ¬ (repl (Lit.toLit l)).toInt < tstamp.length := by omega
    simp only [hr, if_true, hr', and_false, if_false]
  · have hr' : (repl (Lit.toLit l)).toInt < tstamp.length := by omega
    simp only [hr, if_false, hr', and_true, at_modifyAt, List.length_set, at_set]
    by_cases hj : j = l
    · simp only [hj, hl, and_self, if_true]
    · have hj' : ¬ l = j := fun h => hj h.symm
      simp only [hj, hj', false_and, if_false]

/-- The table after the rounds `0 .. k-1` of `update_dominators`. -/
theorem update_dominators_prefix (repl : Lit → Lit) (hidem : ∀ x, repl (repl x) = repl x)
    (old : List Timestamp) :
    ∀ k, k ≤ old.length →
      ((List.range k).foldl (update_dominators_step repl) old).length = old.length ∧
      ∀ j, at_ ((List.range k).foldl (update_dominators_step repl) old) j =
        if j < k ∧ (repl (Lit.toLit j)).toInt < old.length then
          replaceDominators repl (at_ old (repl (Lit.toLit j)).toInt)
        else at_ old j := by
  intro k
  induction k with
  | zero =>
    intro _
    simp
  | succ k ih =>
    intro hk
    obtain ⟨hlen, hat⟩ := ih (by omega)
    rw [List.range_succ, List.foldl_append, List.foldl_cons, List.foldl_nil]
    refine ⟨by rw [length_update_dominators_step, hlen], ?_⟩
    intro j
    rw [at_update_dominators_step _ _ _ _ (by rw [hlen]; omega), hlen]
    by_cases hj : j = k
    · subst hj
      by_cases hr : (repl (Lit.toLit j)).toInt < old.length
      · have hjj : j < j + 1 := Nat.lt_succ_self j
        simp only [hr, and_self, if_true, hjj]
        rw [hat]
        by_cases hrk : (repl (Lit.toLit j)).toInt < j
        · have heta : Lit.toLit (repl (Lit.toLit j)).toInt = repl (Lit.toLit j) := rfl
          simp only [hrk, heta, hidem, hr, and_self, if_true]
          exact replaceDominators_idem repl hidem _
        · simp only [hrk, false_and, if_false]
      · simp only [hr, and_false, if_false]
        rw [hat]
        simp only [hr, and_false, if_false]
    · have hjk : j < k + 1 ↔ j < k := by omega
      simp only [hj, false_and, if_false, hjk]
      exact hat j

/-! ## C16: `update_dominators` with an idempotent replacer -/

/-- C16: for every table and every idempotent replacer, after
`update_dominators` the table keeps its length; every literal `l` whose
replacement `r` indexes inside the table holds the intervals that the slot of
`r` held before the call and, for each domain, the replacement of the dominator
that the slot of `r` held (`lit_Undef` stays `lit_Undef`), so that the slots
of `l` and `r` are equal afterwards; every entry whose replacement falls
outside the table is unchanged. -/
theorem update_dominators_spec (repl : Lit → Lit) (tstamp : List Timestamp)
    (hidem : ∀ x, repl (repl x) = repl x) :
    (update_dominators repl tstamp).length = tstamp.length ∧
    ∀ l, l < tstamp.length →
      ((repl (Lit.toLit l)).toInt < tstamp.length →
        (∀ ty,
          (at_ (update_dominators repl tstamp) l).start ty =
            (at_ tstamp (repl (Lit.toLit l)).toInt).start ty ∧
          (at_ (update_dominators repl tstamp) l).end_ ty =
            (at_ tstamp (repl (Lit.toLit l)).toInt).end_ ty ∧
          (at_ (update_dominators repl tstamp) l).dominator ty =
            if (at_ tstamp (repl (Lit.toLit l)).toInt).dominator ty = lit_Undef then lit_Undef
            else repl ((at_ tstamp (repl (Lit.toLit l)).toInt).dominator ty)) ∧
        at_ (update_dominators repl tstamp) l =
          at_ (update_dominators repl tstamp) (repl (Lit.toLit l)).toInt) ∧
      (tstamp.length ≤ (repl (Lit.toLit l)).toInt →
        at_ (update_dominators repl tstamp) l = at_ tstamp l) := by
  obtain ⟨hlen, hat⟩ := update_dominators_prefix repl hidem tstamp tstamp.length (Nat.le_refl _)
  refine ⟨hlen, ?_⟩
  intro l hl
  constructor
  · intro hr
    have hl' : at_ (update_dominators repl tstamp) l =
        replaceDominators repl (at_ tstamp (repl (Lit.toLit l)).toInt) := by
      unfold update_dominators
      rw [hat l]
      simp only [hl, hr, and_self, if_true]
    have heta : Lit.toLit (repl (Lit.toLit l)).toInt = repl (Lit.toLit l) := rfl
    have hr' : at_ (update_dominators repl tstamp) (repl (Lit.toLit l)).toInt =
        replaceDominators repl (at_ tstamp (repl (Lit.toLit l)).toInt) := by
      unfold update_dominators
      rw [hat]
      simp only [hr, heta, hidem, and_self, if_true]
    refine ⟨?_, by rw [hl', hr']⟩
    intro ty
    rw [hl']
    exact ⟨(interval_replaceDominators repl _ ty).1, (interval_replaceDominators repl _ ty).2,
      dominator_replaceDominators repl _ ty⟩
  · intro hr
    have hr' : ¬ (repl (Lit.toLit l)).toInt < tstamp.length := by omega
    unfold update_dominators
    rw [hat l]
    simp only [hr', and_false, if_false]

/-- C16 at a concrete input: on `dominatedTable` the literal `4` is replaced by
the literal `2`; afterwards its slot holds the interval of the slot of `2` and
the two slots are equal. -/
theorem update_dominators_spec_witness :
    (∀ x, exampleReplacer (exampleReplacer x) = exampleReplacer x) ∧
    (update_dominators exampleReplacer dominatedTable).length = dominatedTable.length ∧
    (at_ (update_dominators exampleReplacer dominatedTable) 4).start STAMP_IRRED = 2 ∧
    at_ (update_dominators exampleReplacer dominatedTable) 4 =
      at_ (update_dominators exampleReplacer dominatedTable) 2 := by
  have hidem : ∀ x, exampleReplacer (exampleReplacer x) = exampleReplacer x := by
    intro x
    simp only [exampleReplacer]
    split_ifs <;> simp_all
  exact ⟨hidem, (update_dominators_spec exampleReplacer dominatedTable hidem).1,
    by decide, by decide⟩

/-! ## C17: `clearStamps` -/

/-- C17: for every table, after `clearStamps()` the table has the same number
of entries and every entry is `Timestamp()`, the unvisited entry (every
interval at the sentinel, both dominators `lit_Undef`); the result depends only
on the length of the table, so `clearStamps` is idempotent and two tables of
equal length become equal. -/
theorem clearStamps_spec (tstamp tstamp2 : List Timestamp) :
    (clearStamps tstamp).length = tstamp.length ∧
    (∀ i, i < tstamp.length → at_ (clearStamps tstamp) i = Timestamp.init) ∧
    (∀ ty, Timestamp.init.start ty = 0 ∧ Timestamp.init.end_ ty = 0 ∧
      Timestamp.init.dominator ty = lit_Undef) ∧
    clearStamps tstamp = List.replicate tstamp.length Timestamp.init ∧
    clearStamps (clearStamps tstamp) = clearStamps tstamp ∧
    (tstamp.length = tstamp2.length → clearStamps tstamp = clearStamps tstamp2) := by
  have hrep : ∀ t : List Timestamp, clearStamps t = List.replicate t.length Timestamp.init := by
    intro t
    unfold clearStamps
    induction t with
    | nil => rfl
    | cons x xs ih => simp [List.replicate_succ, ih]
  refine ⟨by simp [clearStamps], ?_, ?_, hrep tstamp, ?_, ?_⟩
  · intro i hi
    unfold clearStamps
    rw [at_map _ _ i hi]
  · intro ty
    cases ty <;> exact ⟨rfl, rfl, rfl⟩
  · rw [hrep (clearStamps tstamp), hrep tstamp, List.length_replicate]
  · intro h
    rw [hrep tstamp, hrep tstamp2, h]

/-! ## Sums of aggregated statistics -/

theorem usage_addAssign (a b c : ClauseUsageStats) :
    (a.addAssign b).intFields = sums64 a.intFields b.intFields ∧
    (a.addAssign b).intFields = (b.addAssign a).intFields ∧
    ((a.addAssign b).addAssign c).intFields = (a.addAssign (b.addAssign c)).intFields ∧
    (inRange64 a.intFields →
      (a.addAssign ClauseUsageStats.init).intFields = a.intFields ∧
      (ClauseUsageStats.init.addAssign a).intFields = a.intFields) := by
  refine ⟨rfl, ?_, ?_, ?_⟩
  · simp only [ClauseUsageStats.addAssign, ClauseUsageStats.intFields, List.cons.injEq,
      and_true]
    repeat' apply And.intro
    all_goals omega
  · simp only [ClauseUsageStats.addAssign, ClauseUsageStats.intFields, List.cons.injEq,
      and_true]
    repeat' apply And.intro
    all_goals omega
  · intro h
    simp only [inRange64, ClauseUsageStats.intFields, List.forall_mem_cons] at h
    simp only [ClauseUsageStats.addAssign, ClauseUsageStats.intFields, ClauseUsageStats.init,
      List.cons.injEq, and_true]
    repeat' apply And.intro
    all_goals omega

theorem data_addAssign (a b c : CleaningStats.Data) :
    (a.addAssign b).intFields = sums64 a.intFields b.intFields ∧
    (a.addAssign b).intFields = (b.addAssign a).intFields ∧
    ((a.addAssign b).addAssign c).intFields = (a.addAssign (b.addAssign c)).intFields ∧
    (inRange64 a.intFields →
      (a.addAssign CleaningStats.Data.init).intFields = a.intFields ∧
      (CleaningStats.Data.init.addAssign a).intFields = a.intFields) := by
  refine ⟨rfl, ?_, ?_, ?_⟩
  · simp only [CleaningStats.Data.addAssign, CleaningStats.Data.intFields, List.cons.injEq,
      and_true]
    repeat' apply And.intro
    all_goals omega
  · simp only [CleaningStats.Data.addAssign, CleaningStats.Data.intFields, List.cons.injEq,
      and_true]
    repeat' apply And.intro
    all_goals omega
  · intro h
    simp only [inRange64, CleaningStats.Data.intFields, List.forall_mem_cons] at h
    simp only [CleaningStats.Data.addAssign, CleaningStats.Data.intFields,
      CleaningStats.Data.init, List.cons.injEq, and_true]
    repeat' apply And.intro
    all_goals omega

theorem inRange64_append (xs ys : List Nat) :
    inRange64 (xs ++ ys) ↔ inRange64 xs ∧ inRange64 ys := by
  simp only [inRange64, List.forall_mem_append]

theorem cleaning_addAssign (a b c : CleaningStats) (ty : clauseCleaningTypes) :
    (a.addAssign b).intFields = sums64 a.intFields b.intFields ∧
    (a.addAssign b).intFields = (b.addAssign a).intFields ∧
    ((a.addAssign b).addAssign c).intFields = (a.addAssign (b.addAssign c)).intFields ∧
    (inRange64 a.intFields →
      (a.addAssign (CleaningStats.init ty)).intFields = a.intFields ∧
      ((CleaningStats.init ty).addAssign a).intFields = a.intFields) := by
  have hsplit : ∀ x y : CleaningStats, (x.addAssign y).intFields =
      [(x.origNumClauses + y.origNumClauses) % 18446744073709551616,
       (x.origNumLits + y.origNumLits) % 18446744073709551616,
       (x.glueBasedClean + y.glueBasedClean) % 18446744073709551616,
       (x.sizeBasedClean + y.sizeBasedClean) % 18446744073709551616,
       (x.propConflBasedClean + y.propConflBasedClean) % 18446744073709551616,
       (x.actBasedClean + y.actBasedClean) % 18446744073709551616] ++
      (x.preRemove.addAssign y.preRemove).intFields ++
      (x.removed.addAssign y.removed).intFields ++
      (x.remain.addAssign y.remain).intFields := fun _ _ => rfl
  refine ⟨rfl, ?_, ?_, ?_⟩
  · rw [hsplit a b, hsplit b a, (data_addAssign a.preRemove b.preRemove c.preRemove).2.1,
      (data_addAssign a.removed b.removed c.removed).2.1,
      (data_addAssign a.remain b.remain c.remain).2.1]
    congr 3
    simp only [List.cons.injEq, and_true]
    repeat' apply And.intro
    all_goals omega
  · rw [hsplit (a.addAssign b) c, hsplit a (b.addAssign c)]
    have h1 := (data_addAssign a.preRemove b.preRemove c.preRemove).2.2.1
    have h2 := (data_addAssign a.removed b.removed c.removed).2.2.1
    have h3 := (data_addAssign a.remain b.remain c.remain).2.2.1
    simp only [CleaningStats.addAssign] at h1 h2 h3 ⊢
    rw [h1, h2, h3]
    congr 3
    simp only [List.cons.injEq, and_true]
    repeat' apply And.intro
    all_goals omega
  · intro h
    simp only [CleaningStats.intFields, inRange64_append] at h
    obtain ⟨⟨⟨h0, h1⟩, h2⟩, h3⟩ := h
    simp only [inRange64, List.forall_mem_cons] at h0
    have e1 := (data_addAssign a.preRemove a.preRemove a.preRemove).2.2.2 h1
    have e2 := (data_addAssign a.removed a.removed a.removed).2.2.2 h2
    have e3 := (data_addAssign a.remain a.remain a.remain).2.2.2 h3
    constructor
    · rw [hsplit a (CleaningStats.init ty)]
      simp only [CleaningStats.init] at e1 e2 e3 ⊢
      rw [e1.1, e2.1, e3.1]
      simp only [CleaningStats.intFields]
      congr 3
      simp only [List.cons.injEq, and_true]
      repeat' apply And.intro
      all_goals omega
    · rw [hsplit (CleaningStats.init ty) a]
      simp only [CleaningStats.init] at e1 e2 e3 ⊢
      rw [e1.2, e2.2, e3.2]
      simp only [CleaningStats.intFields]
      congr 3
      simp only [List.cons.injEq, and_true]
      repeat' apply And.intro
      all_goals omega

/-! ## Tables in which a stamp names one interval -/

/-- In a stamped table different entries share no stamp. -/
theorem intervalsByStamp_of_irredStamped (tstamp : List Timestamp) (h : IrredStamped tstamp) :
    IntervalsByStamp tstamp := by
  intro i hi j hj hor
  by_cases hij : i = j
  · subst hij
    exact ⟨rfl, rfl⟩
  · have hi1 := (h i hi).1
    have hj1 := (h j hj).1
    rcases (h i hi).2 j hj hij with h1 | h1 | h1 | h1 <;> omega

/-- After `clearStamps()` every entry has the interval of the unvisited entry. -/
theorem intervalsByStamp_clearStamps (tstamp : List Timestamp) :
    IntervalsByStamp (clearStamps tstamp) := by
  intro i hi j hj _
  have hlen : (clearStamps tstamp).length = tstamp.length := by simp [clearStamps]
  rw [hlen] at hi hj
  unfold clearStamps
  rw [at_map _ _ i hi, at_map _ _ j hj]
  exact ⟨rfl, rfl⟩

/-- The function `update_dominators` copies whole entries, so afterwards a stamp
still names one interval. -/
theorem intervalsByStamp_update_dominators (repl : Lit → Lit)
    (hidem : ∀ x, repl (repl x) = repl x) (tstamp : List Timestamp)
    (h : IntervalsByStamp tstamp) : IntervalsByStamp (update_dominators repl tstamp) := by
  obtain ⟨hlen, hat⟩ := update_dominators_prefix repl hidem tstamp tstamp.length (Nat.le_refl _)
  have hsrc : ∀ i, i < tstamp.length → ∃ k, k < tstamp.length ∧
      (at_ (update_dominators repl tstamp) i).start STAMP_IRRED =
        (at_ tstamp k).start STAMP_IRRED ∧
      (at_ (update_dominators repl tstamp) i).end_ STAMP_IRRED =
        (at_ tstamp k).end_ STAMP_IRRED := by
    intro i hi
    unfold update_dominators
    rw [hat i]
    by_cases hr : (repl (Lit.toLit i)).toInt < tstamp.length
    · refine ⟨(repl (Lit.toLit i)).toInt, hr, ?_⟩
      simp only [hi, hr, and_self, if_true]
      exact interval_replaceDominators repl _ STAMP_IRRED
    · refine ⟨i, hi, ?_⟩
      simp only [hr, and_false, if_false, and_self]
  intro i hi j hj hor
  have hlen' : (update_dominators repl tstamp).length = tstamp.length := hlen
  rw [hlen'] at hi hj
  obtain ⟨k, hk, hks, hke⟩ := hsrc i hi
  obtain ⟨m, hm, hms, hme⟩ := hsrc j hj
  rw [hks, hke, hms, hme] at hor ⊢
  exact h k hk m hm hor

/-- The function `remove_from_stamps` writes dominators only, so afterwards a
stamp still names one interval. -/
theorem intervalsByStamp_remove_from_stamps (tstamp : List Timestamp) (v : Nat)
    (hb : (Lit.mkLit v true).toInt < tstamp.length) (h : IntervalsByStamp tstamp) :
    IntervalsByStamp (remove_from_stamps tstamp v) := by
  obtain ⟨hlen, _, _, hint⟩ := remove_from_stamps_clears tstamp v hb
  intro i hi j hj hor
  rw [hlen] at hi hj
  rw [(hint i hi STAMP_IRRED).1, (hint i hi STAMP_IRRED).2, (hint j hj STAMP_IRRED).1,
    (hint j hj STAMP_IRRED).2] at hor ⊢
  exact h i hi j hj hor

/-- In such a table a stamp names one interval among the literals of every list
inside the table. -/
theorem tiesShareInterval_of_intervalsByStamp (tstamp : List Timestamp) (lits : List Lit)
    (h : IntervalsByStamp tstamp)
    (hin : ∀ l ∈ lits, l.toInt < tstamp.length ∧ l.neg.toInt < tstamp.length) :
    tiesShareInterval tstamp lits := by
  intro a ha b hb
  refine ⟨?_, ?_⟩
  · intro hor
    have := h a.toInt (hin a ha).1 b.toInt (hin b hb).1 hor
    simp only [intervalOf, startOf, endOf, this.1, this.2]
  · intro hor
    have := h a.neg.toInt (hin a ha).2 b.neg.toInt (hin b hb).2 hor
    simp only [intervalOfNeg, startOf, endOf, this.1, this.2]

/-! ## C18: combining aggregates is pointwise addition -/

/-- C18: for `ClauseUsageStats`, `CleaningStats::Data` and `CleaningStats`
(with its nested `preRemove`, `removed` and `remain`), after `a += b` every
integer field of `a` is the sum modulo `2^64` of the two operands' fields; on
those fields the operation is commutative and associative, and the
default-constructed record is an identity on both sides (for fields in the
range of their 64-bit type). -/
theorem addAssign_pointwise (u1 u2 u3 : ClauseUsageStats) (d1 d2 d3 : CleaningStats.Data)
    (s1 s2 s3 : CleaningStats) (ty : clauseCleaningTypes)
    (hu : inRange64 u1.intFields) (hd : inRange64 d1.intFields)
    (hs : inRange64 s1.intFields) :
    ((u1.addAssign u2).intFields = sums64 u1.intFields u2.intFields ∧
      (d1.addAssign d2).intFields = sums64 d1.intFields d2.intFields ∧
      (s1.addAssign s2).intFields = sums64 s1.intFields s2.intFields) ∧
    ((u1.addAssign u2).intFields = (u2.addAssign u1).intFields ∧
      (d1.addAssign d2).intFields = (d2.addAssign d1).intFields ∧
      (s1.addAssign s2).intFields = (s2.addAssign s1).intFields) ∧
    (((u1.addAssign u2).addAssign u3).intFields = (u1.addAssign (u2.addAssign u3)).intFields ∧
      ((d1.addAssign d2).addAssign d3).intFields = (d1.addAssign (d2.addAssign d3)).intFields ∧
      ((s1.addAssign s2).addAssign s3).intFields =
        (s1.addAssign (s2.addAssign s3)).intFields) ∧
    ((u1.addAssign ClauseUsageStats.init).intFields = u1.intFields ∧
      (ClauseUsageStats.init.addAssign u1).intFields = u1.intFields ∧
      (d1.addAssign CleaningStats.Data.init).intFields = d1.intFields ∧
      (CleaningStats.Data.init.addAssign d1).intFields = d1.intFields ∧
      (s1.addAssign (CleaningStats.init ty)).intFields = s1.intFields ∧
      ((CleaningStats.init ty).addAssign s1).intFields = s1.intFields) := by
  obtain ⟨pu, cu, au, iu⟩ := usage_addAssign u1 u2 u3
  obtain ⟨pd, cd, ad, id⟩ := data_addAssign d1 d2 d3
  obtain ⟨ps, cs, as, is⟩ := cleaning_addAssign s1 s2 s3 ty
  exact ⟨⟨pu, pd, ps⟩, ⟨cu, cd, cs⟩, ⟨au, ad, as⟩,
    (iu hu).1, (iu hu).2, (id hd).1, (id hd).2, (is hs).1, (is hs).2⟩

/-- C18 at a concrete input: `exampleCleaning` added to itself and to the
default record. -/
theorem addAssign_pointwise_witness :
    (inRange64 exampleUsage.intFields ∧ inRange64 (exampleData 2 6).intFields ∧
      inRange64 exampleCleaning.intFields) ∧
    (exampleCleaning.addAssign exampleCleaning).intFields =
      sums64 exampleCleaning.intFields exampleCleaning.intFields ∧
    (exampleCleaning.addAssign
      (CleaningStats.init clauseCleaningTypes.CLEAN_CLAUSES_SIZE_BASED)).intFields =
      exampleCleaning.intFields :=
  ⟨⟨by decide, by decide, by decide⟩,
    (addAssign_pointwise exampleUsage exampleUsage exampleUsage (exampleData 2 6)
      (exampleData 2 6) (exampleData 2 6) exampleCleaning exampleCleaning exampleCleaning
      clauseCleaningTypes.CLEAN_CLAUSES_SIZE_BASED (by decide) (by decide) (by decide)).1.2.2,
    (addAssign_pointwise exampleUsage exampleUsage exampleUsage (exampleData 2 6)
      (exampleData 2 6) (exampleData 2 6) exampleCleaning exampleCleaning exampleCleaning
      clauseCleaningTypes.CLEAN_CLAUSES_SIZE_BASED (by decide) (by decide)
      (by decide)).2.2.2.2.2.2.2.1⟩

/-! ## Fuel of the sweep -/

/-- A sweep that has returned returns the same with more fuel. -/
theorem clRemLoop_succ (tstamp : List Timestamp) :
    ∀ (fuel : Nat) (norm inv : List Lit) (v : Bool),
      clRemLoop tstamp fuel norm inv = some v →
      clRemLoop tstamp (fuel + 1) norm inv = some v := by
  intro fuel
  induction fuel with
  | zero => intro norm inv v h; simp [clRemLoop] at h
  | succ fuel ih =>
    intro norm inv v h
    cases norm with
    | nil => simp [clRemLoop] at h
    | cons p norm =>
      cases inv with
      | nil => simp [clRemLoop] at h
      | cons n inv =>
        rw [clRemLoop] at h ⊢
        split_ifs at h ⊢
        · exact h
        · exact ih _ _ _ h
        · exact h
        · exact ih _ _ _ h
        · exact h

/-- One iteration of the sweep returns, or moves `lpos` by one, or moves
`lneg` by one. -/
theorem clRemLoop_step (tstamp : List Timestamp) (p n : Lit) (norm inv : List Lit) :
    (∃ b, clRemLoop tstamp 1 (p :: norm) (n :: inv) = some b) ∨
    (norm ≠ [] ∧ ∀ fuel, clRemLoop tstamp (fuel + 1) (p :: norm) (n :: inv) =
      clRemLoop tstamp fuel norm (n :: inv)) ∨
    (inv ≠ [] ∧ ∀ fuel, clRemLoop tstamp (fuel + 1) (p :: norm) (n :: inv) =
      clRemLoop tstamp fuel (p :: norm) inv) := by
  by_cases h1 : startOf tstamp STAMP_IRRED n.neg ≥ startOf tstamp STAMP_IRRED p
  · cases norm with
    | nil => exact Or.inl ⟨false, by simp [clRemLoop, h1]⟩
    | cons p2 norm =>
      refine Or.inr (Or.inl ⟨by simp, fun fuel => ?_⟩)
      rw [clRemLoop]
      simp [h1]
  · by_cases h2 : endOf tstamp STAMP_IRRED n.neg ≤ endOf tstamp STAMP_IRRED p
    · cases inv with
      | nil => exact Or.inl ⟨false, by simp [clRemLoop, h1, h2]⟩
      | cons n2 inv =>
        refine Or.inr (Or.inr ⟨by simp, fun fuel => ?_⟩)
        rw [clRemLoop]
        simp [h1, h2]
    · exact Or.inl ⟨true, by simp [clRemLoop, h1, h2]⟩

/-! ## C20: the sweep terminates -/

/-- C20: for every table, every pair of comparison functors and every
non-empty literal list, the sweep of `stampBasedClRem` over the two sorted
vectors returns within `2*|lits| - 1` iterations, with the verdict that
`stampBasedClRem` returns, and without reading a cursor at the end of its
vector; every iteration returns or advances exactly one of the two cursors by
one. -/
theorem stampBasedClRem_terminates (S : Sorters) (tstamp : List Timestamp) (lits : List Lit)
    (hne : lits ≠ []) :
    (∃ v, clRemLoop tstamp (2 * lits.length - 1)
        (stable_sort (S.StampSorter tstamp STAMP_IRRED false) lits)
        (stable_sort (S.StampSorterInv tstamp STAMP_IRRED false) lits) = some v ∧
      stampBasedClRem S tstamp lits = some v) ∧
    ∀ (p n : Lit) (norm inv : List Lit),
      (∃ b, clRemLoop tstamp 1 (p :: norm) (n :: inv) = some b) ∨
      (norm ≠ [] ∧ ∀ fuel, clRemLoop tstamp (fuel + 1) (p :: norm) (n :: inv) =
        clRemLoop tstamp fuel norm (n :: inv)) ∨
      (inv ≠ [] ∧ ∀ fuel, clRemLoop tstamp (fuel + 1) (p :: norm) (n :: inv) =
        clRemLoop tstamp fuel (p :: norm) inv) := by
  refine ⟨?_, clRemLoop_step tstamp⟩
  have hpos : lits.length > 0 := List.length_pos.mpr hne
  obtain ⟨v, hv⟩ := clRemLoop_returns tstamp (2 * lits.length - 1)
    (stable_sort (S.StampSorter tstamp STAMP_IRRED false) lits)
    (stable_sort (S.StampSorterInv tstamp STAMP_IRRED false) lits)
    (stable_sort_ne_nil _ _ hne) (stable_sort_ne_nil _ _ hne)
    (by rw [stable_sort_length, stable_sort_length]; omega)
  refine ⟨v, hv, ?_⟩
  have h2 := clRemLoop_succ tstamp _ _ _ _ hv
  unfold stampBasedClRem
  simp only [hpos, if_true, stable_sort_length]
  have he : 2 * lits.length - 1 + 1 = lits.length + lits.length := by omega
  rw [he] at h2
  exact h2

/-- C20 at a concrete input: the clause `{¬1, 3}` on `exampleTable` returns
within 3 iterations. -/
theorem stampBasedClRem_terminates_witness :
    [Lit.mk 3, Lit.mk 6] ≠ [] ∧
    ∃ v, clRemLoop exampleTable (2 * [Lit.mk 3, Lit.mk 6].length - 1)
        (stable_sort (specSorters.StampSorter exampleTable STAMP_IRRED false)
          [Lit.mk 3, Lit.mk 6])
        (stable_sort (specSorters.StampSorterInv exampleTable STAMP_IRRED false)
          [Lit.mk 3, Lit.mk 6]) = some v ∧
      stampBasedClRem specSorters exampleTable [Lit.mk 3, Lit.mk 6] = some v :=
  ⟨by decide,
    (stampBasedClRem_terminates specSorters exampleTable [Lit.mk 3, Lit.mk 6] (by decide)).1⟩

/-! ## The sweep on cursor positions -/

theorem insertStable_eq_orderedInsert (key : Lit → Nat) (x : Lit) (l : List Lit) :
    insertStable (fun a b => decide (key a < key b)) x l =
      List.orderedInsert (fun a b => key a ≤ key b) x l := by
  induction l with
  | nil => rfl
  | cons y ys ih =>
    simp only [insertStable, List.orderedInsert, decide_eq_true_eq]
    by_cases h : key y < key x
    · have h' : ¬ key x ≤ key y := by omega
      simp only [h, h', if_true, if_false, ih]
    · have h' : key x ≤ key y := by omega
      simp only [h, h', if_true, if_false]

/-- A stable sort by the strict comparison of a key is the ascending sort by
that key. -/
theorem stable_sort_eq_sortAscBy (key : Lit → Nat) (l : List Lit) :
    stable_sort (fun a b => decide (key a < key b)) l = sortAscBy key l := by
  induction l with
  | nil => rfl
  | cons x xs ih =>
    simp only [stable_sort, sortAscBy, List.insertionSort] at ih ⊢
    rw [ih, insertStable_eq_orderedInsert]

/-- The loop of `stampBasedClRem` on what is left of the two vectors is the
sweep on cursor positions whose first test compares start stamps. -/
theorem clRemLoop_refines (tstamp : List Timestamp) (norm inv : List Lit) :
    ∀ (fuel i j : Nat), i < norm.length → j < inv.length →
      clRemLoop tstamp fuel (norm.drop i) (inv.drop j) =
        specSweepAt (fun n => startOf tstamp STAMP_IRRED n.neg) tstamp norm inv fuel i j := by
  intro fuel
  induction fuel with
  | zero =>
    intro i j _ _
    simp [clRemLoop, specSweepAt]
  | succ fuel ih =>
    intro i j hi hj
    have hn : norm.drop i = norm[i] :: norm.drop (i + 1) := List.drop_eq_getElem_cons hi
    have hv : inv.drop j = inv[j] :: inv.drop (j + 1) := List.drop_eq_getElem_cons hj
    have hemp_n : (norm.drop (i + 1)).isEmpty = true ↔ ¬ (i + 1 < norm.length) := by
      rw [List.isEmpty_eq_true, List.drop_eq_nil_iff]
      omega
    have hemp_v : (inv.drop (j + 1)).isEmpty = true ↔ ¬ (j + 1 < inv.length) := by
      rw [List.isEmpty_eq_true, List.drop_eq_nil_iff]
      omega
    have hrec1 : i + 1 < norm.length →
        clRemLoop tstamp fuel (norm.drop (i + 1)) (inv[j] :: inv.drop (j + 1)) =
          specSweepAt (fun n => startOf tstamp STAMP_IRRED n.neg) tstamp norm inv fuel
            (i + 1) j := by
      intro h2
      rw [← hv]
      exact ih (i + 1) j h2 hj
    have hrec2 : j + 1 < inv.length →
        clRemLoop tstamp fuel (norm[i] :: norm.drop (i + 1)) (inv.drop (j + 1)) =
          specSweepAt (fun n => startOf tstamp STAMP_IRRED n.neg) tstamp norm inv fuel
            i (j + 1) := by
      intro h2
      rw [← hn]
      exact ih i (j + 1) hi h2
    rw [hn, hv, clRemLoop, specSweepAt]
    simp only [List.getElem?_eq_getElem hi, List.getElem?_eq_getElem hj]
    by_cases h1 : startOf tstamp STAMP_IRRED inv[j].neg ≥ startOf tstamp STAMP_IRRED norm[i]
    · simp only [h1, if_true]
      by_cases h2 : i + 1 < norm.length
      · have h3 : ¬ (norm.drop (i + 1)).isEmpty = true := fun h4 => (hemp_n.mp h4) h2
        simp only [h2, h3, if_true, if_false]
        exact hrec1 h2
      · have h3 : (norm.drop (i + 1)).isEmpty = true := hemp_n.mpr h2
        simp only [h2, h3, if_true, if_false]
    · simp only [h1, if_false]
      by_cases h5 : endOf tstamp STAMP_IRRED inv[j].neg ≤ endOf tstamp STAMP_IRRED norm[i]
      · simp only [h5, if_true]
        by_cases h2 : j + 1 < inv.length
        · have h3 : ¬ (inv.drop (j + 1)).isEmpty = true := fun h4 => (hemp_v.mp h4) h2
          simp only [h2, h3, if_true, if_false]
          exact hrec2 h2
        · have h3 : (inv.drop (j + 1)).isEmpty = true := hemp_v.mpr h2
          simp only [h2, h3, if_true, if_false]
      · simp only [h5, if_false]

/-! ## C19: the sweep that `stampBasedClRem` runs -/

/-- C19, as stated, fails: in the sweep that the spec words, the first test
compares `end[complement(*lneg)]` with `start[*lpos]`. On the clause `{¬1, 3}`
of `exampleTable` that sweep returns false, and `stampBasedClRem` returns
true. -/
theorem specClRem_differs :
    specClRem exampleTable [Lit.mk 3, Lit.mk 6] = some false ∧
    stampBasedClRem specSorters exampleTable [Lit.mk 3, Lit.mk 6] = some true :=
  ⟨by decide, by decide⟩

/-- C19, amended: the first test of the sweep compares start stamps. For every
table, every pair of comparison functors and every non-empty literal list,
`stampBasedClRem` returns a verdict, and it is the verdict of this sweep over
its two sorted vectors, both cursors at the front: if
`start[complement(*lneg)] >= start[*lpos]` advance `lpos` (false when it is
exhausted); else if `end[complement(*lneg)] <= end[*lpos]` advance `lneg`
(false when it is exhausted); else true. With the orders that the spec gives,
the two vectors are `norm` sorted ascending by `start[·,IRRED]` and `inv`
sorted ascending by `end[complement(·),IRRED]`. -/
theorem stampBasedClRem_refines (S : Sorters) (tstamp : List Timestamp) (lits : List Lit)
    (hne : lits ≠ []) :
    (∃ v, stampBasedClRem S tstamp lits = some v ∧
      specSweepAt (fun n => startOf tstamp STAMP_IRRED n.neg) tstamp
        (stable_sort (S.StampSorter tstamp STAMP_IRRED false) lits)
        (stable_sort (S.StampSorterInv tstamp STAMP_IRRED false) lits)
        ((stable_sort (S.StampSorter tstamp STAMP_IRRED false) lits).length +
          (stable_sort (S.StampSorterInv tstamp STAMP_IRRED false) lits).length) 0 0 =
        some v) ∧
    stable_sort (specSorters.StampSorter tstamp STAMP_IRRED false) lits =
      sortAscBy (fun l => startOf tstamp STAMP_IRRED l) lits ∧
    stable_sort (specSorters.StampSorterInv tstamp STAMP_IRRED false) lits =
      sortAscBy (fun l => endOf tstamp STAMP_IRRED l.neg) lits ∧
    (∃ v, stampBasedClRem specSorters tstamp lits = some v ∧
      specSweepAt (fun n => startOf tstamp STAMP_IRRED n.neg) tstamp
        (sortAscBy (fun l => startOf tstamp STAMP_IRRED l) lits)
        (sortAscBy (fun l => endOf tstamp STAMP_IRRED l.neg) lits)
        ((sortAscBy (fun l => startOf tstamp STAMP_IRRED l) lits).length +
          (sortAscBy (fun l => endOf tstamp STAMP_IRRED l.neg) lits).length) 0 0 =
        some v) := by
  have hgen : ∀ S' : Sorters, ∃ v, stampBasedClRem S' tstamp lits = some v ∧
      specSweepAt (fun n => startOf tstamp STAMP_IRRED n.neg) tstamp
        (stable_sort (S'.StampSorter tstamp STAMP_IRRED false) lits)
        (stable_sort (S'.StampSorterInv tstamp STAMP_IRRED false) lits)
        ((stable_sort (S'.StampSorter tstamp STAMP_IRRED false) lits).length +
          (stable_sort (S'.StampSorterInv tstamp STAMP_IRRED false) lits).length) 0 0 =
        some v := by
    intro S'
    obtain ⟨v, hv, hloop⟩ := stampBasedClRem_returns S' tstamp lits hne
    have hpos : 0 < lits.length := List.length_pos.mpr hne
    have h := clRemLoop_refines tstamp
      (stable_sort (S'.StampSorter tstamp STAMP_IRRED false) lits)
      (stable_sort (S'.StampSorterInv tstamp STAMP_IRRED false) lits)
      ((stable_sort (S'.StampSorter tstamp STAMP_IRRED false) lits).length +
        (stable_sort (S'.StampSorterInv tstamp STAMP_IRRED false) lits).length) 0 0
      (by rw [stable_sort_length]; exact hpos) (by rw [stable_sort_length]; exact hpos)
    simp only [List.drop_zero] at h
    exact ⟨v, hv, by rw [← h]; exact hloop⟩
  have h1 : stable_sort (specSorters.StampSorter tstamp STAMP_IRRED false) lits =
      sortAscBy (fun l => startOf tstamp STAMP_IRRED l) lits :=
    stable_sort_eq_sortAscBy (fun l => startOf tstamp STAMP_IRRED l) lits
  have h2 : stable_sort (specSorters.StampSorterInv tstamp STAMP_IRRED false) lits =
      sortAscBy (fun l => endOf tstamp STAMP_IRRED l.neg) lits :=
    stable_sort_eq_sortAscBy (fun l => endOf tstamp STAMP_IRRED l.neg) lits
  refine ⟨hgen S, h1, h2, ?_⟩
  rw [← h1, ← h2]
  exact hgen specSorters

/-- C19, amended, at a concrete input: the clause `{¬1, 3}` on `exampleTable`,
where the sweep on start stamps returns true in its first round. -/
theorem stampBasedClRem_refines_witness :
    [Lit.mk 3, Lit.mk 6] ≠ [] ∧
    (∃ v, stampBasedClRem specSorters exampleTable [Lit.mk 3, Lit.mk 6] = some v ∧
      specSweepAt (fun n => startOf exampleTable STAMP_IRRED n.neg) exampleTable
        (sortAscBy (fun l => startOf exampleTable STAMP_IRRED l) [Lit.mk 3, Lit.mk 6])
        (sortAscBy (fun l => endOf exampleTable STAMP_IRRED l.neg) [Lit.mk 3, Lit.mk 6])
        ((sortAscBy (fun l => startOf exampleTable STAMP_IRRED l) [Lit.mk 3, Lit.mk 6]).length +
          (sortAscBy (fun l => endOf exampleTable STAMP_IRRED l.neg)
            [Lit.mk 3, Lit.mk 6]).length) 0 0 = some v) ∧
    specSweepAt (fun n => startOf exampleTable STAMP_IRRED n.neg) exampleTable
      (sortAscBy (fun l => startOf exampleTable STAMP_IRRED l) [Lit.mk 3, Lit.mk 6])
      (sortAscBy (fun l => endOf exampleTable STAMP_IRRED l.neg) [Lit.mk 3, Lit.mk 6]) 1 0 0 =
      some true :=
  ⟨by decide,
    (stampBasedClRem_refines specSorters exampleTable [Lit.mk 3, Lit.mk 6] (by decide)).2.2.2,
    by decide⟩

/-! ## C21: a verdict `true` names a nested pair -/

/-- C21: for every table, every pair of comparison functors and every
non-empty literal list, `stampBasedClRem` returns a verdict, and when the
verdict is true the list contains literals `a` and `b` with
`start[complement(a)] < start[b]` and `end[complement(a)] > end[b]`: the
interval of `b` lies strictly inside the interval of the complement of `a`. -/
theorem stampBasedClRem_true_only_if_inside (S : Sorters) (tstamp : List Timestamp)
    (lits : List Lit) (hne : lits ≠ []) :
    ∃ v, stampBasedClRem S tstamp lits = some v ∧
      (v = true → ∃ a ∈ lits, ∃ b ∈ lits,
        startOf tstamp STAMP_IRRED a.neg < startOf tstamp STAMP_IRRED b ∧
        endOf tstamp STAMP_IRRED a.neg > endOf tstamp STAMP_IRRED b) := by
  obtain ⟨v, hv, hloop⟩ := stampBasedClRem_returns S tstamp lits hne
  refine ⟨v, hv, ?_⟩
  intro hvt
  rw [hvt] at hloop
  obtain ⟨a, ha, b, hb, hab⟩ := clRemLoop_sound tstamp _ _ _ hloop
  exact ⟨a, (mem_stable_sort _ _ _).mp ha, b, (mem_stable_sort _ _ _).mp hb, hab.1, hab.2⟩

/-- C21 at a concrete input: the clause `{¬1, 3}` on `exampleTable`, where the
verdict is true. -/
theorem stampBasedClRem_true_only_if_inside_witness :
    [Lit.mk 3, Lit.mk 6] ≠ [] ∧
    stampBasedClRem specSorters exampleTable [Lit.mk 3, Lit.mk 6] = some true ∧
    ∃ v, stampBasedClRem specSorters exampleTable [Lit.mk 3, Lit.mk 6] = some v ∧
      (v = true → ∃ a ∈ [Lit.mk 3, Lit.mk 6], ∃ b ∈ [Lit.mk 3, Lit.mk 6],
        startOf exampleTable STAMP_IRRED a.neg < startOf exampleTable STAMP_IRRED b ∧
        endOf exampleTable STAMP_IRRED a.neg > endOf exampleTable STAMP_IRRED b) :=
  ⟨by decide, by decide,
    stampBasedClRem_true_only_if_inside specSorters exampleTable [Lit.mk 3, Lit.mk 6]
      (by decide)⟩

/-! ## C22: distinct stamps fix both sorted orders -/

/-- The comparison by a key that is injective on the literals of a list is a
strict total order on them. -/
theorem keyOrder_strictTotalOn (key : Lit → Nat) (rev : Bool) (l : List Lit)
    (hinj : ∀ a ∈ l, ∀ b ∈ l, a ≠ b → key a ≠ key b) :
    StrictTotalOn (keyOrder key rev) l := by
  refine ⟨?_, ?_, ?_⟩
  · intro a _ b _ h
    cases rev <;> simp only [keyOrder, Bool.false_eq_true, if_false, if_true, gt_iff_lt,
      decide_eq_true_eq, decide_eq_false_iff_not] at h ⊢ <;> omega
  · intro a _ b _ c _ h1 h2
    cases rev <;> simp only [keyOrder, Bool.false_eq_true, if_false, if_true, gt_iff_lt,
      decide_eq_true_eq] at h1 h2 ⊢ <;> omega
  · intro a ha b hb hab
    have hne := hinj a ha b hb hab
    cases rev <;> simp only [keyOrder, Bool.false_eq_true, if_false, if_true, gt_iff_lt,
      decide_eq_true_eq] <;> omega

/-- C22: for every table and every non-empty literal list `L` in which the
`IRRED` start and end stamps of the literals are pairwise distinct and those of
their complements are pairwise distinct, when each of the two comparison
functors compares one of these stamps (the start or the end stamp of the
literal for `stampNorm`, of its complement for `stampInv`, ascending or
descending), `stampBasedClRem` returns a verdict and returns the same verdict
on every permutation of `L`: both sorted vectors are the same. -/
theorem stampBasedClRem_perm_of_distinct (S : Sorters) (tstamp : List Timestamp)
    (lits lits' : List Lit) (hne : lits ≠ []) (hp : lits.Perm lits')
    (hdist : distinctStamps tstamp lits)
    (hN : ∃ rev,
      S.StampSorter tstamp STAMP_IRRED false =
        keyOrder (fun l => startOf tstamp STAMP_IRRED l) rev ∨
      S.StampSorter tstamp STAMP_IRRED false =
        keyOrder (fun l => endOf tstamp STAMP_IRRED l) rev)
    (hI : ∃ rev,
      S.StampSorterInv tstamp STAMP_IRRED false =
        keyOrder (fun l => startOf tstamp STAMP_IRRED l.neg) rev ∨
      S.StampSorterInv tstamp STAMP_IRRED false =
        keyOrder (fun l => endOf tstamp STAMP_IRRED l.neg) rev) :
    (∃ v, stampBasedClRem S tstamp lits = some v ∧ stampBasedClRem S tstamp lits' = some v) ∧
    stable_sort (S.StampSorter tstamp STAMP_IRRED false) lits' =
      stable_sort (S.StampSorter tstamp STAMP_IRRED false) lits ∧
    stable_sort (S.StampSorterInv tstamp STAMP_IRRED false) lits' =
      stable_sort (S.StampSorterInv tstamp STAMP_IRRED false) lits := by
  have hNorm : StrictTotalOn (S.StampSorter tstamp STAMP_IRRED false) lits := by
    obtain ⟨rev, h | h⟩ := hN
    · rw [h]
      exact keyOrder_strictTotalOn _ rev lits (fun a ha b hb hab => (hdist a ha b hb hab).1)
    · rw [h]
      exact keyOrder_strictTotalOn _ rev lits (fun a ha b hb hab => (hdist a ha b hb hab).2.1)
  have hInv : StrictTotalOn (S.StampSorterInv tstamp STAMP_IRRED false) lits := by
    obtain ⟨rev, h | h⟩ := hI
    · rw [h]
      exact keyOrder_strictTotalOn _ rev lits
        (fun a ha b hb hab => (hdist a ha b hb hab).2.2.1)
    · rw [h]
      exact keyOrder_strictTotalOn _ rev lits
        (fun a ha b hb hab => (hdist a ha b hb hab).2.2.2)
  have e1 := stable_sort_eq_of_perm _ hp hNorm
  have e2 := stable_sort_eq_of_perm _ hp hInv
  refine ⟨?_, e1.symm, e2.symm⟩
  obtain ⟨v, hv, _⟩ := stampBasedClRem_returns S tstamp lits hne
  refine ⟨v, hv, ?_⟩
  rw [← hv]
  unfold stampBasedClRem
  simp only [← e1, ← e2, hp.length_eq]

/-- C22 at a concrete input: the clause `{1, ¬3}` and its permutation on
`exampleTable`, with the orders of the spec. -/
theorem stampBasedClRem_perm_of_distinct_witness :
    ([Lit.mk 2, Lit.mk 7] ≠ [] ∧ List.Perm [Lit.mk 2, Lit.mk 7] [Lit.mk 7, Lit.mk 2] ∧
      distinctStamps exampleTable [Lit.mk 2, Lit.mk 7]) ∧
    ∃ v, stampBasedClRem specSorters exampleTable [Lit.mk 2, Lit.mk 7] = some v ∧
      stampBasedClRem specSorters exampleTable [Lit.mk 7, Lit.mk 2] = some v :=
  ⟨⟨by decide, List.Perm.swap _ _ _, by decide⟩,
    (stampBasedClRem_perm_of_distinct specSorters exampleTable [Lit.mk 2, Lit.mk 7]
      [Lit.mk 7, Lit.mk 2] (by decide) (List.Perm.swap _ _ _) (by decide)
      ⟨false, Or.inl rfl⟩ ⟨false, Or.inr rfl⟩).1⟩

/-! ## C23: what `combineStats` does not merge -/

/-- C23: for every two `ClauseStats`, `combineStats` gives activity 0 and the
resolution counts `binCl = triCl = longCl = 0`, whatever the operands held, so
`Clause::combineStats` leaves the clause with activity 0 and no resolution
counts; the statistics of a bumped clause merged with themselves show it. -/
theorem combineStats_resets (first second : ClauseStats) (c : Clause) :
    (ClauseStats.combineStats first second).activity = 0 ∧
    (ClauseStats.combineStats first second).resolutions.binCl = 0 ∧
    (ClauseStats.combineStats first second).resolutions.triCl = 0 ∧
    (ClauseStats.combineStats first second).resolutions.longCl = 0 ∧
    (c.combineStats second).stats.activity = 0 ∧
    (c.combineStats second).stats.resolutions = ResolutionTypes.init ∧
    (bumpedStats.resolutions = { binCl := 1, triCl := 2, longCl := 3 } ∧
      bumpedStats.activity = 3 ∧
      (ClauseStats.combineStats bumpedStats bumpedStats).resolutions =
        { binCl := 0, triCl := 0, longCl := 0 } ∧
      (ClauseStats.combineStats bumpedStats bumpedStats).activity = 0 ∧
      (ClauseStats.combineStats bumpedStats bumpedStats).numProp = 10) :=
  ⟨rfl, rfl, rfl, rfl, rfl, rfl, rfl, rfl, rfl, rfl, by decide⟩

end CMSat
